import Mathlib

/-
Formal model of the birdnet-overlay server (src/birdnet-overlay/server.py).

The Python functions named in the claims are translated into Lean as
executable definitions over explicit state:

  * float arithmetic is modelled by exact rationals;
  * the sqlite tables are modelled by in-memory lists;
  * fallible operations return Option or Except;
  * external primitives that the claims do not inspect (the SHA-1 / PBKDF2
    digests, the base-10 logarithm, the per-species summary aggregation)
    are taken as explicit function parameters, so every theorem quantifies
    over them and uses only the properties the source code itself uses.

Definitions come first, theorems afterwards.
-/

namespace Birdnet

/-- Raw detection-confidence input as classified by Python's float():
either None, a value float() accepts (after the str strip / percent-sign
removal the source performs), or one float() rejects. -/
inductive ConfInput where
  | null : ConfInput
  | numeric (q : ℚ) : ConfInput
  | unparseable : ConfInput
deriving DecidableEq

/-- Python min of two rationals (ties keep the value). -/
def pyMin (a b : ℚ) : ℚ := if a ≤ b then a else b

/-- Python max of two rationals (ties keep the value). -/
def pyMax (a b : ℚ) : ℚ := if a ≤ b then b else a

/-- server.py normalize_confidence (lines 1518-1529): None and unparseable
inputs give None; a numeric input above 1 is divided by 100; the result is
clamped into [0, 1] by max(0.0, min(1.0, n)). -/
def normalize_confidence : ConfInput → Option ℚ
  | ConfInput.null => none
  | ConfInput.unparseable => none
  | ConfInput.numeric q =>
      let n := if q > 1 then q / 100 else q
      some (pyMax 0 (pyMin 1 n))

/-- server.py bump_log_revision (lines 123-130): candidate is the wall clock
in milliseconds; if it does not exceed the previous revision it becomes
previous + 1. -/
def bump_log_revision (prev nowMs : Int) : Int :=
  if nowMs ≤ prev then prev + 1 else nowMs

/-- The persistent-store state the revision and summary-cache claims need:
the process-wide log revision, the detections table as (id, row) pairs with
id the PRIMARY KEY, and the single summary_cache row with cache_key
'log_summary' (cache_key is the table's PRIMARY KEY, so INSERT OR REPLACE
keeps at most one such row), holding the revision it was built against and
its payload. -/
structure Store (α β : Type) where
  revision : Int
  det : List (String × α)
  cache : Option (Int × β)

/-- Sqlite INSERT OR REPLACE on a table whose first component is the primary
key: any row with the same key is deleted and the new row inserted. -/
def insertOrReplace {α : Type} (tbl : List (String × α)) (row : String × α) :
    List (String × α) :=
  (tbl.filter (fun r => r.1 ≠ row.1)) ++ [row]

/-- server.py append_log (lines 917-951): an empty entry list returns at
once; otherwise every entry is given an id (entry_id keeps an existing id
and otherwise derives one from a SHA-1 digest; the whole assignment is the
parameter idOf), the rows are inserted with INSERT OR REPLACE, the log
revision is bumped, and the summary cache is invalidated (its row deleted).
The in-memory species aggregates are not part of this model. -/
def append_log {α β : Type} (idOf : α → String) (entries : List α)
    (nowMs : Int) (st : Store α β) : Store α β :=
  if entries.isEmpty then st
  else
    { revision := bump_log_revision st.revision nowMs
      det := ((entries.map (fun e => (idOf e, e))).foldl insertOrReplace st.det)
      cache := none }

/-- server.py delete_log_entry (lines 1411-1427): a falsy key returns False;
otherwise DELETE FROM detections WHERE id = key runs, and only when a row
was actually removed are the revision bumped and the cache invalidated. -/
def delete_log_entry {α β : Type} (key : String) (nowMs : Int)
    (st : Store α β) : Store α β × Bool :=
  if key = "" then (st, false)
  else
    let removed := st.det.any (fun r => r.1 = key)
    let remaining := st.det.filter (fun r => r.1 ≠ key)
    if removed then
      ({ revision := bump_log_revision st.revision nowMs
         det := remaining
         cache := none }, true)
    else ({ st with det := remaining }, false)

/-- server.py get_cached_summary (lines 752-774): the SELECT matches the
log_summary row only when its stored log_revision equals the current
revision; payloads were stored by set_cached_summary as JSON dicts, so the
stored value is returned directly. -/
def get_cached_summary {α β : Type} (st : Store α β) : Option β :=
  match st.cache with
  | some (rev, p) => if rev = st.revision then some p else none
  | none => none

/-- server.py set_cached_summary (lines 777-793): INSERT OR REPLACE the
single row keyed 'log_summary' with the current revision and the payload. -/
def set_cached_summary {α β : Type} (p : β) (st : Store α β) : Store α β :=
  { st with cache := some (st.revision, p) }

/-- server.py summarize_log (lines 1318-1408): return the cached payload if
it is valid; otherwise recompute from the full detections table - an empty
table gives the fixed empty payload stamped with the current revision,
otherwise the per-species aggregation (the parameters emptySummary and
compute) - and store the result via set_cached_summary. -/
def summarize_log {α β : Type} (emptySummary : Int → β)
    (compute : List (String × α) → β) (st : Store α β) : β × Store α β :=
  match get_cached_summary st with
  | some c => (c, st)
  | none =>
      if st.det.isEmpty then
        let p := emptySummary st.revision
        (p, set_cached_summary p st)
      else
        let p := compute st.det
        (p, set_cached_summary p st)

/-- A row of the detections or events table as the read queries see it:
the indexed timestamp column (compared by sqlite's byte-wise BINARY
collation, which agrees with Lean's String order on the code points), the
unique integer rowid, and the rest of the row. -/
structure DbRow (α : Type) where
  ts : String
  rowid : Nat
  entry : α

/-- The comparator realised by ORDER BY timestamp DESC, rowid DESC:
row a may precede row b exactly when a is at least as recent as b. -/
def newestFirst {α : Type} (a b : DbRow α) : Bool :=
  decide (b.ts < a.ts ∨ (b.ts = a.ts ∧ b.rowid ≤ a.rowid))

/-- server.py read_log (lines 961-986): a non-null limit that is not
positive returns []; otherwise the rows are selected newest first with the
limit applied and the selected page is reversed before being returned. -/
def read_log {α : Type} (limit : Option Int) (rows : List (DbRow α)) :
    List (DbRow α) :=
  match limit with
  | some l =>
      if l ≤ 0 then []
      else (((rows.mergeSort newestFirst).take l.toNat).reverse)
  | none => ((rows.mergeSort newestFirst).reverse)

/-- server.py read_events (lines 1468-1490): the identical query shape over
the events table. -/
def read_events {α : Type} (limit : Option Int) (rows : List (DbRow α)) :
    List (DbRow α) :=
  match limit with
  | some l =>
      if l ≤ 0 then []
      else (((rows.mergeSort newestFirst).take l.toNat).reverse)
  | none => ((rows.mergeSort newestFirst).reverse)

/-- Python's str.isspace set (the characters str.strip removes), restricted
to the whitespace code points Python recognises. -/
def pyIsSpace (c : Char) : Bool :=
  (9 ≤ c.toNat && c.toNat ≤ 13) || (28 ≤ c.toNat && c.toNat ≤ 32)
  || c.toNat = 133 || c.toNat = 160 || c.toNat = 0x1680
  || (0x2000 ≤ c.toNat && c.toNat ≤ 0x200A) || c.toNat = 0x2028 || c.toNat = 0x2029
  || c.toNat = 0x202F || c.toNat = 0x205F || c.toNat = 0x3000

/-- str.strip() with no argument: whitespace removed from both ends. -/
def pyStrip (l : List Char) : List Char :=
  ((l.dropWhile pyIsSpace).reverse.dropWhile pyIsSpace).reverse

/-- ASCII lower-casing, the fragment of str.lower the URLs and species
slugs exercise. -/
def asciiLower (c : Char) : Char :=
  if 65 ≤ c.toNat ∧ c.toNat ≤ 90 then Char.ofNat (c.toNat + 32) else c

def isAlnumAscii (c : Char) : Bool :=
  (97 ≤ c.toNat && c.toNat ≤ 122) || (65 ≤ c.toNat && c.toNat ≤ 90)
  || (48 ≤ c.toNat && c.toNat ≤ 57)

/-- re.sub of one dash for every maximal run of non-alphanumerics; the
boolean records whether the previous character was part of such a run. -/
def slugAux : Bool → List Char → List Char
  | _, [] => []
  | inRun, c :: t =>
      if isAlnumAscii c then c :: slugAux false t
      else if inRun then slugAux true t
      else '-' :: slugAux true t

def slugCollapse (l : List Char) : List Char := slugAux false l

def stripDashes (l : List Char) : List Char :=
  ((l.dropWhile (fun c => c = '-')).reverse.dropWhile (fun c => c = '-')).reverse

/-- server.py slugify (lines 1094-1096): strip, lower-case, collapse
non-alphanumeric runs to dashes, trim dashes, default "unknown". -/
def slugify (s : String) : String :=
  let t := stripDashes (slugCollapse ((pyStrip s.data).map asciiLower))
  if t.isEmpty then "unknown" else String.mk t

/-- One raw prediction record as handed to update_best_clips by the
classifier worker: the species and scientific-name strings and the raw
confidence value. -/
structure Prediction where
  species : String
  scientific_name : String
  confidence : ConfInput
deriving DecidableEq

/-- Python `x.get(key, "Unknown") or "Unknown"`: the empty string is falsy
and also replaced. -/
def orUnknown (s : String) : String := if s = "" then "Unknown" else s

/-- update_best_clips line 1283: the normalized confidence, with None
replaced by -1.0. -/
def clipConfValue (c : ConfInput) : ℚ :=
  match normalize_confidence c with
  | some q => q
  | none => -1

/-- server.py compute_clip_score (lines 1229-1238): float() failures give
confidence -1.0 and snr 0.0; the score is confidence*100 + snr. -/
def compute_clip_score (confidence_value : ConfInput) (snr_db : Option ℚ) : ℚ :=
  (match confidence_value with
   | ConfInput.numeric q => q
   | _ => -1) * 100
  + (match snr_db with
     | some s => s
     | none => 0)

/-- One stored row of the best-clip index (data/clips.json): exactly the
fields update_best_clips records. The stored confidence and score are kept
raw, as JSON values that a later float()/normalize_confidence call has to
re-classify. -/
structure ClipEntry where
  species : String
  scientific_name : String
  confidence : ConfInput
  snr_db : Option ℚ
  score : ConfInput
  timestamp : String
  filename : String
deriving DecidableEq

/-- update_best_clips lines 1287-1288: the archived entry's normalized
confidence, -1.0 when absent (a missing species gives an empty dict, whose
get returns None). -/
def existingConfOf (entry : Option ClipEntry) : ℚ :=
  match entry with
  | some e => clipConfValue e.confidence
  | none => clipConfValue ConfInput.null

/-- update_best_clips lines 1290-1293: float(entry.get("score")), falling
back to compute_clip_score(existing_conf, existing_snr) when the stored
score is missing or unparseable. -/
def existingScoreOf (entry : Option ClipEntry) : ℚ :=
  match entry with
  | some e =>
      match e.score with
      | ConfInput.numeric s => s
      | _ => compute_clip_score (ConfInput.numeric (clipConfValue e.confidence)) e.snr_db
  | none => compute_clip_score (ConfInput.numeric (clipConfValue ConfInput.null)) none

/-- Python round(x, 2): round half to even at two decimals. -/
def round2 (q : ℚ) : ℚ :=
  let x := q * 100
  let f : ℤ := Int.floor x
  let d : ℚ := x - f
  let r : ℤ :=
    if d < 1/2 then f
    else if 1/2 < d then f + 1
    else (if f % 2 = 0 then f else f + 1)
  (r : ℚ) / 100

/-- Python dict assignment d[k] = v: replace in place or append. -/
def dictInsert {α : Type} (tbl : List (String × α)) (k : String) (v : α) :
    List (String × α) :=
  match tbl with
  | [] => [(k, v)]
  | (k0, v0) :: t => if k0 = k then (k, v) :: t else (k0, v0) :: dictInsert t k v

/-- The body of update_best_clips' loop (lines 1279-1313) for one
prediction. compute_snr_db of the (fixed) segment path is the parameter
segSnr; the shutil.copy2 of the winning segment is treated as succeeding,
so the OSError skip path is not modelled. -/
def clipStep (nowIso : String) (segSnr : Option ℚ)
    (index : List (String × ClipEntry)) (p : Prediction) :
    List (String × ClipEntry) :=
  let species := orUnknown p.species
  let confidence_value := clipConfValue p.confidence
  let score := compute_clip_score (ConfInput.numeric confidence_value) segSnr
  let entry := List.lookup species index
  let existing_conf := existingConfOf entry
  let existing_score := existingScoreOf entry
  if confidence_value + 1/50 < existing_conf then index
  else if score ≤ existing_score then index
  else
    dictInsert index species
      { species := species
        scientific_name := p.scientific_name
        confidence := p.confidence
        snr_db := segSnr
        score := ConfInput.numeric (round2 score)
        timestamp := nowIso
        filename := slugify species ++ ".wav" }

/-- server.py update_best_clips (lines 1273-1315): an empty prediction list
returns at once; otherwise each prediction is examined in order against the
evolving index. -/
def update_best_clips (nowIso : String) (segSnr : Option ℚ)
    (index : List (String × ClipEntry)) (predictions : List Prediction) :
    List (String × ClipEntry) :=
  if predictions.isEmpty then index
  else predictions.foldl (clipStep nowIso segSnr) index

/-- A concrete archived clip row: confidence 0.9, snr 0, stored score 10. -/
def robinEntry : ClipEntry :=
  { species := "Robin", scientific_name := "", confidence := ConfInput.numeric (9/10),
    snr_db := some 0, score := ConfInput.numeric 10, timestamp := "",
    filename := "robin.wav" }

/-- A concrete prediction for the same species with confidence 0.5. -/
def robinPrediction : Prediction :=
  { species := "Robin", scientific_name := "", confidence := ConfInput.numeric (1/2) }

/-- Python max over naturals, written with an if so it evaluates. -/
def pyMaxNat (a b : Nat) : Nat := if a ≤ b then b else a

/-- The outcome of opening and reading a segment wave file: either one of
the exceptions analyze_audio_activity catches (wave.Error, OSError or
EOFError raised anywhere while opening or reading), or the parsed header
fields together with the interleaved integer samples. wave.open rejects a
zero channel count or zero sample width with wave.Error, so those readers
never reach the content case. -/
inductive WavRead where
  | failed : WavRead
  | content (rate width channels : Nat) (nframes : Int) (samples : List Int) : WavRead

/-- audioop.rms: the integer square root of the mean square of the samples
(0 on an empty fragment). -/
def audioRms (chunk : List Int) : Nat :=
  Nat.sqrt ((chunk.map (fun s => (s * s).toNat)).sum / chunk.length)

/-- The chunk loop of analyze_audio_activity (lines 1748-1765). readframes
yields chunkFrames frames (chunkFrames * channels interleaved samples) per
step and returns nothing once the data is exhausted or the frame size is
zero, which ends the loop with (False, max_db). A chunk whose rms is zero
scores -120 dBFS without consulting the logarithm; otherwise the dBFS is
20*log10(rms/max_amp) with log10 an explicit parameter. A chunk at or above
the threshold adds its frame count to active_frames, and the call answers
active as soon as active_frames/rate reaches min_active_seconds. -/
def analyzeLoop (log10 : ℚ → ℚ) (tdb minSec : ℚ)
    (rate width channels chunkFrames : Nat) (maxAmp : ℚ)
    (samples : List Int) (activeFrames : Nat) (maxDb : ℚ) : Bool × Option ℚ :=
  if h : samples.isEmpty ∨ width * channels = 0 ∨ chunkFrames = 0 then (false, some maxDb)
  else
    let n := chunkFrames * channels
    let chunk := samples.take n
    let rms : ℚ := (audioRms chunk : ℚ)
    let db := if rms ≤ 0 ∨ maxAmp ≤ 0 then (-120 : ℚ) else 20 * log10 (rms / maxAmp)
    let maxDb2 := if maxDb < db then db else maxDb
    if tdb ≤ db then
      let framesInChunk := (chunk.length * width) / (width * channels)
      let af := activeFrames + framesInChunk
      if minSec ≤ (af : ℚ) / (rate : ℚ) then (true, some maxDb2)
      else analyzeLoop log10 tdb minSec rate width channels chunkFrames maxAmp
        (samples.drop n) af maxDb2
    else analyzeLoop log10 tdb minSec rate width channels chunkFrames maxAmp
      (samples.drop n) activeFrames maxDb2
termination_by samples.length
decreasing_by
  · push_neg at h
    obtain ⟨h1, h2, h3⟩ := h
    have hlen : samples.length ≠ 0 := by
      intro hz
      exact h1 (List.isEmpty_iff_length_eq_zero.mpr hz)
    have hch : channels ≠ 0 := by
      intro hz
      exact h2 (by rw [hz, Nat.mul_zero])
    rw [List.length_drop]
    have : 0 < chunkFrames * channels := Nat.pos_of_ne_zero (by
      intro hz
      rcases Nat.mul_eq_zero.mp hz with hz1 | hz2
      · exact h3 hz1
      · exact hch hz2)
    omega
  · push_neg at h
    obtain ⟨h1, h2, h3⟩ := h
    have hlen : samples.length ≠ 0 := by
      intro hz
      exact h1 (List.isEmpty_iff_length_eq_zero.mpr hz)
    have hch : channels ≠ 0 := by
      intro hz
      exact h2 (by rw [hz, Nat.mul_zero])
    rw [List.length_drop]
    have : 0 < chunkFrames * channels := Nat.pos_of_ne_zero (by
      intro hz
      rcases Nat.mul_eq_zero.mp hz with hz1 | hz2
      · exact h3 hz1
      · exact hch hz2)
    omega

/-- Python's substring containment (the in operator on str). -/
def containsSub (hay needle : List Char) : Bool :=
  if needle.isPrefixOf hay then true
  else
    match hay with
    | [] => false
    | _ :: t => containsSub t needle

/-- What run_birdnet does before any subprocess could exist: either it
returns ([], message) without spawning anything, or it reaches the
subprocess.run call with the built argv. -/
inductive RunOutcome where
  | failedBeforeLaunch (err : String) : RunOutcome
  | launched (argv : List String) : RunOutcome
deriving DecidableEq

/-- server.py build_birdnet_command (lines 1810-1825): a template missing
{input} or {output} raises ValueError with the fixed message; otherwise the
argv is template.format(...) fed through shlex.split. The claims never
inspect the built argv, so the substitution and shell split are the
parameter pyFormat. -/
def build_birdnet_command (pyFormat : String → List String) (template : String) :
    Except String (List String) :=
  if !(containsSub template.data "{input}".data)
      || !(containsSub template.data "{output}".data) then
    Except.error "BIRDNET_TEMPLATE must include {input} and {output}."
  else Except.ok (pyFormat template)

/-- server.py run_birdnet (lines 1839-1853) up to the launch:
resolve_output_paths (pure path bookkeeping, raising no ValueError) runs
first, then build_birdnet_command inside the same try; its ValueError is
returned as ([], str(error)) before subprocess.run is reached. -/
def run_birdnet (pyFormat : String → List String) (template : String) : RunOutcome :=
  match build_birdnet_command pyFormat template with
  | Except.error e => RunOutcome.failedBeforeLaunch e
  | Except.ok argv => RunOutcome.launched argv

/-- Break a character list at the first occurrence of c: the part before
(not containing c) and the part after. -/
def breakAtChar (c : Char) : List Char → Option (List Char × List Char)
  | [] => none
  | x :: t =>
      if x = c then some ([], t)
      else
        match breakAtChar c t with
        | some (a, b) => some (x :: a, b)
        | none => none

/-- Python str.split(c, maxsplit): at most n splits at the first
occurrences of c. -/
def splitCharMax (c : Char) : Nat → List Char → List (List Char)
  | 0, s => [s]
  | Nat.succ n, s =>
      match breakAtChar c s with
      | none => [s]
      | some (a, b) => a :: splitCharMax c n b

def digitVal (c : Char) : Option Nat :=
  if 48 ≤ c.toNat ∧ c.toNat ≤ 57 then some (c.toNat - 48) else none

/-- The digit tail of a Python int literal: digits with single underscores
strictly between digits. -/
def pyIntGo (acc : Nat) : List Char → Option Nat
  | [] => some acc
  | '_' :: t =>
      match t with
      | d :: t2 =>
          match digitVal d with
          | some v => pyIntGo (acc * 10 + v) t2
          | none => none
      | [] => none
  | c :: t =>
      match digitVal c with
      | some v => pyIntGo (acc * 10 + v) t
      | none => none

/-- Python int(text) on a str: surrounding whitespace stripped, an optional
sign, then decimal digits with optional single underscores between digits;
None models the ValueError on anything else. (Non-ASCII decimal digits are
not modelled.) -/
def pyInt (s : String) : Option Int :=
  let t := pyStrip s.data
  match t with
  | [] => none
  | c :: rest =>
      let signed : Bool × List Char :=
        if c = '-' then (true, rest)
        else if c = '+' then (false, rest) else (false, c :: rest)
      match signed.2 with
      | [] => none
      | d :: ds =>
          match digitVal d with
          | none => none
          | some v =>
              (pyIntGo v ds).map (fun n => if signed.1 then -(n : Int) else (n : Int))

/-- server.py hash_password (lines 197-209) with an explicit salt: the
encoded form pbkdf2_sha256$<iterations>$<salt>$<digest-hex>. The PBKDF2
primitive hashlib.pbkdf2_hmac("sha256", password, salt, iterations).hex()
is the parameter digest; it raises ValueError when iterations < 1, which is
the error case here. -/
def hash_password (digest : String → String → Int → String)
    (password salt : String) (iterations : Int) : Except Unit String :=
  if iterations < 1 then Except.error ()
  else
    Except.ok ("pbkdf2_sha256$" ++ toString iterations ++ "$" ++ salt ++ "$"
      ++ digest password salt iterations)

/-- server.py verify_password (lines 212-223): empty hash is False; the
hash splits on '$' with maxsplit 3 and must unpack into four parts (the
ValueError of any other arity is caught, returning False), the scheme must
be pbkdf2_sha256, the iterations field must parse with int() (ValueError
caught, False); then hash_password is recomputed - its own ValueError for
iterations < 1 escapes the except clause - and compared with
hmac.compare_digest against the whole encoded hash. -/
def verify_password (digest : String → String → Int → String)
    (password encoded_hash : String) : Except Unit Bool :=
  if encoded_hash = "" then Except.ok false
  else
    match splitCharMax '$' 3 encoded_hash.data with
    | [scheme, iterTxt, salt, _expected] =>
        if String.mk scheme ≠ "pbkdf2_sha256" then Except.ok false
        else
          match pyInt (String.mk iterTxt) with
          | none => Except.ok false
          | some iters =>
              match hash_password digest password (String.mk salt) iters with
              | Except.error e => Except.error e
              | Except.ok computed => Except.ok (computed == encoded_hash)
    | _ => Except.ok false

/-- Lowercase hexadecimal digit, the alphabet of bytes.hex(). -/
def isHexDigit (c : Char) : Bool :=
  (48 ≤ c.toNat && c.toNat ≤ 57) || (97 ≤ c.toNat && c.toNat ≤ 102)

/-- The shape pbkdf2_sha256$<iterations>$<salt>$<hex>: four fields under
str.split("$", 3), the right scheme, an int()-parseable iterations field,
and a non-empty lowercase-hex digest field. -/
def isEncodedForm (h : String) : Bool :=
  match splitCharMax '$' 3 h.data with
  | [scheme, iterTxt, _salt, hexPart] =>
      (String.mk scheme == "pbkdf2_sha256")
      && (pyInt (String.mk iterTxt)).isSome
      && !hexPart.isEmpty && hexPart.all isHexDigit
  | _ => false

/-- The hashes whose iterations field parses as an integer below 1, on
which the recomputed PBKDF2 call raises instead of answering. -/
def iterFieldBelow1 (h : String) : Bool :=
  match splitCharMax '$' 3 h.data with
  | [scheme, iterTxt, _salt, _hexPart] =>
      (String.mk scheme == "pbkdf2_sha256")
      && (match pyInt (String.mk iterTxt) with
          | some k => decide (k < 1)
          | none => false)
  | _ => false

/-- server.py analyze_audio_activity (lines 1729-1767): a None threshold or
a non-positive minimum of active seconds skips the measurement and reports
the segment active with no peak; any caught read failure also reports
active with no peak; a readable file whose header declares no frames is
reported silent with no peak; otherwise the chunk loop runs over 50 ms
chunks with max_amp = 2^(8*width - 1). -/
def analyze_audio_activity (log10 : ℚ → ℚ) (wav : WavRead)
    (threshold_db : Option ℚ) (min_active_seconds : ℚ) : Bool × Option ℚ :=
  match threshold_db with
  | none => (true, none)
  | some tdb =>
      if min_active_seconds ≤ 0 then (true, none)
      else
        match wav with
        | WavRead.failed => (true, none)
        | WavRead.content rate width channels nframes samples =>
            if nframes ≤ 0 then (false, none)
            else
              analyzeLoop log10 tdb min_active_seconds rate width channels
                (pyMaxNat 1 (rate / 20)) ((2 : ℚ) ^ (8 * width - 1)) samples 0 (-120)

/-
The safe_stream_url model (server.py lines 684-722) embeds the slice of
CPython 3.11 urllib.parse that the function exercises: urlsplit, the
username/password/hostname/port netloc properties, parse_qsl with
keep_blank_values=True, quote_plus / unquote over UTF-8 bytes, urlencode
with doseq=True, and urlunsplit. Strings are lists of unicode scalars;
str.lower is modelled on its ASCII fragment; the NFKC netloc check that
_checknetloc performs for non-ASCII authorities is an abstract boolean
parameter (ASCII netlocs always pass, as in the source); lone surrogates,
which Lean's Char excludes, are outside the model. -/

/-- The bytes urlsplit removes anywhere in the URL (tab, CR, LF). -/
def urlByteOk (c : Char) : Bool := !(c == '\t' || c == '\r' || c == '\n')

def removeUnsafe (l : List Char) : List Char := l.filter urlByteOk

def isAsciiChar (c : Char) : Bool := c.toNat < 128

def isAsciiAlpha (c : Char) : Bool :=
  (97 ≤ c.toNat && c.toNat ≤ 122) || (65 ≤ c.toNat && c.toNat ≤ 90)

/-- urllib.parse.scheme_chars. -/
def isSchemeChar (c : Char) : Bool :=
  isAlnumAscii c || c == '+' || c == '-' || c == '.'

/-- Whether the text before the first colon is a valid scheme: non-empty,
leading ASCII letter, scheme characters throughout. -/
def validBefore (x : List Char) : Bool :=
  match x with
  | [] => false
  | c :: _ => isAsciiAlpha c && x.all isSchemeChar

/-- urlsplit's scheme detection: split at the first colon when the prefix
is a valid scheme (lower-cased), otherwise leave the URL whole. -/
def schemeSplit (l : List Char) : List Char × List Char :=
  match breakAtChar ':' l with
  | none => ([], l)
  | some (before, after) =>
      if validBefore before then (before.map asciiLower, after) else ([], l)

def notNetlocDelim (c : Char) : Bool := !(c == '/' || c == '?' || c == '#')

/-- urllib.parse._splitnetloc from index 2: the authority runs to the first
of '/', '?', '#'. -/
def splitNetloc (l : List Char) : List Char × List Char :=
  (l.takeWhile notNetlocDelim, l.dropWhile notNetlocDelim)

def bracketMismatch (netloc : List Char) : Bool :=
  (netloc.elem '[' && !netloc.elem ']') || (netloc.elem ']' && !netloc.elem '[')

/-- _checknetloc: empty or all-ASCII authorities always pass; the NFKC
check applied to others is the abstract parameter nfkc. -/
def checknetloc (nfkc : List Char → Bool) (netloc : List Char) : Bool :=
  if netloc.isEmpty || netloc.all isAsciiChar then true else nfkc netloc

/-- The five components of urllib.parse.SplitResult. -/
structure SplitResult where
  scheme : List Char
  netloc : List Char
  path : List Char
  query : List Char
  fragment : List Char
deriving DecidableEq

/-- urlsplit's authority step: the text after '//' up to the first
delimiter is the netloc; without the '//' marker there is none. -/
def splitPoint (sp2 : List Char) : List Char × List Char :=
  if sp2.take 2 = ['/', '/'] then splitNetloc (sp2.drop 2) else ([], sp2)

/-- str.split(c, 1) when c occurs, else the whole string and "". -/
def splitOnce (c : Char) (l : List Char) : List Char × List Char :=
  match breakAtChar c l with
  | some (a, b) => (a, b)
  | none => (l, [])

/-- url.split('#', 1) when '#' occurs, else no fragment. -/
def fragSplit (l : List Char) : List Char × List Char := splitOnce '#' l

/-- url.split('?', 1) when '?' occurs, else no query. -/
def querySplit (l : List Char) : List Char × List Char := splitOnce '?' l

/-- urllib.parse.urlsplit (allow_fragments=True): remove tab/CR/LF, detect
the scheme, take the authority after '//', reject mismatched brackets,
split off fragment then query, and run _checknetloc. -/
def urlsplit (nfkc : List Char → Bool) (url : List Char) :
    Except Unit SplitResult :=
  let sp := schemeSplit (removeUnsafe url)
  let nl := splitPoint sp.2
  if bracketMismatch nl.1 then Except.error ()
  else
    let fr := fragSplit nl.2
    let pq := querySplit fr.1
    if checknetloc nfkc nl.1 then
      Except.ok ⟨sp.1, nl.1, pq.1, pq.2, fr.2⟩
    else Except.error ()

/-- Python str.partition: split at the first occurrence. -/
def partitionChar (c : Char) (l : List Char) : List Char × Bool × List Char :=
  match breakAtChar c l with
  | none => (l, false, [])
  | some (a, b) => (a, true, b)

/-- Python str.rpartition: split at the last occurrence; when absent the
whole string lands in the third slot. -/
def rpartitionChar (c : Char) (l : List Char) : List Char × Bool × List Char :=
  match breakAtChar c l.reverse with
  | none => ([], false, l)
  | some (afterRev, beforeRev) => (beforeRev.reverse, true, afterRev.reverse)

/-- SplitResult._userinfo: the username and password properties. -/
def userinfoOf (netloc : List Char) : Option (List Char) × Option (List Char) :=
  let ui := rpartitionChar '@' netloc
  if ui.2.1 then
    let up := partitionChar ':' ui.1
    (some up.1, if up.2.1 then some up.2.2 else none)
  else (none, none)

/-- SplitResult._hostinfo: the raw hostname and port fields. -/
def hostinfoOf (netloc : List Char) : List Char × Option (List Char) :=
  let hostinfo := (rpartitionChar '@' netloc).2.2
  let br := partitionChar '[' hostinfo
  if br.2.1 then
    let hp := partitionChar ']' br.2.2
    let pp := partitionChar ':' hp.2.2
    (hp.1, if pp.2.2.isEmpty then none else some pp.2.2)
  else
    let hp := partitionChar ':' hostinfo
    (hp.1, if hp.2.2.isEmpty then none else some hp.2.2)

/-- SplitResult.hostname: lower-cased up to any IPv6 zone marker. -/
def hostnameOf (netloc : List Char) : Option (List Char) :=
  let hostname := (hostinfoOf netloc).1
  if hostname.isEmpty then none
  else
    let z := partitionChar '%' hostname
    if z.2.1 then some (z.1.map asciiLower ++ '%' :: z.2.2)
    else some (hostname.map asciiLower)

def isDigitChar (c : Char) : Bool := 48 ≤ c.toNat && c.toNat ≤ 57

/-- SplitResult.port: present only when non-empty; must be ASCII digits and
at most 65535, otherwise ValueError. -/
def portOf (netloc : List Char) : Except Unit (Option Nat) :=
  match (hostinfoOf netloc).2 with
  | none => Except.ok none
  | some port =>
      if port.all isDigitChar && port.all isAsciiChar then
        let v := port.foldl (fun a c => a * 10 + (c.toNat - 48)) 0
        if v ≤ 65535 then Except.ok (some v) else Except.error ()
      else Except.error ()

/-- UTF-8 encoding of one unicode scalar. -/
def utf8EncodeChar (c : Char) : List Nat :=
  let n := c.toNat
  if n < 0x80 then [n]
  else if n < 0x800 then [0xC0 + n / 64, 0x80 + n % 64]
  else if n < 0x10000 then
    [0xE0 + n / 4096, 0x80 + (n / 64) % 64, 0x80 + n % 64]
  else
    [0xF0 + n / 262144, 0x80 + (n / 4096) % 64, 0x80 + (n / 64) % 64,
     0x80 + n % 64]

def utf8Encode (l : List Char) : List Nat := (l.map utf8EncodeChar).flatten

def isContByte (b : Nat) : Bool := 0x80 ≤ b && b ≤ 0xBF

/-- The admissible range of the first continuation byte, which depends on
the lead byte (this is what excludes overlong forms and surrogates). -/
def firstContOk (lead b : Nat) : Bool :=
  if lead = 0xE0 then 0xA0 ≤ b && b ≤ 0xBF
  else if lead = 0xED then 0x80 ≤ b && b ≤ 0x9F
  else if lead = 0xF0 then 0x90 ≤ b && b ≤ 0xBF
  else if lead = 0xF4 then 0x80 ≤ b && b ≤ 0x8F
  else isContByte b

/-- One UTF-8 decoding step on lead byte b with lookahead t: the decoded
character (U+FFFD on a maximal invalid subpart) and how many lookahead
bytes are consumed beyond the lead. -/
def utf8Look (b : Nat) (t : List Nat) : Char × Nat :=
  if b < 0x80 then (Char.ofNat b, 0)
  else if 0xC2 ≤ b && b ≤ 0xDF then
    match t with
    | [] => ('�', 0)
    | b1 :: _ =>
        if isContByte b1 then (Char.ofNat ((b - 0xC0) * 64 + (b1 - 0x80)), 1)
        else ('�', 0)
  else if 0xE0 ≤ b && b ≤ 0xEF then
    match t with
    | [] => ('�', 0)
    | [b1] => if firstContOk b b1 then ('�', 1) else ('�', 0)
    | b1 :: b2 :: _ =>
        if firstContOk b b1 then
          if isContByte b2 then
            (Char.ofNat ((b - 0xE0) * 4096 + (b1 - 0x80) * 64 + (b2 - 0x80)), 2)
          else ('�', 1)
        else ('�', 0)
  else if 0xF0 ≤ b && b ≤ 0xF4 then
    match t with
    | [] => ('�', 0)
    | [b1] => if firstContOk b b1 then ('�', 1) else ('�', 0)
    | [b1, b2] =>
        if firstContOk b b1 then
          if isContByte b2 then ('�', 2) else ('�', 1)
        else ('�', 0)
    | b1 :: b2 :: b3 :: _ =>
        if firstContOk b b1 then
          if isContByte b2 then
            if isContByte b3 then
              (Char.ofNat ((b - 0xF0) * 262144 + (b1 - 0x80) * 4096
                  + (b2 - 0x80) * 64 + (b3 - 0x80)), 3)
            else ('�', 2)
          else ('�', 1)
        else ('�', 0)
  else ('�', 0)

/-- UTF-8 decoding with U+FFFD replacement of maximal invalid subparts, as
bytes.decode(errors="replace") produces. -/
def utf8Decode : List Nat → List Char
  | [] => []
  | b :: t =>
      (utf8Look b t).1 :: utf8Decode (t.drop (utf8Look b t).2)
termination_by l => l.length
decreasing_by
  simp only [List.length_cons, List.length_drop]
  omega

/-- urllib's always-safe byte set: ASCII alphanumerics and _.-~ . -/
def isSafeByte (b : Nat) : Bool :=
  (97 ≤ b && b ≤ 122) || (65 ≤ b && b ≤ 90) || (48 ≤ b && b ≤ 57)
  || b == 95 || b == 46 || b == 45 || b == 126

def hexUpper (n : Nat) : Char :=
  if n < 10 then Char.ofNat (48 + n) else Char.ofNat (55 + n)

/-- quote_plus on one byte: safe bytes stay, space becomes '+', everything
else is %XX with uppercase hex. -/
def quotePlusByte (b : Nat) : List Char :=
  if isSafeByte b then [Char.ofNat b]
  else if b == 32 then ['+']
  else ['%', hexUpper (b / 16), hexUpper (b % 16)]

/-- urllib.parse.quote_plus with safe="" over the UTF-8 bytes. -/
def quote_plus (s : List Char) : List Char :=
  ((utf8Encode s).map quotePlusByte).flatten

def hexVal (c : Char) : Option Nat :=
  if 48 ≤ c.toNat && c.toNat ≤ 57 then some (c.toNat - 48)
  else if 97 ≤ c.toNat && c.toNat ≤ 102 then some (c.toNat - 87)
  else if 65 ≤ c.toNat && c.toNat ≤ 70 then some (c.toNat - 55)
  else none

/-- unquote_to_bytes on an ASCII run: a '%' followed by two hex digits
becomes that byte; otherwise the '%' stays literal. -/
def unquoteBytes : List Char → List Nat
  | [] => []
  | ['%'] => [37]
  | ['%', a] => [37, a.toNat]
  | '%' :: a :: b :: t =>
      (match hexVal a, hexVal b with
       | some x, some y => (16 * x + y) :: unquoteBytes t
       | _, _ => 37 :: unquoteBytes (a :: b :: t))
  | c :: rest => c.toNat :: unquoteBytes rest

/-- unquote's run structure: maximal ASCII runs are percent-decoded as
UTF-8 with replacement, non-ASCII characters pass through. -/
def unquoteRuns : List Char → List Char
  | [] => []
  | c :: t =>
      if isAsciiChar c then
        utf8Decode (unquoteBytes (c :: t.takeWhile isAsciiChar))
          ++ unquoteRuns (t.dropWhile isAsciiChar)
      else c :: unquoteRuns t
termination_by l => l.length
decreasing_by
  · have h : (t.dropWhile isAsciiChar).length ≤ t.length := by
      induction t with
      | nil => simp [List.dropWhile]
      | cons a s ih =>
          by_cases hp : isAsciiChar a
          · simp only [List.dropWhile_cons, hp, if_pos, List.length_cons]
            omega
          · simp [List.dropWhile_cons, hp]
    simp only [List.length_cons]
    omega
  · simp only [List.length_cons]
    omega

/-- urllib.parse.unquote: strings without '%' are returned as they are. -/
def pyUnquote (s : List Char) : List Char :=
  if s.all (fun c => !(c == '%')) then s else unquoteRuns s

def replacePlus (l : List Char) : List Char :=
  l.map (fun c => if c == '+' then ' ' else c)

/-- str.split(sep) with unlimited splits, via an accumulator of the chunk
being read. -/
def splitAllAux (c : Char) : List Char → List Char → List (List Char)
  | [], acc => [acc.reverse]
  | x :: t, acc =>
      if x == c then acc.reverse :: splitAllAux c t []
      else splitAllAux c t (x :: acc)

def splitAllChar (c : Char) (l : List Char) : List (List Char) :=
  splitAllAux c l []

/-- One name=value chunk of parse_qsl: empty chunks are dropped, a chunk
without '=' keeps an empty value, and names and values get '+' replaced by
space and are unquoted. -/
def qslPair (nv : List Char) : Option (List Char × List Char) :=
  if nv.isEmpty then none
  else
    let p :=
      match breakAtChar '=' nv with
      | none => (nv, ([] : List Char))
      | some (a, b) => (a, b)
    some (pyUnquote (replacePlus p.1), pyUnquote (replacePlus p.2))

/-- urllib.parse.parse_qsl with keep_blank_values=True and the default '&'
separator. -/
def parse_qsl (qs : List Char) : List (List Char × List Char) :=
  if qs.isEmpty then []
  else (splitAllChar '&' qs).filterMap qslPair

/-- One key=value chunk of urlencode: quote_plus both sides. -/
def encPair (kv : List Char × List Char) : List Char :=
  quote_plus kv.1 ++ '=' :: quote_plus kv.2

/-- urllib.parse.urlencode with doseq=True over string pairs: quote_plus
each side, join with '=' and '&'. -/
def urlencode (pairs : List (List Char × List Char)) : List Char :=
  List.intercalate ['&'] (pairs.map encPair)

/-- The fixed sensitive query keys of safe_stream_url (lines 695-705). -/
def sensitiveKeys : List (List Char) :=
  ["password".data, "pass".data, "passwd".data, "pwd".data, "token".data,
   "api_key".data, "apikey".data, "auth".data, "authorization".data]

def endsWithChars (l suffix : List Char) : Bool :=
  suffix.reverse.isPrefixOf l.reverse

/-- Lines 709-715: the key, stripped and lower-cased, is in the fixed set,
contains "password", or ends in "_token" or "_key". -/
def isSensitiveKey (k : List Char) : Bool :=
  let lowerKey := (pyStrip k).map asciiLower
  sensitiveKeys.contains lowerKey
  || containsSub lowerKey "password".data
  || endsWithChars lowerKey "_token".data
  || endsWithChars lowerKey "_key".data

/-- Lines 707-718: sensitive keys have their value replaced by REDACTED. -/
def redactPairs (pairs : List (List Char × List Char)) :
    List (List Char × List Char) :=
  pairs.map (fun kv => if isSensitiveKey kv.1 then (kv.1, "REDACTED".data) else kv)

/-- urllib.parse.uses_netloc. -/
def usesNetloc : List (List Char) :=
  ["".data, "ftp".data, "http".data, "gopher".data, "nntp".data, "telnet".data,
   "imap".data, "wais".data, "file".data, "mms".data, "https".data, "shttp".data,
   "snews".data, "prospero".data, "rtsp".data, "rtspu".data, "rsync".data,
   "svn".data, "svn+ssh".data, "sftp".data, "nfs".data, "git".data,
   "git+ssh".data, "ws".data, "wss".data]

/-- urlunsplit's path adjustment: a non-empty path after an authority must
start with '/'. -/
def slashAdjust (p : List Char) : List Char :=
  if !p.isEmpty && decide (p.take 1 ≠ ['/']) then '/' :: p else p

/-- urlunsplit's 3.11 condition for writing the '//' authority marker. -/
def netlocCond (r : SplitResult) : Bool :=
  !r.netloc.isEmpty
  || (!r.scheme.isEmpty && usesNetloc.contains r.scheme
      && decide (r.path.take 2 ≠ ['/', '/']))

/-- The authority-plus-path part of urlunsplit. -/
def urlBase (r : SplitResult) : List Char :=
  if netlocCond r then '/' :: '/' :: (r.netloc ++ slashAdjust r.path)
  else r.path

/-- urllib.parse.urlunsplit (CPython 3.11). -/
def urlunsplit (r : SplitResult) : List Char :=
  let url2 := if !r.scheme.isEmpty then r.scheme ++ ':' :: urlBase r else urlBase r
  let url3 := if !r.query.isEmpty then url2 ++ '?' :: r.query else url2
  if !r.fragment.isEmpty then url3 ++ '#' :: r.fragment else url3

/-- Proof-side abbreviation: the "?query#fragment" suffix urlunsplit
appends. -/
def qfSuffix (q f : List Char) : List Char :=
  (if !q.isEmpty then '?' :: q else []) ++ (if !f.isEmpty then '#' :: f else [])

def truthyOpt (o : Option (List Char)) : Bool :=
  match o with
  | some l => !l.isEmpty
  | none => false

/-- Line 691: `host = parts.hostname or ""`. -/
def hostOrEmpty (netloc : List Char) : List Char :=
  match hostnameOf netloc with
  | some hn => hn
  | none => []

/-- Lines 692-693: append ":port" when parts.port is truthy (a parsed port
of 0 is falsy and dropped, like a missing one). -/
def portSuffix (host : List Char) (portv : Option Nat) : List Char :=
  match portv with
  | some pv => if pv ≠ 0 then host ++ ':' :: Nat.toDigits 10 pv else host
  | none => host

/-- The netloc safe_stream_url writes (lines 689-694): when username or
password is truthy, rebuild from hostname (or "") plus the port when the
port is truthy; parts.port may raise ValueError. -/
def safeNetloc (netloc : List Char) : Except Unit (List Char) :=
  if truthyOpt (userinfoOf netloc).1 || truthyOpt (userinfoOf netloc).2 then
    match portOf netloc with
    | Except.error e => Except.error e
    | Except.ok portv => Except.ok (portSuffix (hostOrEmpty netloc) portv)
  else Except.ok netloc

/-- The component transformation of safe_stream_url: strip userinfo, redact
the query, keep scheme, path and fragment. -/
def safeTransform (parts : SplitResult) : Except Unit SplitResult :=
  match safeNetloc parts.netloc with
  | Except.error e => Except.error e
  | Except.ok netloc2 =>
      Except.ok ⟨parts.scheme, netloc2, parts.path,
        urlencode (redactPairs (parse_qsl parts.query)), parts.fragment⟩

/-- The try-block of safe_stream_url: parse, transform, reassemble; any
ValueError inside is the error case. -/
def safeCore (nfkc : List Char → Bool) (url : List Char) :
    Except Unit (List Char) :=
  match urlsplit nfkc url with
  | Except.error e => Except.error e
  | Except.ok parts =>
      match safeTransform parts with
      | Except.error e => Except.error e
      | Except.ok parts2 => Except.ok (urlunsplit parts2)

/-- server.py safe_stream_url (lines 684-722): empty input gives "", a
ValueError anywhere returns the input unchanged. -/
def safe_stream_url (nfkc : List Char → Bool) (url : List Char) : List Char :=
  if url.isEmpty then []
  else
    match safeCore nfkc url with
    | Except.ok v => v
    | Except.error _ => url

/-- Proof-side character class: the characters allowed to appear in a
parsed path component (no fragment or query delimiters, no removed
bytes). -/
def pathOk (c : Char) : Bool := urlByteOk c && !(c == '#' || c == '?')

/-- Proof-side character class: the characters quote_plus can emit,
excluding every URL delimiter that matters for re-splitting. -/
def qpOk (c : Char) : Bool :=
  urlByteOk c && !(c == '#' || c == '?' || c == ':' || c == '&' || c == '=')

/-- Proof-side character class: the characters of an urlencode result. -/
def queryOk (c : Char) : Bool :=
  urlByteOk c && !(c == '#' || c == '?' || c == ':')

/-- Proof-side character class for authority components. -/
def netlocOk (c : Char) : Bool := urlByteOk c && notNetlocDelim c

/-- No prefix of l ending at a colon is a valid scheme, so urlsplit finds
no scheme in l. -/
def noValidColon (l : List Char) : Prop :=
  ∀ a b, breakAtChar ':' l = some (a, b) → validBefore a = false

end Birdnet

namespace Birdnet

theorem pyMin_eq_min (a b : ℚ) : pyMin a b = min a b := by
  rw [pyMin, min_def]

theorem pyMax_eq_max (a b : ℚ) : pyMax a b = max a b := by
  rw [pyMax, max_def]

theorem lookup_dictInsert_self {α : Type} (tbl : List (String × α)) (k : String) (v : α) :
    List.lookup k (dictInsert tbl k v) = some v := by
  induction tbl with
  | nil => simp [dictInsert, List.lookup]
  | cons h t ih =>
      obtain ⟨k0, v0⟩ := h
      by_cases hk : k0 = k
      · subst hk
        simp [dictInsert, List.lookup]
      · simp only [dictInsert, if_neg hk, List.lookup]
        have : (k == k0) = false := by
          simp only [beq_eq_false_iff_ne, ne_eq]
          exact fun h => hk h.symm
        rw [this]
        exact ih

theorem lookup_dictInsert_other {α : Type} (tbl : List (String × α)) (k s : String) (v : α)
    (hs : s ≠ k) : List.lookup s (dictInsert tbl k v) = List.lookup s tbl := by
  induction tbl with
  | nil =>
      simp only [dictInsert, List.lookup]
      have : (s == k) = false := by simpa using hs
      rw [this]
  | cons h t ih =>
      obtain ⟨k0, v0⟩ := h
      by_cases hk : k0 = k
      · subst hk
        simp only [dictInsert, if_pos rfl, List.lookup]
        have : (s == k0) = false := by simpa using hs
        rw [this]
      · simp only [dictInsert, if_neg hk, List.lookup]
        by_cases hsk0 : s = k0
        · subst hsk0
          simp
        · have : (s == k0) = false := by simpa using hsk0
          rw [this]
          exact ih

theorem newestFirst_trans {α : Type} (a b c : DbRow α)
    (hab : newestFirst a b = true) (hbc : newestFirst b c = true) :
    newestFirst a c = true := by
  simp only [newestFirst, decide_eq_true_eq] at *
  rcases hab with h1 | ⟨h1, h1r⟩
  · rcases hbc with h2 | ⟨h2, h2r⟩
    · exact Or.inl (lt_trans h2 h1)
    · exact Or.inl (h2 ▸ h1)
  · rcases hbc with h2 | ⟨h2, h2r⟩
    · exact Or.inl (h1 ▸ h2)
    · exact Or.inr ⟨h2.trans h1, h2r.trans h1r⟩

theorem newestFirst_total {α : Type} (a b : DbRow α) :
    (newestFirst a b || newestFirst b a) = true := by
  simp only [newestFirst, Bool.or_eq_true, decide_eq_true_eq]
  rcases lt_trichotomy a.ts b.ts with h | h | h
  · exact Or.inr (Or.inl h)
  · rcases Nat.le_total b.rowid a.rowid with hr | hr
    · exact Or.inl (Or.inr ⟨h.symm, hr⟩)
    · exact Or.inr (Or.inr ⟨h, hr⟩)
  · exact Or.inl (Or.inl h)

theorem sortedPage_spec {α : Type} (rows : List (DbRow α)) (n : Nat) :
    (((rows.mergeSort newestFirst).take n).reverse).Pairwise
        (fun a b => newestFirst b a = true)
    ∧ (∃ rest, rows.Perm ((((rows.mergeSort newestFirst).take n).reverse).reverse ++ rest)
        ∧ ∀ a ∈ (((rows.mergeSort newestFirst).take n).reverse), ∀ b ∈ rest,
            newestFirst a b = true)
    ∧ (((rows.mergeSort newestFirst).take n).reverse).length = min n rows.length := by
  have hsorted : (rows.mergeSort newestFirst).Pairwise (fun a b => newestFirst a b = true) :=
    List.sorted_mergeSort (fun a b c => newestFirst_trans a b c)
      (fun a b => newestFirst_total a b) rows
  have hperm : (rows.mergeSort newestFirst).Perm rows := List.mergeSort_perm rows newestFirst
  refine ⟨?_, ⟨(rows.mergeSort newestFirst).drop n, ?_, ?_⟩, ?_⟩
  · rw [List.pairwise_reverse]
    exact List.Pairwise.sublist (List.take_sublist n _) hsorted
  · rw [List.reverse_reverse]
    rw [List.take_append_drop n (rows.mergeSort newestFirst)]
    exact hperm.symm
  · intro a ha b hb
    rw [List.mem_reverse] at ha
    have := (List.pairwise_append.mp
      ((List.take_append_drop n (rows.mergeSort newestFirst)).symm ▸ hsorted)).2.2
    exact this a ha b hb
  · rw [List.length_reverse, List.length_take, hperm.length_eq]

/-- C5: normalize_confidence maps every numeric input above 1 to
min(1, x/100), every numeric input below 0 to 0, every numeric input
already in [0,1] to itself, null and unparseable input to null, and every
numeric result lies in [0,1]. -/
theorem C5_normalize_confidence_range :
    (∀ q : ℚ, 1 < q → normalize_confidence (ConfInput.numeric q) = some (min 1 (q / 100)))
    ∧ (∀ q : ℚ, q < 0 → normalize_confidence (ConfInput.numeric q) = some 0)
    ∧ (∀ q : ℚ, 0 ≤ q → q ≤ 1 → normalize_confidence (ConfInput.numeric q) = some q)
    ∧ normalize_confidence ConfInput.null = none
    ∧ normalize_confidence ConfInput.unparseable = none
    ∧ (∀ q r : ℚ, normalize_confidence (ConfInput.numeric q) = some r → 0 ≤ r ∧ r ≤ 1) := by
  refine ⟨?_, ?_, ?_, rfl, rfl, ?_⟩
  · intro q hq
    simp only [normalize_confidence, pyMin_eq_min, pyMax_eq_max, if_pos hq, Option.some.injEq]
    have h0 : (0:ℚ) ≤ min 1 (q / 100) := by
      have : (0:ℚ) < q / 100 := by positivity
      simp [le_min_iff]
      linarith
    exact (max_eq_right h0)
  · intro q hq
    have hq1 : ¬ (1:ℚ) < q := by linarith
    simp only [normalize_confidence, pyMin_eq_min, pyMax_eq_max, if_neg hq1, Option.some.injEq]
    have : min (1:ℚ) q = q := min_eq_right (by linarith)
    rw [this]
    exact max_eq_left (by linarith)
  · intro q h0 h1
    have hq1 : ¬ (1:ℚ) < q := by linarith
    simp only [normalize_confidence, pyMin_eq_min, pyMax_eq_max, if_neg hq1, Option.some.injEq]
    rw [min_eq_right h1]
    exact max_eq_right h0
  · intro q r h
    simp only [normalize_confidence, pyMin_eq_min, pyMax_eq_max] at h
    have hr : r = max 0 (min 1 (if q > 1 then q / 100 else q)) := by
      exact (Option.some.injEq _ _).mp h.symm
    subst hr
    constructor
    · exact le_max_left 0 _
    · have : min (1:ℚ) (if q > 1 then q / 100 else q) ≤ 1 := min_le_left _ _
      exact max_le (by norm_num) this

/-- C5 witness: the three conditional clauses evaluated at 150, -1/2 and
3/10. -/
theorem C5_normalize_confidence_range_witness :
    normalize_confidence (ConfInput.numeric 150) = some (min 1 (150 / 100 : ℚ))
    ∧ normalize_confidence (ConfInput.numeric (-1/2)) = some 0
    ∧ normalize_confidence (ConfInput.numeric (3/10)) = some (3/10)
    ∧ ((0:ℚ) ≤ 3/10 ∧ (3/10 : ℚ) ≤ 1) :=
  ⟨C5_normalize_confidence_range.1 150 (by norm_num),
   C5_normalize_confidence_range.2.1 (-1/2) (by norm_num),
   C5_normalize_confidence_range.2.2.1 (3/10) (by norm_num) (by norm_num),
   C5_normalize_confidence_range.2.2.2.2.2 (3/10) (3/10)
     (C5_normalize_confidence_range.2.2.1 (3/10) (by norm_num) (by norm_num))⟩

/-- C1: bump_log_revision sets the revision to max(previous + 1, wall-clock
milliseconds) and hence strictly above the previous revision; append_log of
a non-empty entry list and delete_log_entry of an id actually present both
strictly increase the log revision. -/
theorem C1_log_revision_strictly_increases :
    (∀ prev nowMs : Int,
        bump_log_revision prev nowMs = max (prev + 1) nowMs
        ∧ prev < bump_log_revision prev nowMs)
    ∧ (∀ (α β : Type) (idOf : α → String) (entries : List α) (nowMs : Int)
        (st : Store α β), entries ≠ [] →
        st.revision < (append_log idOf entries nowMs st).revision)
    ∧ (∀ (α β : Type) (key : String) (nowMs : Int) (st : Store α β),
        key ≠ "" → (st.det.any (fun r => r.1 = key)) = true →
        st.revision < (delete_log_entry key nowMs st).1.revision) := by
  have hbump : ∀ prev nowMs : Int,
      bump_log_revision prev nowMs = max (prev + 1) nowMs
      ∧ prev < bump_log_revision prev nowMs := by
    intro prev nowMs
    unfold bump_log_revision
    by_cases h : nowMs ≤ prev
    · rw [if_pos h]
      constructor
      · rw [max_eq_left]; omega
      · omega
    · rw [if_neg h]
      constructor
      · rw [max_eq_right]; omega
      · omega
  refine ⟨hbump, ?_, ?_⟩
  · intro α β idOf entries nowMs st hne
    unfold append_log
    rw [if_neg (by simpa using hne)]
    exact (hbump st.revision nowMs).2
  · intro α β key nowMs st hk hmem
    unfold delete_log_entry
    rw [if_neg hk, if_pos hmem]
    exact (hbump st.revision nowMs).2

/-- C1 witness: a one-element append over the empty store and a delete of
the present id "a" both raise revision 0. -/
theorem C1_log_revision_strictly_increases_witness :
    (0:Int) < (append_log (fun _ : Unit => "x") [()] 5
        ({ revision := 0, det := [], cache := none } : Store Unit Unit)).revision
    ∧ (0:Int) < (delete_log_entry "a" 5
        ({ revision := 0, det := [("a", ())], cache := none } : Store Unit Unit)).1.revision :=
  ⟨C1_log_revision_strictly_increases.2.1 Unit Unit (fun _ => "x") [()] 5
      { revision := 0, det := [], cache := none } (by simp),
   C1_log_revision_strictly_increases.2.2 Unit Unit "a" 5
      { revision := 0, det := [("a", ())], cache := none } (by simp) (by simp)⟩

/-- C2: get_cached_summary returns a stored payload exactly when the cache
row's stored revision equals the current revision; when it returns nothing,
summarize_log recomputes the summary from the detections table and stores
it as the single log_summary cache row stamped with the current revision,
leaving revision and table unchanged. -/
theorem C2_summary_cache_validity :
    (∀ (α β : Type) (st : Store α β) (p : β),
        get_cached_summary st = some p ↔ st.cache = some (st.revision, p))
    ∧ (∀ (α β : Type) (emptySummary : Int → β)
        (compute : List (String × α) → β) (st : Store α β),
        get_cached_summary st = none →
        (summarize_log emptySummary compute st).2.cache
            = some (st.revision, (summarize_log emptySummary compute st).1)
        ∧ (summarize_log emptySummary compute st).1
            = (if st.det.isEmpty then emptySummary st.revision else compute st.det)
        ∧ (summarize_log emptySummary compute st).2.revision = st.revision
        ∧ (summarize_log emptySummary compute st).2.det = st.det) := by
  constructor
  · intro α β st p
    unfold get_cached_summary
    match hc : st.cache with
    | none => simp
    | some (rev, q) =>
        by_cases h : rev = st.revision
        · subst h
          simp
        · simp [h]
  · intro α β emptySummary compute st hnone
    unfold summarize_log
    rw [hnone]
    by_cases h : st.det.isEmpty
    · simp [h, set_cached_summary]
    · simp [h, set_cached_summary]

/-- C2 witness: a store whose cache row carries a stale revision returns
nothing, and summarize_log then caches the recomputation at the current
revision. -/
theorem C2_summary_cache_validity_witness :
    (get_cached_summary ({ revision := 7, det := [("a", ())], cache := some (3, 0) }
        : Store Unit Nat) = some 0 ↔ (some (3, 0) : Option (Int × Nat)) = some (7, 0))
    ∧ (summarize_log (fun _ => 9) (fun l => l.length)
        ({ revision := 7, det := [("a", ())], cache := some (3, 0) } : Store Unit Nat)).2.cache
        = some (7, (summarize_log (fun _ => 9) (fun l => l.length)
            ({ revision := 7, det := [("a", ())], cache := some (3, 0) } : Store Unit Nat)).1) :=
  ⟨C2_summary_cache_validity.1 Unit Nat
      { revision := 7, det := [("a", ())], cache := some (3, 0) } 0,
   (C2_summary_cache_validity.2 Unit Nat (fun _ => 9) (fun l => l.length)
      { revision := 7, det := [("a", ())], cache := some (3, 0) } (by decide)).1⟩

/-- C6: read_log and read_events return, for every limit, the most recent
rows in chronological oldest-first order: the result is pairwise ordered by
ascending (timestamp, rowid); the rows withheld by the limit are all at most
as recent as every returned row; a positive limit caps the length at the
limit, a null limit returns everything, a non-positive limit returns
nothing; and the two functions run the identical query. -/
theorem C6_read_queries_chronological :
    ∀ (α : Type) (limit : Option Int) (rows : List (DbRow α)),
      (read_log limit rows).Pairwise (fun a b => newestFirst b a = true)
      ∧ (∃ rest, rows.Perm ((read_log limit rows).reverse ++ rest)
          ∧ ∀ a ∈ read_log limit rows, ∀ b ∈ rest, newestFirst a b = true)
      ∧ (∀ l : Int, limit = some l → 0 < l →
          (read_log limit rows).length = min l.toNat rows.length)
      ∧ (limit = none → (read_log limit rows).length = rows.length)
      ∧ (∀ l : Int, limit = some l → l ≤ 0 → read_log limit rows = [])
      ∧ read_events limit rows = read_log limit rows := by
  intro α limit rows
  have hsame : read_events limit rows = read_log limit rows := by
    unfold read_events read_log
    rfl
  match limit with
  | none =>
      obtain ⟨h1, h2, h3⟩ := sortedPage_spec rows rows.length
      have hfull : (rows.mergeSort newestFirst).take rows.length
          = rows.mergeSort newestFirst := by
        apply List.take_of_length_le
        rw [(List.mergeSort_perm rows newestFirst).length_eq]
      have hread : read_log (none : Option Int) rows
          = (((rows.mergeSort newestFirst).take rows.length).reverse) := by
        show (rows.mergeSort newestFirst).reverse = _
        rw [hfull]
      refine ⟨?_, ?_, ?_, ?_, ?_, hsame⟩
      · rw [hread]; exact h1
      · rw [hread]; exact h2
      · intro l hl
        exact absurd hl (by simp)
      · intro _
        rw [hread, h3, Nat.min_self]
      · intro l hl
        exact absurd hl (by simp)
  | some l =>
      by_cases hpos : l ≤ 0
      · refine ⟨?_, ?_, ?_, ?_, ?_, hsame⟩
        · simp [read_log, hpos]
        · refine ⟨rows, ?_, ?_⟩
          · simp [read_log, hpos]
          · simp [read_log, hpos]
        · intro l2 hl2 hl2p
          cases hl2
          omega
        · intro h
          cases h
        · intro l2 hl2 _
          cases hl2
          simp [read_log, hpos]
      · have hread : read_log (some l) rows
            = ((rows.mergeSort newestFirst).take l.toNat).reverse := by
          simp [read_log, hpos]
        obtain ⟨h1, h2, h3⟩ := sortedPage_spec rows l.toNat
        refine ⟨?_, ?_, ?_, ?_, ?_, hsame⟩
        · rw [hread]; exact h1
        · rw [hread]; exact h2
        · intro l2 hl2 _
          cases hl2
          rw [hread]; exact h3
        · intro h
          cases h
        · intro l2 hl2 hl2n
          cases hl2
          omega

/-- C6 witness: a two-row table read with limit 1 keeps only the newer row,
and the limit and ordering facts evaluate as stated. -/
theorem C6_read_queries_chronological_witness :
    (read_log (some 1) [⟨"2024", 1, ()⟩, ⟨"2025", 2, ()⟩]).length
        = min (Int.toNat 1) 2
    ∧ read_log (some 0) [(⟨"2024", 1, ()⟩ : DbRow Unit)] = []
    ∧ (read_log none [(⟨"2024", 1, ()⟩ : DbRow Unit)]).length = 1 :=
  ⟨(C6_read_queries_chronological Unit (some 1)
      [⟨"2024", 1, ()⟩, ⟨"2025", 2, ()⟩]).2.2.1 1 rfl (by norm_num),
   (C6_read_queries_chronological Unit (some 0)
      [⟨"2024", 1, ()⟩]).2.2.2.2.1 0 rfl (by norm_num),
   (C6_read_queries_chronological Unit none [⟨"2024", 1, ()⟩]).2.2.2.1 rfl⟩

/-- C3 counterexample: a prediction whose score (61) strictly exceeds the
archived score (10) - so the claim requires a replacement - is skipped,
because its confidence 0.5 is more than 0.02 below the archived confidence
0.9: the index is returned unchanged. -/
theorem C3_claim_counterexample :
    existingScoreOf (some robinEntry)
      < compute_clip_score (ConfInput.numeric (clipConfValue robinPrediction.confidence))
          (some 11)
    ∧ update_best_clips "t" (some 11) [("Robin", robinEntry)] [robinPrediction]
      = [("Robin", robinEntry)] := by
  constructor
  · have h10 : existingScoreOf (some robinEntry) = 10 := by
      norm_num [existingScoreOf, robinEntry]
    have h61 : compute_clip_score
        (ConfInput.numeric (clipConfValue robinPrediction.confidence)) (some 11) = 61 := by
      simp only [robinPrediction, clipConfValue, normalize_confidence]
      norm_num [compute_clip_score, pyMax, pyMin]
    rw [h10, h61]
    norm_num
  · have hcond : clipConfValue robinPrediction.confidence + 1/50
        < existingConfOf (List.lookup (orUnknown robinPrediction.species)
            [("Robin", robinEntry)]) := by
      have hl : clipConfValue robinPrediction.confidence = 1/2 := by
        simp only [robinPrediction, clipConfValue, normalize_confidence]
        norm_num [pyMax, pyMin]
      have hr : existingConfOf (List.lookup (orUnknown robinPrediction.species)
          [("Robin", robinEntry)]) = 9/10 := by
        simp [robinPrediction, robinEntry, orUnknown, List.lookup, existingConfOf,
          clipConfValue, normalize_confidence, pyMax, pyMin]
        norm_num
      rw [hl, hr]
      norm_num
    simp only [update_best_clips, List.isEmpty_cons, List.foldl, clipStep]
    rw [if_pos hcond]
    simp

/-- C3 amended: for every prediction handled (in order) by
update_best_clips, the archived clip for its species is replaced exactly
when the new normalized confidence (with -1 for a missing value) is not
more than 0.02 below the existing normalized confidence (with -1 when the
archive has no entry) AND the new score strictly exceeds the existing score
(which is -100 when the archive has no entry); a bare strict score
improvement is not sufficient. On replacement the recorded entry carries
the raw confidence, the segment snr, the rounded score and the slug
filename; other species are untouched; otherwise the index is unchanged. -/
theorem C3_amended_best_clip_replacement :
    ∀ (nowIso : String) (segSnr : Option ℚ) (index : List (String × ClipEntry))
      (p : Prediction) (rest : List Prediction),
      update_best_clips nowIso segSnr index (p :: rest)
        = update_best_clips nowIso segSnr (clipStep nowIso segSnr index p) rest
      ∧ (existingConfOf (List.lookup (orUnknown p.species) index)
            ≤ clipConfValue p.confidence + 1/50 →
         existingScoreOf (List.lookup (orUnknown p.species) index)
            < compute_clip_score (ConfInput.numeric (clipConfValue p.confidence)) segSnr →
         List.lookup (orUnknown p.species) (clipStep nowIso segSnr index p)
              = some { species := orUnknown p.species
                       scientific_name := p.scientific_name
                       confidence := p.confidence
                       snr_db := segSnr
                       score := ConfInput.numeric (round2 (compute_clip_score
                          (ConfInput.numeric (clipConfValue p.confidence)) segSnr))
                       timestamp := nowIso
                       filename := slugify (orUnknown p.species) ++ ".wav" }
            ∧ ∀ s, s ≠ orUnknown p.species →
                List.lookup s (clipStep nowIso segSnr index p) = List.lookup s index)
      ∧ (¬ (existingConfOf (List.lookup (orUnknown p.species) index)
              ≤ clipConfValue p.confidence + 1/50
            ∧ existingScoreOf (List.lookup (orUnknown p.species) index)
              < compute_clip_score (ConfInput.numeric (clipConfValue p.confidence)) segSnr) →
         clipStep nowIso segSnr index p = index) := by
  intro nowIso segSnr index p rest
  refine ⟨?_, ?_, ?_⟩
  · simp only [update_best_clips, List.isEmpty_cons, List.foldl]
    match rest with
    | [] => simp [List.foldl]
    | q :: t => simp [List.foldl]
  · intro hconf hscore
    have h1 : ¬ (clipConfValue p.confidence + 1/50
        < existingConfOf (List.lookup (orUnknown p.species) index)) := not_lt.mpr hconf
    have h2 : ¬ (compute_clip_score (ConfInput.numeric (clipConfValue p.confidence)) segSnr
        ≤ existingScoreOf (List.lookup (orUnknown p.species) index)) := not_le.mpr hscore
    constructor
    · simp only [clipStep]
      rw [if_neg h1, if_neg h2]
      exact lookup_dictInsert_self index (orUnknown p.species) _
    · intro s hs
      simp only [clipStep]
      rw [if_neg h1, if_neg h2]
      exact lookup_dictInsert_other index (orUnknown p.species) s _ hs
  · intro hnot
    rcases not_and_or.mp hnot with h | h
    · have h1 : clipConfValue p.confidence + 1/50
          < existingConfOf (List.lookup (orUnknown p.species) index) := not_le.mp h
      simp only [clipStep]
      rw [if_pos h1]
    · have h2 : compute_clip_score (ConfInput.numeric (clipConfValue p.confidence)) segSnr
          ≤ existingScoreOf (List.lookup (orUnknown p.species) index) := not_lt.mp h
      simp only [clipStep]
      by_cases h1 : clipConfValue p.confidence + 1/50
          < existingConfOf (List.lookup (orUnknown p.species) index)
      · rw [if_pos h1]
      · rw [if_neg h1, if_pos h2]

/-- C3 witness: against an empty archive, a prediction with confidence 0.8
and segment snr 5 is archived for its species. -/
theorem C3_amended_best_clip_replacement_witness :
    List.lookup (orUnknown "Sparrow")
        (clipStep "now" (some 5) []
          { species := "Sparrow", scientific_name := "S",
            confidence := ConfInput.numeric (8/10) })
      = some { species := orUnknown "Sparrow"
               scientific_name := "S"
               confidence := ConfInput.numeric (8/10)
               snr_db := some 5
               score := ConfInput.numeric (round2 (compute_clip_score
                  (ConfInput.numeric (clipConfValue (ConfInput.numeric (8/10)))) (some 5)))
               timestamp := "now"
               filename := slugify (orUnknown "Sparrow") ++ ".wav" } :=
  ((C3_amended_best_clip_replacement "now" (some 5) []
      { species := "Sparrow", scientific_name := "S",
        confidence := ConfInput.numeric (8/10) } []).2.1
    (by norm_num [existingConfOf, clipConfValue, normalize_confidence, List.lookup,
        pyMax, pyMin])
    (by norm_num [existingScoreOf, clipConfValue, compute_clip_score,
        normalize_confidence, List.lookup, pyMax, pyMin])).1

/-- C9: analyze_audio_activity answers (active, no peak) for every segment
whose wave file fails to open or read, whatever the thresholds, so an
unreadable or corrupt segment is forwarded rather than deleted as silent;
with the check enabled (threshold present, positive minimum seconds) a
readable file whose header declares no frames is instead reported
(silent, no peak). -/
theorem C9_unreadable_segment_forwarded :
    (∀ (log10 : ℚ → ℚ) (t : Option ℚ) (m : ℚ),
        analyze_audio_activity log10 WavRead.failed t m = (true, none))
    ∧ (∀ (log10 : ℚ → ℚ) (tdb m : ℚ) (rate width channels : Nat) (nframes : Int)
        (samples : List Int), ¬ m ≤ 0 → nframes ≤ 0 →
        analyze_audio_activity log10 (WavRead.content rate width channels nframes samples)
          (some tdb) m = (false, none)) := by
  constructor
  · intro log10 t m
    match t with
    | none => rfl
    | some tdb =>
        by_cases h : m ≤ 0
        · simp [analyze_audio_activity, h]
        · simp [analyze_audio_activity, h]
  · intro log10 tdb m rate width channels nframes samples hm hn
    simp [analyze_audio_activity, hm, hn]

/-- C9 witness: with threshold -45 dBFS and 0.2 s minimum, a failed read is
forwarded as active and a zero-frame file is reported silent. -/
theorem C9_unreadable_segment_forwarded_witness :
    analyze_audio_activity (fun _ => 0) WavRead.failed (some (-45)) (1/5) = (true, none)
    ∧ analyze_audio_activity (fun _ => 0) (WavRead.content 48000 2 1 0 [])
        (some (-45)) (1/5) = (false, none) :=
  ⟨C9_unreadable_segment_forwarded.1 (fun _ => 0) (some (-45)) (1/5),
   C9_unreadable_segment_forwarded.2 (fun _ => 0) (-45) (1/5) 48000 2 1 0 []
     (by norm_num) (by norm_num)⟩

/-- C4 counterexample: the default silence threshold -45 dBFS is negative,
so the claim calls it disabled and demands the segment be treated active;
but with min seconds 0.2 the code runs the measurement on a one-sample
silent file and reports it silent with peak -120 dBFS. -/
theorem C4_claim_counterexample :
    ((-45 : ℚ) ≤ 0 ∧ ¬ ((1/5 : ℚ) ≤ 0))
    ∧ analyze_audio_activity (fun _ => 0) (WavRead.content 1 1 1 1 [0]) (some (-45)) (1/5)
      = (false, some (-120)) := by
  refine ⟨⟨by norm_num, by norm_num⟩, ?_⟩
  norm_num [analyze_audio_activity]
  rw [analyzeLoop]
  norm_num [pyMaxNat, audioRms]
  rw [analyzeLoop]
  norm_num

/-- C4 amended: the activity check is skipped, and the segment treated as
active with no peak reported, exactly in the two code paths lines 1730-1733
take: when silence_threshold_db is null, or when silence_min_seconds is not
positive. A negative (non-null) threshold does not disable the check, and a
null silence_min_seconds is not handled at all (the comparison with 0 would
raise TypeError). -/
theorem C4_amended_disabled_thresholds :
    ∀ (log10 : ℚ → ℚ) (wav : WavRead) (t : Option ℚ) (m : ℚ),
      (t = none → analyze_audio_activity log10 wav t m = (true, none))
      ∧ (m ≤ 0 → analyze_audio_activity log10 wav t m = (true, none)) := by
  intro log10 wav t m
  constructor
  · intro ht
    subst ht
    rfl
  · intro hm
    match t with
    | none => rfl
    | some tdb =>
        simp [analyze_audio_activity, hm]

/-- C4 witness: a null threshold and a zero minimum both skip the check on
a concrete silent file. -/
theorem C4_amended_disabled_thresholds_witness :
    analyze_audio_activity (fun _ => 0) (WavRead.content 1 1 1 1 [0]) none (1/5)
      = (true, none)
    ∧ analyze_audio_activity (fun _ => 0) (WavRead.content 1 1 1 1 [0]) (some (-45)) 0
      = (true, none) :=
  ⟨(C4_amended_disabled_thresholds (fun _ => 0) (WavRead.content 1 1 1 1 [0])
      none (1/5)).1 rfl,
   (C4_amended_disabled_thresholds (fun _ => 0) (WavRead.content 1 1 1 1 [0])
      (some (-45)) 0).2 (by norm_num)⟩

theorem digitChar_ne_dollar (m : Nat) : Nat.digitChar m ≠ '$' := by
  rcases m with _|_|_|_|_|_|_|_|_|_|_|_|_|_|_|_|n <;> simp [Nat.digitChar]

theorem toDigitsCore_ne_dollar (f : Nat) :
    ∀ (n : Nat) (ds : List Char), (∀ ch ∈ ds, ch ≠ '$') →
    ∀ ch ∈ Nat.toDigitsCore 10 f n ds, ch ≠ '$' := by
  induction f with
  | zero =>
      intro n ds hds ch hch
      exact hds ch hch
  | succ f ih =>
      intro n ds hds ch hch
      simp only [Nat.toDigitsCore] at hch
      have hcons : ∀ c ∈ Nat.digitChar (n % 10) :: ds, c ≠ '$' := by
        intro c hc
        rcases List.mem_cons.mp hc with h1 | h1
        · rw [h1]; exact digitChar_ne_dollar _
        · exact hds c h1
      split at hch
      · exact hcons ch hch
      · exact ih (n / 10) (Nat.digitChar (n % 10) :: ds) hcons ch hch

theorem repr_nat_ne_dollar (n : Nat) : ∀ ch ∈ (Nat.repr n).data, ch ≠ '$' := by
  intro ch hch
  have hd : (Nat.repr n).data = Nat.toDigitsCore 10 (n + 1) n [] := rfl
  rw [hd] at hch
  exact toDigitsCore_ne_dollar (n + 1) n [] (by simp) ch hch

theorem toString_int_ne_dollar (k : Int) : ∀ ch ∈ (toString k).data, ch ≠ '$' := by
  intro ch hch
  match k with
  | Int.ofNat n =>
      have hd : toString (Int.ofNat n) = Nat.repr n := rfl
      rw [hd] at hch
      exact repr_nat_ne_dollar n ch hch
  | Int.negSucc n =>
      have hd : (toString (Int.negSucc n)).data = '-' :: (Nat.repr (n + 1)).data := rfl
      rw [hd] at hch
      rcases List.mem_cons.mp hch with h1 | h1
      · rw [h1]; decide
      · exact repr_nat_ne_dollar (n + 1) ch h1

theorem breakAtChar_eq (c : Char) :
    ∀ (l a b : List Char), breakAtChar c l = some (a, b) → l = a ++ c :: b ∧ c ∉ a := by
  intro l
  induction l with
  | nil =>
      intro a b h
      simp [breakAtChar] at h
  | cons x t ih =>
      intro a b h
      simp only [breakAtChar] at h
      by_cases hx : x = c
      · rw [if_pos hx] at h
        obtain ⟨ha, hb⟩ := Prod.mk.injEq _ _ _ _ ▸ Option.some.injEq _ _ ▸ h
        refine ⟨?_, ?_⟩
        · rw [← ha, ← hb, hx]
          rfl
        · rw [← ha]
          simp
      · rw [if_neg hx] at h
        match hbr : breakAtChar c t with
        | some (a2, b2) =>
            rw [hbr] at h
            obtain ⟨ha, hb⟩ := Prod.mk.injEq _ _ _ _ ▸ Option.some.injEq _ _ ▸ h
            obtain ⟨ht, hnot⟩ := ih a2 b2 hbr
            refine ⟨?_, ?_⟩
            · rw [← ha, ← hb, ht]
              rfl
            · rw [← ha]
              intro hmem
              rcases List.mem_cons.mp hmem with h1 | h1
              · exact hx h1.symm
              · exact hnot h1
        | none =>
            rw [hbr] at h
            cases h

theorem breakAtChar_append (c : Char) :
    ∀ (a b : List Char), c ∉ a → breakAtChar c (a ++ c :: b) = some (a, b) := by
  intro a
  induction a with
  | nil =>
      intro b _
      simp [breakAtChar]
  | cons x t ih =>
      intro b hna
      have hx : ¬ x = c := by
        intro h
        exact hna (by simp [h])
      simp only [List.cons_append, breakAtChar, if_neg hx]
      rw [List.append_eq, ih b (fun h => hna (List.mem_cons_of_mem _ h))]

theorem splitCharMax3_append (s1 s2 s3 s4 : List Char)
    (h1 : '$' ∉ s1) (h2 : '$' ∉ s2) (h3 : '$' ∉ s3) :
    splitCharMax '$' 3 (s1 ++ '$' :: (s2 ++ '$' :: (s3 ++ '$' :: s4)))
      = [s1, s2, s3, s4] := by
  have e1 : splitCharMax '$' 3 (s1 ++ '$' :: (s2 ++ '$' :: (s3 ++ '$' :: s4)))
      = s1 :: splitCharMax '$' 2 (s2 ++ '$' :: (s3 ++ '$' :: s4)) := by
    simp only [splitCharMax]
    rw [breakAtChar_append '$' s1 _ h1]
  have e2 : splitCharMax '$' 2 (s2 ++ '$' :: (s3 ++ '$' :: s4))
      = s2 :: splitCharMax '$' 1 (s3 ++ '$' :: s4) := by
    simp only [splitCharMax]
    rw [breakAtChar_append '$' s2 _ h2]
  have e3 : splitCharMax '$' 1 (s3 ++ '$' :: s4) = s3 :: splitCharMax '$' 0 s4 := by
    simp only [splitCharMax]
    rw [breakAtChar_append '$' s3 _ h3]
  rw [e1, e2, e3]
  rfl

theorem splitCharMax3_salt_no_dollar (l p1 p2 p3 p4 : List Char)
    (h : splitCharMax '$' 3 l = [p1, p2, p3, p4]) : '$' ∉ p3 := by
  simp only [splitCharMax] at h
  match hb1 : breakAtChar '$' l with
  | none =>
      rw [hb1] at h
      cases h
  | some (a1, b1) =>
      rw [hb1] at h
      simp only [List.cons.injEq] at h
      obtain ⟨_, h⟩ := h
      match hb2 : breakAtChar '$' b1 with
      | none =>
          rw [hb2] at h
          cases h
      | some (a2, b2) =>
          rw [hb2] at h
          simp only [List.cons.injEq] at h
          obtain ⟨_, h⟩ := h
          match hb3 : breakAtChar '$' b2 with
          | none =>
              rw [hb3] at h
              cases h
          | some (a3, b3) =>
              rw [hb3] at h
              simp only [List.cons.injEq] at h
              obtain ⟨h3, _⟩ := h
              rw [← h3]
              exact (breakAtChar_eq '$' b2 a3 b3 hb3).2

/-- C8 counterexample: a template missing {output} does fail before any
launch, but the message is "BIRDNET_TEMPLATE must include {input} and
{output}.", not the claimed "template must include {input} and {output}". -/
theorem C8_claim_counterexample :
    run_birdnet (fun _ => []) "birdnet {input}"
      = RunOutcome.failedBeforeLaunch "BIRDNET_TEMPLATE must include {input} and {output}."
    ∧ "BIRDNET_TEMPLATE must include {input} and {output}."
      ≠ "template must include {input} and {output}" := by
  constructor
  · decide
  · decide

/-- C8 amended: for every classifier template missing {input} or {output},
no classifier subprocess is launched and the per-segment run fails with the
error message "BIRDNET_TEMPLATE must include {input} and {output}."
(the ValueError text of build_birdnet_command, returned by run_birdnet
before subprocess.run is reached). -/
theorem C8_amended_template_check :
    ∀ (pyFormat : String → List String) (template : String),
      (containsSub template.data "{input}".data = false
        ∨ containsSub template.data "{output}".data = false) →
      run_birdnet pyFormat template
        = RunOutcome.failedBeforeLaunch
            "BIRDNET_TEMPLATE must include {input} and {output}." := by
  intro pyFormat template h
  unfold run_birdnet build_birdnet_command
  have hcond : (!(containsSub template.data "{input}".data)
      || !(containsSub template.data "{output}".data)) = true := by
    rcases h with h | h
    · rw [h]; rfl
    · rw [h]; simp
  rw [if_pos hcond]

/-- C8 witness: a template missing {input} fails before launch with the
exact message. -/
theorem C8_amended_template_check_witness :
    run_birdnet (fun _ => []) "analyze.py -o {output}"
      = RunOutcome.failedBeforeLaunch
          "BIRDNET_TEMPLATE must include {input} and {output}." :=
  C8_amended_template_check (fun _ => []) "analyze.py -o {output}"
    (Or.inl (by decide))

theorem verify_password_parts4 (digest : String → String → Int → String)
    (p h : String) (s1 s2 s3 s4 : List Char)
    (hne : h ≠ "") (hsp : splitCharMax '$' 3 h.data = [s1, s2, s3, s4]) :
    verify_password digest p h
      = (if String.mk s1 ≠ "pbkdf2_sha256" then Except.ok false
         else
           match pyInt (String.mk s2) with
           | none => Except.ok false
           | some iters =>
               match hash_password digest p (String.mk s3) iters with
               | Except.error e => Except.error e
               | Except.ok computed => Except.ok (computed == h)) := by
  unfold verify_password
  rw [if_neg hne, hsp]

theorem isEncodedForm_parts4 (h : String) (s1 s2 s3 s4 : List Char)
    (hsp : splitCharMax '$' 3 h.data = [s1, s2, s3, s4]) :
    isEncodedForm h
      = ((String.mk s1 == "pbkdf2_sha256") && (pyInt (String.mk s2)).isSome
          && !s4.isEmpty && s4.all isHexDigit) := by
  unfold isEncodedForm
  rw [hsp]

theorem iterFieldBelow1_parts4 (h : String) (s1 s2 s3 s4 : List Char)
    (hsp : splitCharMax '$' 3 h.data = [s1, s2, s3, s4]) :
    iterFieldBelow1 h
      = ((String.mk s1 == "pbkdf2_sha256")
          && (match pyInt (String.mk s2) with
              | some k => decide (k < 1)
              | none => false)) := by
  unfold iterFieldBelow1
  rw [hsp]

/-- C10 counterexample: a salt containing a dollar sign breaks the
round trip. The digest shown is one conforming hex digest function; the
encoded hash splits as salt "a" and digest "b$00", so the recomputation
differs and verify_password answers False, not True. -/
theorem C10_claim_counterexample :
    hash_password (fun _ _ _ => "00") "pw" "a$b" 210000
      = Except.ok "pbkdf2_sha256$210000$a$b$00"
    ∧ verify_password (fun _ _ _ => "00") "pw" "pbkdf2_sha256$210000$a$b$00"
      = Except.ok false := by
  constructor
  · rfl
  · rfl

/-- C10 amended: with the PBKDF2 hex digest abstract (any function whose
output is non-empty lowercase hex), verify_password(p, hash_password(p,
salt)) is True for every password p and every salt that contains no '$';
verify_password(q, h) is False for every q whenever h is empty or is not of
the form pbkdf2_sha256$<iterations>$<salt>$<hex> - except that when the
iterations field of such an h parses as an integer below 1 the recomputed
PBKDF2 call raises ValueError out of verify_password instead of returning
False. -/
theorem C10_amended_password_verification :
    (∀ (digest : String → String → Int → String) (p salt : String),
        (∀ c ∈ salt.data, c ≠ '$') →
        ∃ h, hash_password digest p salt 210000 = Except.ok h
          ∧ verify_password digest p h = Except.ok true)
    ∧ (∀ (digest : String → String → Int → String) (q : String),
        verify_password digest q "" = Except.ok false)
    ∧ (∀ (digest : String → String → Int → String) (q h : String),
        (∀ p s i, (digest p s i).data.all isHexDigit = true ∧ digest p s i ≠ "") →
        isEncodedForm h = false →
        (iterFieldBelow1 h = false → verify_password digest q h = Except.ok false)
        ∧ (iterFieldBelow1 h = true → verify_password digest q h = Except.error ())) := by
  refine ⟨?_, ?_, ?_⟩
  · intro digest p salt hsalt
    have h210 : ¬ ((210000 : Int) < 1) := by norm_num
    refine ⟨"pbkdf2_sha256$" ++ toString (210000 : Int) ++ "$" ++ salt ++ "$"
        ++ digest p salt 210000, ?_, ?_⟩
    · unfold hash_password
      rw [if_neg h210]
    · have hdata : ("pbkdf2_sha256$" ++ toString (210000 : Int) ++ "$" ++ salt ++ "$"
            ++ digest p salt 210000).data
          = "pbkdf2_sha256".data ++ '$' :: ((toString (210000 : Int)).data
              ++ '$' :: (salt.data ++ '$' :: (digest p salt 210000).data)) := by
        simp only [String.data_append, List.append_assoc]
        norm_num
      have hns : '$' ∉ salt.data := fun hm => (hsalt '$' hm) rfl
      have hnt : '$' ∉ (toString (210000 : Int)).data :=
        fun hm => (toString_int_ne_dollar 210000 '$' hm) rfl
      have hnp : '$' ∉ ("pbkdf2_sha256".data) := by decide
      have hsplit : splitCharMax '$' 3 ("pbkdf2_sha256$" ++ toString (210000 : Int) ++ "$"
            ++ salt ++ "$" ++ digest p salt 210000).data
          = ["pbkdf2_sha256".data, (toString (210000 : Int)).data, salt.data,
             (digest p salt 210000).data] := by
        rw [hdata]
        exact splitCharMax3_append _ _ _ _ hnp hnt hns
      have hne : ("pbkdf2_sha256$" ++ toString (210000 : Int) ++ "$" ++ salt ++ "$"
            ++ digest p salt 210000) ≠ "" := by
        intro he
        have h2 := congrArg String.data he
        rw [hdata] at h2
        simp at h2
      rw [verify_password_parts4 digest p _ _ _ _ _ hne hsplit]
      have hschemeNe : ¬ (String.mk ("pbkdf2_sha256".data) ≠ "pbkdf2_sha256") :=
        fun hcon => hcon rfl
      rw [if_neg hschemeNe]
      have hpy : pyInt (String.mk (toString (210000 : Int)).data) = some 210000 := by decide
      simp only [hpy]
      have hhash : hash_password digest p (String.mk salt.data) 210000
          = Except.ok ("pbkdf2_sha256$" ++ toString (210000 : Int) ++ "$" ++ salt ++ "$"
              ++ digest p salt 210000) := by
        unfold hash_password
        rw [if_neg h210]
      simp only [hhash]
      simp
  · intro digest q
    rfl
  · intro digest q h hdig hform
    by_cases hempty : h = ""
    · subst hempty
      refine ⟨fun _ => rfl, fun habs => absurd habs (by decide)⟩
    · rcases hsp : splitCharMax '$' 3 h.data
        with _ | ⟨p1, _ | ⟨p2, _ | ⟨p3, _ | ⟨p4, _ | ⟨p5, rest⟩⟩⟩⟩⟩
      · have hv : verify_password digest q h = Except.ok false := by
          unfold verify_password
          rw [if_neg hempty, hsp]
        have hi : iterFieldBelow1 h = false := by
          unfold iterFieldBelow1
          rw [hsp]
        exact ⟨fun _ => hv, fun habs => absurd habs (by rw [hi]; simp)⟩
      · have hv : verify_password digest q h = Except.ok false := by
          unfold verify_password
          rw [if_neg hempty, hsp]
        have hi : iterFieldBelow1 h = false := by
          unfold iterFieldBelow1
          rw [hsp]
        exact ⟨fun _ => hv, fun habs => absurd habs (by rw [hi]; simp)⟩
      · have hv : verify_password digest q h = Except.ok false := by
          unfold verify_password
          rw [if_neg hempty, hsp]
        have hi : iterFieldBelow1 h = false := by
          unfold iterFieldBelow1
          rw [hsp]
        exact ⟨fun _ => hv, fun habs => absurd habs (by rw [hi]; simp)⟩
      · have hv : verify_password digest q h = Except.ok false := by
          unfold verify_password
          rw [if_neg hempty, hsp]
        have hi : iterFieldBelow1 h = false := by
          unfold iterFieldBelow1
          rw [hsp]
        exact ⟨fun _ => hv, fun habs => absurd habs (by rw [hi]; simp)⟩
      · -- exactly four parts
        rw [verify_password_parts4 digest q h p1 p2 p3 p4 hempty hsp,
          iterFieldBelow1_parts4 h p1 p2 p3 p4 hsp]
        rw [isEncodedForm_parts4 h p1 p2 p3 p4 hsp] at hform
        by_cases hs : String.mk p1 ≠ "pbkdf2_sha256"
        · rw [if_pos hs]
          have hb : (String.mk p1 == "pbkdf2_sha256") = false :=
            beq_eq_false_iff_ne.mpr hs
          rw [hb]
          exact ⟨fun _ => rfl, fun habs => absurd habs (by simp)⟩
        · rw [if_neg hs]
          have hs2 : String.mk p1 = "pbkdf2_sha256" := not_not.mp hs
          have hb : (String.mk p1 == "pbkdf2_sha256") = true := by
            rw [hs2]
            simp
          rw [hb] at hform ⊢
          simp only [Bool.true_and] at hform ⊢
          rcases hpy : pyInt (String.mk p2) with _ | k
          · exact ⟨fun _ => rfl, fun habs => absurd habs (by simp)⟩
          · by_cases hk : k < 1
            · have hhash : hash_password digest q (String.mk p3) k = Except.error () := by
                unfold hash_password
                rw [if_pos hk]
              refine ⟨fun hfalse => ?_, fun _ => ?_⟩
              · exact absurd (show decide (k < 1) = false from hfalse) (by simp [hk])
              · show (match hash_password digest q (String.mk p3) k with
                    | Except.error e => Except.error e
                    | Except.ok computed => Except.ok (computed == h)) = Except.error ()
                rw [hhash]
            · have hhash : hash_password digest q (String.mk p3) k
                  = Except.ok ("pbkdf2_sha256$" ++ toString k ++ "$" ++ String.mk p3 ++ "$"
                      ++ digest q (String.mk p3) k) := by
                unfold hash_password
                rw [if_neg hk]
              have hne2 : ("pbkdf2_sha256$" ++ toString k ++ "$" ++ String.mk p3 ++ "$"
                  ++ digest q (String.mk p3) k) ≠ h := by
                intro heq
                have hdataeq := congrArg String.data heq
                have hcd : ("pbkdf2_sha256$" ++ toString k ++ "$" ++ String.mk p3 ++ "$"
                      ++ digest q (String.mk p3) k).data
                    = "pbkdf2_sha256".data ++ '$' :: ((toString k).data
                        ++ '$' :: (p3 ++ '$' :: (digest q (String.mk p3) k).data)) := by
                  simp only [String.data_append, List.append_assoc]
                  norm_num
                have hsplitc : splitCharMax '$' 3 h.data
                    = ["pbkdf2_sha256".data, (toString k).data, p3,
                       (digest q (String.mk p3) k).data] := by
                  rw [← hdataeq, hcd]
                  exact splitCharMax3_append _ _ _ _ (by decide)
                    (fun hm => (toString_int_ne_dollar k '$' hm) rfl)
                    (splitCharMax3_salt_no_dollar h.data p1 p2 p3 p4 hsp)
                have hparts : ([p1, p2, p3, p4] : List (List Char))
                    = ["pbkdf2_sha256".data, (toString k).data, p3,
                       (digest q (String.mk p3) k).data] := by
                  rw [← hsp, hsplitc]
                simp only [List.cons.injEq] at hparts
                have hp4 : p4 = (digest q (String.mk p3) k).data := hparts.2.2.2.1
                have hdigprop := hdig q (String.mk p3) k
                have hnonempty : p4.isEmpty = false := by
                  rw [hp4]
                  rcases hie : (digest q (String.mk p3) k).data.isEmpty with _ | _
                  · rfl
                  · exact absurd (by
                      have hd0 : (digest q (String.mk p3) k).data = [] :=
                        List.isEmpty_iff.mp hie
                      have h3 := congrArg String.mk hd0
                      simpa using h3) hdigprop.2
                have hhex : p4.all isHexDigit = true := by
                  rw [hp4]
                  exact hdigprop.1
                simp [hpy, hnonempty, hhex] at hform
              refine ⟨fun _ => ?_, fun habs =>
                absurd (of_decide_eq_true (show decide (k < 1) = true from habs)) hk⟩
              show (match hash_password digest q (String.mk p3) k with
                  | Except.error e => Except.error e
                  | Except.ok computed => Except.ok (computed == h)) = Except.ok false
              simp only [hhash]
              rw [beq_eq_false_iff_ne.mpr hne2]
      · have hv : verify_password digest q h = Except.ok false := by
          unfold verify_password
          rw [if_neg hempty, hsp]
        have hi : iterFieldBelow1 h = false := by
          unfold iterFieldBelow1
          rw [hsp]
        exact ⟨fun _ => hv, fun habs => absurd habs (by rw [hi]; simp)⟩

/-- C10 witness: a hex digest function, the dollar-free salt "s", the empty
hash, and the malformed hash pbkdf2_sha256$10$s$ZZ instantiate all three
clauses. -/
theorem C10_amended_password_verification_witness :
    (∃ h, hash_password (fun _ _ _ => "ab") "pw" "s" 210000 = Except.ok h
        ∧ verify_password (fun _ _ _ => "ab") "pw" h = Except.ok true)
    ∧ verify_password (fun _ _ _ => "ab") "q" "" = Except.ok false
    ∧ verify_password (fun _ _ _ => "ab") "q" "pbkdf2_sha256$10$s$ZZ"
        = Except.ok false :=
  ⟨C10_amended_password_verification.1 (fun _ _ _ => "ab") "pw" "s" (by decide),
   C10_amended_password_verification.2.1 (fun _ _ _ => "ab") "q",
   (C10_amended_password_verification.2.2 (fun _ _ _ => "ab") "q"
      "pbkdf2_sha256$10$s$ZZ"
      (fun p s i => ⟨(by decide : ("ab" : String).data.all isHexDigit = true),
        (by decide : ("ab" : String) ≠ "")⟩)
      (by decide)).1 (by decide)⟩

theorem breakAtChar_none (c : Char) :
    ∀ l : List Char, c ∉ l → breakAtChar c l = none := by
  intro l
  induction l with
  | nil => intro _; rfl
  | cons x t ih =>
      intro h
      have hx : ¬ x = c := fun he => h (by simp [he])
      simp only [breakAtChar, if_neg hx]
      rw [ih (fun hm => h (List.mem_cons_of_mem _ hm))]

theorem breakAtChar_append_none (c : Char) :
    ∀ (a b : List Char), c ∉ a →
      breakAtChar c (a ++ b)
        = (breakAtChar c b).map (fun p => (a ++ p.1, p.2)) := by
  intro a
  induction a with
  | nil =>
      intro b _
      simp only [List.nil_append]
      cases hb : breakAtChar c b with
      | none => rfl
      | some p => rfl
  | cons x t ih =>
      intro b h
      have hx : ¬ x = c := fun he => h (by simp [he])
      simp only [List.cons_append, breakAtChar, if_neg hx]
      rw [List.append_eq, ih b (fun hm => h (List.mem_cons_of_mem _ hm))]
      cases hb : breakAtChar c b with
      | none => rfl
      | some p => rfl

theorem takeWhile_append_all (p : Char → Bool) :
    ∀ (a b : List Char), a.all p = true →
      (a ++ b).takeWhile p = a ++ b.takeWhile p := by
  intro a
  induction a with
  | nil => intro b _; rfl
  | cons x t ih =>
      intro b h
      simp only [List.all_cons, Bool.and_eq_true] at h
      simp only [List.cons_append, List.takeWhile_cons, h.1, if_pos]
      rw [ih b h.2]

theorem dropWhile_append_all (p : Char → Bool) :
    ∀ (a b : List Char), a.all p = true →
      (a ++ b).dropWhile p = b.dropWhile p := by
  intro a
  induction a with
  | nil => intro b _; rfl
  | cons x t ih =>
      intro b h
      simp only [List.all_cons, Bool.and_eq_true] at h
      simp only [List.cons_append, List.dropWhile_cons, h.1, if_pos]
      exact ih b h.2

theorem toNat_ofNat_valid (n : Nat) (h : n.isValidChar) :
    (Char.ofNat n).toNat = n := by
  simp only [Char.ofNat, h, dif_pos, Char.ofNatAux, Char.toNat, UInt32.toNat,
    BitVec.toNat_ofNatLt]

theorem char_eq_iff_toNat (c d : Char) : c = d ↔ c.toNat = d.toNat := by
  constructor
  · intro h; rw [h]
  · intro h
    have hv : c.val = d.val := by
      apply UInt32.eq_of_toBitVec_eq
      apply BitVec.eq_of_toNat_eq
      exact h
    exact Char.eq_of_val_eq hv

theorem beq_char_toNat (c d : Char) : (c == d) = decide (c.toNat = d.toNat) := by
  by_cases h : c = d
  · rw [h]; simp
  · have hn : ¬ c.toNat = d.toNat := fun he => h ((char_eq_iff_toNat c d).mpr he)
    simp [h, hn]

theorem asciiLower_toNat (c : Char) :
    (asciiLower c).toNat
      = if 65 ≤ c.toNat ∧ c.toNat ≤ 90 then c.toNat + 32 else c.toNat := by
  by_cases h : 65 ≤ c.toNat ∧ c.toNat ≤ 90
  · rw [if_pos h]
    unfold asciiLower
    rw [if_pos h]
    exact toNat_ofNat_valid _ (Or.inl (by omega))
  · rw [if_neg h]
    unfold asciiLower
    rw [if_neg h]

theorem asciiLower_idem (c : Char) : asciiLower (asciiLower c) = asciiLower c := by
  by_cases h : 65 ≤ c.toNat ∧ c.toNat ≤ 90
  · have hv : (Char.ofNat (c.toNat + 32)).toNat = c.toNat + 32 :=
      toNat_ofNat_valid _ (Or.inl (by omega))
    unfold asciiLower
    rw [if_pos h, if_neg (by rw [hv]; omega)]
  · unfold asciiLower
    rw [if_neg h, if_neg h]

theorem eq_of_asciiLower_eq (c d : Char) (hd : ¬(97 ≤ d.toNat ∧ d.toNat ≤ 122))
    (h : asciiLower c = d) : c = d := by
  by_cases hc : 65 ≤ c.toNat ∧ c.toNat ≤ 90
  · exfalso
    apply hd
    have ht := asciiLower_toNat c
    rw [if_pos hc] at ht
    rw [← (char_eq_iff_toNat _ _).mp h, ht]
    omega
  · rw [← h]
    unfold asciiLower
    rw [if_neg hc]

theorem isSchemeChar_asciiLower (c : Char) :
    isSchemeChar (asciiLower c) = isSchemeChar c := by
  have ht := asciiLower_toNat c
  by_cases h : 65 ≤ c.toNat ∧ c.toNat ≤ 90
  · rw [if_pos h] at ht
    have h43 : ('+' : Char).toNat = 43 := by decide
    have h45 : ('-' : Char).toNat = 45 := by decide
    have h46 : ('.' : Char).toNat = 46 := by decide
    rw [Bool.eq_iff_iff]
    simp only [isSchemeChar, isAlnumAscii, beq_char_toNat, ht, h43, h45, h46,
      Bool.or_eq_true, Bool.and_eq_true, decide_eq_true_eq]
    omega
  · rw [if_neg h] at ht
    simp only [isSchemeChar, isAlnumAscii, beq_char_toNat, ht]

theorem isAsciiAlpha_asciiLower (c : Char) :
    isAsciiAlpha (asciiLower c) = isAsciiAlpha c := by
  have ht := asciiLower_toNat c
  by_cases h : 65 ≤ c.toNat ∧ c.toNat ≤ 90
  · rw [if_pos h] at ht
    rw [Bool.eq_iff_iff]
    simp only [isAsciiAlpha, ht, Bool.or_eq_true, Bool.and_eq_true,
      decide_eq_true_eq]
    omega
  · rw [if_neg h] at ht
    simp only [isAsciiAlpha, ht]

theorem breakAtChar_eq_none (c : Char) :
    ∀ l : List Char, breakAtChar c l = none → c ∉ l := by
  intro l
  induction l with
  | nil => intro _ hm; cases hm
  | cons x t ih =>
      intro h hm
      by_cases hx : x = c
      · simp [breakAtChar, hx] at h
      · simp only [breakAtChar, if_neg hx] at h
        cases hb : breakAtChar c t with
        | some p => rw [hb] at h; cases h
        | none =>
            rcases List.mem_cons.mp hm with h1 | h1
            · exact hx h1.symm
            · exact ih hb h1

theorem all_subset (p : Char → Bool) {l₁ l₂ : List Char} (hs : l₁ ⊆ l₂)
    (h : l₂.all p = true) : l₁.all p = true := by
  rw [List.all_eq_true] at h ⊢
  exact fun x hx => h x (hs hx)

theorem validBefore_false_of_mem (a : List Char) (d : Char) (hd : d ∈ a)
    (hns : isSchemeChar d = false) : validBefore a = false := by
  cases a with
  | nil => rfl
  | cons c t =>
      simp only [validBefore]
      have hall : (c :: t).all isSchemeChar = false := by
        rw [List.all_eq_false]
        exact ⟨d, hd, by simp [hns]⟩
      rw [hall, Bool.and_false]

theorem noValidColon_nil : noValidColon [] := by
  intro a b hb
  cases hb

theorem noValidColon_cons_notalpha (c : Char) (t : List Char)
    (hc : isAsciiAlpha c = false) : noValidColon (c :: t) := by
  intro a b hb
  obtain ⟨hdec, _⟩ := breakAtChar_eq ':' (c :: t) a b hb
  cases a with
  | nil => rfl
  | cons x a2 =>
      have hx : x = c := by
        have := hdec
        simp only [List.cons_append] at this
        exact (List.cons.injEq _ _ _ _ ▸ this).1.symm
      simp only [validBefore, hx, hc, Bool.false_and]

theorem noValidColon_prefix (a l : List Char) (hp : a <+: l)
    (h : noValidColon l) : noValidColon a := by
  intro x y hb
  obtain ⟨hdec, hnx⟩ := breakAtChar_eq ':' a x y hb
  obtain ⟨tail, htail⟩ := hp
  have hl : l = x ++ ':' :: (y ++ tail) := by
    rw [← htail, hdec]
    simp
  have hbl : breakAtChar ':' l = some (x, y ++ tail) := by
    rw [hl]
    exact breakAtChar_append ':' x (y ++ tail) hnx
  exact h x (y ++ tail) hbl

theorem noValidColon_append_delim (p X : List Char) (hp : noValidColon p)
    (hX : X = [] ∨ ∃ d t, X = d :: t ∧ isSchemeChar d = false ∧ d ≠ ':') :
    noValidColon (p ++ X) := by
  intro a b hb
  cases hcp : breakAtChar ':' p with
  | some q =>
      rcases q with ⟨a0, b0⟩
      obtain ⟨hdec, hna⟩ := breakAtChar_eq ':' p a0 b0 hcp
      have hbl : breakAtChar ':' (p ++ X) = some (a0, b0 ++ X) := by
        rw [hdec]
        have : a0 ++ ':' :: b0 ++ X = a0 ++ ':' :: (b0 ++ X) := by simp
        rw [this]
        exact breakAtChar_append ':' a0 (b0 ++ X) hna
      rw [hbl] at hb
      obtain ⟨ha, _⟩ := Prod.mk.injEq _ _ _ _ ▸ Option.some.injEq _ _ ▸ hb
      rw [← ha]
      exact hp a0 b0 hcp
  | none =>
      have hnp : ':' ∉ p := breakAtChar_eq_none ':' p hcp
      rw [breakAtChar_append_none ':' p X hnp] at hb
      rcases hX with hX | ⟨d, t, hXdt, hds, hdc⟩
      · rw [hX] at hb
        cases hb
      · cases hbX : breakAtChar ':' X with
        | none => rw [hbX] at hb; cases hb
        | some q =>
            rcases q with ⟨x1, y1⟩
            rw [hbX] at hb
            obtain ⟨ha, _⟩ := Prod.mk.injEq _ _ _ _ ▸ Option.some.injEq _ _ ▸ hb
            obtain ⟨hdecX, _⟩ := breakAtChar_eq ':' X x1 y1 hbX
            have hdx : d ∈ x1 := by
              cases x1 with
              | nil =>
                  exfalso
                  rw [hXdt] at hdecX
                  simp only [List.nil_append] at hdecX
                  exact hdc (List.cons.injEq _ _ _ _ ▸ hdecX).1
              | cons z zs =>
                  rw [hXdt] at hdecX
                  simp only [List.cons_append] at hdecX
                  have : d = z := (List.cons.injEq _ _ _ _ ▸ hdecX).1
                  rw [this]
                  exact List.mem_cons_self z zs
            rw [← ha]
            exact validBefore_false_of_mem _ d (List.mem_append_right _ hdx) hds

theorem schemeSplit_of_noValidColon (l : List Char) (h : noValidColon l) :
    schemeSplit l = ([], l) := by
  unfold schemeSplit
  cases hb : breakAtChar ':' l with
  | none => rfl
  | some p =>
      rcases p with ⟨a, b⟩
      show (if validBefore a = true then (List.map asciiLower a, b) else ([], l))
        = ([], l)
      rw [h a b hb]
      simp

theorem schemeSplit_cases (l : List Char) :
    (schemeSplit l = ([], l) ∧ noValidColon l)
    ∨ (∃ before rest, breakAtChar ':' l = some (before, rest)
        ∧ validBefore before = true
        ∧ schemeSplit l = (before.map asciiLower, rest)) := by
  by_cases h : noValidColon l
  · exact Or.inl ⟨schemeSplit_of_noValidColon l h, h⟩
  · right
    unfold noValidColon at h
    push_neg at h
    obtain ⟨a, b, hb, hv⟩ := h
    have hv2 : validBefore a = true := by
      cases hval : validBefore a with
      | false => exact absurd hval hv
      | true => rfl
    refine ⟨a, b, hb, hv2, ?_⟩
    unfold schemeSplit
    rw [hb]
    show (if validBefore a = true then (List.map asciiLower a, b) else ([], l))
      = (List.map asciiLower a, b)
    rw [if_pos hv2]

theorem schemeSplit_prefix (s rest : List Char) (hv : validBefore s = true)
    (hl : s.map asciiLower = s) : schemeSplit (s ++ ':' :: rest) = (s, rest) := by
  have hns : ':' ∉ s := by
    intro hm
    have := validBefore_false_of_mem s ':' hm (by decide)
    rw [this] at hv
    cases hv
  unfold schemeSplit
  rw [breakAtChar_append ':' s rest hns]
  show (if validBefore s = true then (List.map asciiLower s, rest)
      else ([], s ++ ':' :: rest)) = (s, rest)
  rw [if_pos hv, hl]

theorem validBefore_map_lower (s : List Char) (hv : validBefore s = true) :
    validBefore (s.map asciiLower) = true := by
  cases s with
  | nil => cases hv
  | cons c t =>
      simp only [validBefore, List.map_cons, Bool.and_eq_true] at hv ⊢
      refine ⟨?_, ?_⟩
      · rw [isAsciiAlpha_asciiLower]
        exact hv.1
      · rw [← List.map_cons]
        rw [List.all_map]
        rw [List.all_eq_true] at hv ⊢
        intro x hx
        simp only [Function.comp_apply]
        rw [isSchemeChar_asciiLower]
        exact hv.2 x hx

theorem map_lower_idem (s : List Char) :
    (s.map asciiLower).map asciiLower = s.map asciiLower := by
  rw [List.map_map]
  apply List.map_congr_left
  intro a _
  exact asciiLower_idem a

theorem splitOnce_fst_prefix (c : Char) (l : List Char) :
    (splitOnce c l).1 <+: l := by
  unfold splitOnce
  cases hb : breakAtChar c l with
  | none => exact List.prefix_refl l
  | some p =>
      rcases p with ⟨a, b⟩
      obtain ⟨hdec, _⟩ := breakAtChar_eq c l a b hb
      exact ⟨c :: b, hdec.symm⟩

theorem splitOnce_fst_not_mem (c : Char) (l : List Char) :
    c ∉ (splitOnce c l).1 := by
  unfold splitOnce
  cases hb : breakAtChar c l with
  | none => exact breakAtChar_eq_none c l hb
  | some p =>
      rcases p with ⟨a, b⟩
      exact (breakAtChar_eq c l a b hb).2

theorem splitOnce_snd_subset (c : Char) (l : List Char) :
    (splitOnce c l).2 ⊆ l := by
  unfold splitOnce
  cases hb : breakAtChar c l with
  | none => exact List.nil_subset l
  | some p =>
      rcases p with ⟨a, b⟩
      obtain ⟨hdec, _⟩ := breakAtChar_eq c l a b hb
      rw [hdec]
      intro x hx
      exact List.mem_append_right a (List.mem_cons_of_mem c hx)

theorem splitOnce_cons_keep (c x : Char) (t : List Char) (hx : ¬ x = c) :
    ∃ t2, (splitOnce c (x :: t)).1 = x :: t2 := by
  unfold splitOnce
  simp only [breakAtChar, if_neg hx]
  cases hb : breakAtChar c t with
  | none => exact ⟨t, rfl⟩
  | some p =>
      rcases p with ⟨a, b⟩
      exact ⟨a, rfl⟩

theorem splitOnce_cons_hit (c : Char) (t : List Char) :
    splitOnce c (c :: t) = ([], t) := by
  unfold splitOnce
  simp [breakAtChar]

theorem splitOnce_no_mem (c : Char) (l : List Char) (h : c ∉ l) :
    splitOnce c l = (l, []) := by
  unfold splitOnce
  rw [breakAtChar_none c l h]

theorem splitOnce_append (c : Char) (a b : List Char) (h : c ∉ a) :
    splitOnce c (a ++ c :: b) = (a, b) := by
  unfold splitOnce
  rw [breakAtChar_append c a b h]

theorem splitPoint_no_slash (l : List Char) (h : ¬ l.take 2 = ['/', '/']) :
    splitPoint l = ([], l) := by
  unfold splitPoint
  rw [if_neg h]

theorem splitPoint_slash (w : List Char) :
    splitPoint ('/' :: '/' :: w)
      = (w.takeWhile notNetlocDelim, w.dropWhile notNetlocDelim) := by
  unfold splitPoint splitNetloc
  rw [if_pos (by simp : List.take 2 ('/' :: '/' :: w) = ['/', '/'])]
  simp

theorem removeUnsafe_all (l : List Char) : (removeUnsafe l).all urlByteOk = true := by
  rw [List.all_eq_true]
  intro x hx
  exact (List.mem_filter.mp hx).2

theorem removeUnsafe_of_all (l : List Char) (h : l.all urlByteOk = true) :
    removeUnsafe l = l := by
  unfold removeUnsafe
  rw [List.filter_eq_self]
  exact fun a ha => List.all_eq_true.mp h a ha

theorem all_takeWhile (p : Char → Bool) (l : List Char) :
    (l.takeWhile p).all p = true := by
  induction l with
  | nil => rfl
  | cons x t ih =>
      rw [List.takeWhile_cons]
      cases hx : p x with
      | false => rfl
      | true => simpa [hx] using ih

theorem dropWhile_shape (p : Char → Bool) (l : List Char) :
    l.dropWhile p = [] ∨ ∃ c t, l.dropWhile p = c :: t ∧ p c = false := by
  induction l with
  | nil => exact Or.inl rfl
  | cons x t ih =>
      rw [List.dropWhile_cons]
      cases hx : p x with
      | false => exact Or.inr ⟨x, t, by simp, hx⟩
      | true => simpa using ih

theorem urlsplit_ok_elim (nfkc : List Char → Bool) (url : List Char)
    (parts : SplitResult) (h : urlsplit nfkc url = Except.ok parts) :
    bracketMismatch (splitPoint (schemeSplit (removeUnsafe url)).2).1 = false
    ∧ checknetloc nfkc (splitPoint (schemeSplit (removeUnsafe url)).2).1 = true
    ∧ parts = ⟨(schemeSplit (removeUnsafe url)).1,
        (splitPoint (schemeSplit (removeUnsafe url)).2).1,
        (querySplit (fragSplit (splitPoint (schemeSplit (removeUnsafe url)).2).2).1).1,
        (querySplit (fragSplit (splitPoint (schemeSplit (removeUnsafe url)).2).2).1).2,
        (fragSplit (splitPoint (schemeSplit (removeUnsafe url)).2).2).2⟩ := by
  simp only [urlsplit] at h
  by_cases hb : bracketMismatch (splitPoint (schemeSplit (removeUnsafe url)).2).1 = true
  · rw [if_pos hb] at h
    cases h
  · rw [if_neg hb] at h
    rw [Bool.not_eq_true] at hb
    by_cases hc : checknetloc nfkc (splitPoint (schemeSplit (removeUnsafe url)).2).1 = true
    · rw [if_pos hc] at h
      injection h with h2
      exact ⟨hb, hc, h2.symm⟩
    · rw [if_neg hc] at h
      cases h

theorem take2_shape (l : List Char) (a b : Char) (h : l.take 2 = [a, b]) :
    ∃ t, l = a :: b :: t := by
  cases l with
  | nil => cases h
  | cons x t =>
      cases t with
      | nil => cases h
      | cons y t2 =>
          simp only [List.take, List.cons.injEq] at h
          exact ⟨t2, by rw [h.1, h.2.1]⟩

theorem pq_facts (m : List Char) (hall : m.all urlByteOk = true) :
    (querySplit (fragSplit m).1).1.all pathOk = true
    ∧ (fragSplit m).2.all urlByteOk = true
    ∧ (querySplit (fragSplit m).1).1 <+: m := by
  have hfr1 : (fragSplit m).1 <+: m := splitOnce_fst_prefix '#' m
  have hfrh : '#' ∉ (fragSplit m).1 := splitOnce_fst_not_mem '#' m
  have hpq1 : (querySplit (fragSplit m).1).1 <+: (fragSplit m).1 :=
    splitOnce_fst_prefix '?' (fragSplit m).1
  have hpqq : '?' ∉ (querySplit (fragSplit m).1).1 :=
    splitOnce_fst_not_mem '?' (fragSplit m).1
  have hpm : (querySplit (fragSplit m).1).1 <+: m := hpq1.trans hfr1
  refine ⟨?_, ?_, hpm⟩
  · rw [List.all_eq_true]
    intro x hx
    have hbyte : urlByteOk x = true :=
      List.all_eq_true.mp (all_subset urlByteOk hpm.subset hall) x hx
    have hxh : ¬ x = '#' := fun he => hfrh (hpq1.subset (he ▸ hx))
    have hxq : ¬ x = '?' := fun he => hpqq (he ▸ hx)
    simp only [pathOk, hbyte, Bool.true_and, hxh, hxq]
    simp [hxh, hxq]
  · exact all_subset urlByteOk (splitOnce_snd_subset '#' m) hall

theorem tail_inv (l : List Char) (hall : l.all urlByteOk = true) :
    (splitPoint l).1.all netlocOk = true
    ∧ (querySplit (fragSplit (splitPoint l).2).1).1.all pathOk = true
    ∧ (fragSplit (splitPoint l).2).2.all urlByteOk = true
    ∧ (noValidColon l → noValidColon (querySplit (fragSplit (splitPoint l).2).1).1) := by
  by_cases hsl : l.take 2 = ['/', '/']
  · obtain ⟨w, hw⟩ := take2_shape l '/' '/' hsl
    subst hw
    rw [splitPoint_slash w]
    have hwall : w.all urlByteOk = true := by
      simp only [List.all_cons, Bool.and_eq_true] at hall
      exact hall.2.2
    have hm : (w.dropWhile notNetlocDelim).all urlByteOk = true :=
      all_subset urlByteOk (List.dropWhile_suffix notNetlocDelim).subset hwall
    obtain ⟨hpath, hfrag, _⟩ := pq_facts (w.dropWhile notNetlocDelim) hm
    refine ⟨?_, hpath, hfrag, ?_⟩
    · rw [List.all_eq_true]
      intro x hx
      have h1 : urlByteOk x = true :=
        List.all_eq_true.mp
          (all_subset urlByteOk (List.takeWhile_prefix notNetlocDelim).subset hwall) x hx
      have h2 : notNetlocDelim x = true :=
        List.all_eq_true.mp (all_takeWhile notNetlocDelim w) x hx
      simp [netlocOk, h1, h2]
    · intro _
      rcases dropWhile_shape notNetlocDelim w with hsh | ⟨c, t, hsh, hc⟩
      · rw [hsh]
        exact noValidColon_nil
      · rw [hsh]
        have hc3 : c = '/' ∨ c = '?' ∨ c = '#' := by
          have hcor : (c == '/' || c == '?' || c == '#') = true := by
            simp only [notNetlocDelim] at hc
            cases hx : (c == '/' || c == '?' || c == '#') with
            | true => rfl
            | false => rw [hx] at hc; cases hc
          rcases Bool.or_eq_true _ _ |>.mp hcor with h1 | h1
          · rcases Bool.or_eq_true _ _ |>.mp h1 with h2 | h2
            · exact Or.inl (by simpa using h2)
            · exact Or.inr (Or.inl (by simpa using h2))
          · exact Or.inr (Or.inr (by simpa using h1))
        rcases hc3 with hc | hc | hc
        · subst hc
          obtain ⟨t2, ht2⟩ := splitOnce_cons_keep '#' '/' t (by decide)
          rw [show fragSplit ('/' :: t) = splitOnce '#' ('/' :: t) from rfl, ht2]
          obtain ⟨t3, ht3⟩ := splitOnce_cons_keep '?' '/' t2 (by decide)
          rw [show querySplit ('/' :: t2) = splitOnce '?' ('/' :: t2) from rfl, ht3]
          exact noValidColon_cons_notalpha '/' t3 (by decide)
        · subst hc
          obtain ⟨t2, ht2⟩ := splitOnce_cons_keep '#' '?' t (by decide)
          rw [show fragSplit ('?' :: t) = splitOnce '#' ('?' :: t) from rfl, ht2]
          rw [show querySplit ('?' :: t2) = splitOnce '?' ('?' :: t2) from rfl,
            splitOnce_cons_hit '?' t2]
          exact noValidColon_nil
        · subst hc
          rw [show fragSplit ('#' :: t) = splitOnce '#' ('#' :: t) from rfl,
            splitOnce_cons_hit '#' t]
          rw [show querySplit ([] : List Char) = splitOnce '?' [] from rfl,
            splitOnce_no_mem '?' [] (by simp)]
          exact noValidColon_nil
  · rw [splitPoint_no_slash l hsl]
    obtain ⟨hpath, hfrag, hpm⟩ := pq_facts l hall
    refine ⟨rfl, hpath, hfrag, ?_⟩
    intro hnvc
    exact noValidColon_prefix _ l hpm hnvc

theorem urlsplit_inv (nfkc : List Char → Bool) (url : List Char)
    (parts : SplitResult) (h : urlsplit nfkc url = Except.ok parts) :
    (parts.scheme = [] ∨ (validBefore parts.scheme = true
        ∧ parts.scheme.map asciiLower = parts.scheme))
    ∧ parts.netloc.all netlocOk = true
    ∧ bracketMismatch parts.netloc = false
    ∧ checknetloc nfkc parts.netloc = true
    ∧ parts.path.all pathOk = true
    ∧ parts.fragment.all urlByteOk = true
    ∧ (parts.scheme = [] → noValidColon parts.path) := by
  obtain ⟨hbm, hcn, hparts⟩ := urlsplit_ok_elim nfkc url parts h
  have hall1 : (removeUnsafe url).all urlByteOk = true := removeUnsafe_all url
  rcases schemeSplit_cases (removeUnsafe url) with ⟨hss, hnvc⟩ |
      ⟨bef, rest, hbrk, hvb, hss⟩
  · rw [hss] at hbm hcn hparts
    obtain ⟨hnet, hpath, hfrag, hnvp⟩ := tail_inv (removeUnsafe url) hall1
    rw [hparts]
    exact ⟨Or.inl rfl, hnet, hbm, hcn, hpath, hfrag, fun _ => hnvp hnvc⟩
  · rw [hss] at hbm hcn hparts
    obtain ⟨hdec, _⟩ := breakAtChar_eq ':' (removeUnsafe url) bef rest hbrk
    have hrall : rest.all urlByteOk = true := by
      apply all_subset urlByteOk _ hall1
      rw [hdec]
      intro x hx
      exact List.mem_append_right bef (List.mem_cons_of_mem ':' hx)
    obtain ⟨hnet, hpath, hfrag, _⟩ := tail_inv rest hrall
    rw [hparts]
    refine ⟨Or.inr ⟨validBefore_map_lower bef hvb, map_lower_idem bef⟩,
      hnet, hbm, hcn, hpath, hfrag, ?_⟩
    intro hsc
    exfalso
    have hbef : bef = [] := by
      cases hb2 : bef with
      | nil => rfl
      | cons x t => rw [hb2] at hsc; cases hsc
    rw [hbef] at hvb
    cases hvb

theorem partitionChar_cases (c : Char) (l : List Char) :
    partitionChar c l = (l, false, [])
    ∨ ∃ a b, l = a ++ c :: b ∧ c ∉ a ∧ partitionChar c l = (a, true, b) := by
  unfold partitionChar
  cases hb : breakAtChar c l with
  | none => exact Or.inl rfl
  | some p =>
      rcases p with ⟨a, b⟩
      obtain ⟨hdec, hna⟩ := breakAtChar_eq c l a b hb
      exact Or.inr ⟨a, b, hdec, hna, rfl⟩

theorem partitionChar_fst_subset (c : Char) (l : List Char) :
    (partitionChar c l).1 ⊆ l := by
  rcases partitionChar_cases c l with h | ⟨a, b, hdec, _, h⟩
  · rw [h]
    exact fun x hx => hx
  · rw [h, hdec]
    intro x hx
    exact List.mem_append_left _ hx

theorem partitionChar_snd_subset (c : Char) (l : List Char) :
    (partitionChar c l).2.2 ⊆ l := by
  rcases partitionChar_cases c l with h | ⟨a, b, hdec, _, h⟩
  · rw [h]
    exact List.nil_subset l
  · rw [h, hdec]
    intro x hx
    exact List.mem_append_right _ (List.mem_cons_of_mem c hx)

theorem rpartitionChar_cases (c : Char) (l : List Char) :
    (c ∉ l ∧ rpartitionChar c l = ([], false, l))
    ∨ ∃ a b, l = a ++ c :: b ∧ c ∉ b ∧ rpartitionChar c l = (a, true, b) := by
  unfold rpartitionChar
  cases hb : breakAtChar c l.reverse with
  | none =>
      left
      refine ⟨?_, rfl⟩
      intro hm
      exact breakAtChar_eq_none c l.reverse hb (List.mem_reverse.mpr hm)
  | some p =>
      rcases p with ⟨afterRev, beforeRev⟩
      obtain ⟨hdec, hna⟩ := breakAtChar_eq c l.reverse afterRev beforeRev hb
      right
      refine ⟨beforeRev.reverse, afterRev.reverse, ?_, ?_, rfl⟩
      · have hrr : l.reverse.reverse = (afterRev ++ c :: beforeRev).reverse := by
          rw [hdec]
        rw [List.reverse_reverse] at hrr
        rw [hrr]
        simp
      · intro hm
        exact hna (List.mem_reverse.mp hm)

theorem userinfoOf_no_at (netloc : List Char) (h : '@' ∉ netloc) :
    userinfoOf netloc = (none, none) := by
  rcases rpartitionChar_cases '@' netloc with ⟨_, heq⟩ | ⟨a, b, hdec, _, _⟩
  · simp [userinfoOf, heq]
  · exfalso
    apply h
    rw [hdec]
    exact List.mem_append_right a (List.mem_cons_self '@' b)

theorem hostinfo_subset (netloc : List Char) :
    (rpartitionChar '@' netloc).2.2 ⊆ netloc := by
  rcases rpartitionChar_cases '@' netloc with ⟨_, heq⟩ | ⟨a, b, hdec, _, heq⟩
  · rw [heq]
    exact fun x hx => hx
  · rw [heq, hdec]
    intro x hx
    exact List.mem_append_right a (List.mem_cons_of_mem '@' hx)

theorem hostinfo_no_at (netloc : List Char) :
    '@' ∉ (rpartitionChar '@' netloc).2.2 := by
  rcases rpartitionChar_cases '@' netloc with ⟨hno, heq⟩ | ⟨a, b, hdec, hnb, heq⟩
  · rw [heq]
    exact hno
  · rw [heq]
    exact hnb

theorem hostinfoOf_fst_subset (netloc : List Char) :
    (hostinfoOf netloc).1 ⊆ (rpartitionChar '@' netloc).2.2 := by
  simp only [hostinfoOf]
  by_cases hbr : (partitionChar '[' (rpartitionChar '@' netloc).2.2).2.1 = true
  · rw [if_pos hbr]
    intro x hx
    exact partitionChar_snd_subset '[' _
      (partitionChar_fst_subset ']' _ hx)
  · rw [if_neg hbr]
    intro x hx
    exact partitionChar_fst_subset ':' _ hx

theorem netlocOk_toNat (c : Char) :
    netlocOk c = true
      ↔ (c.toNat ≠ 9 ∧ c.toNat ≠ 13 ∧ c.toNat ≠ 10
          ∧ c.toNat ≠ 47 ∧ c.toNat ≠ 63 ∧ c.toNat ≠ 35) := by
  have h9 : ('\t' : Char).toNat = 9 := by decide
  have h13 : ('\r' : Char).toNat = 13 := by decide
  have h10 : ('\n' : Char).toNat = 10 := by decide
  have h47 : ('/' : Char).toNat = 47 := by decide
  have h63 : ('?' : Char).toNat = 63 := by decide
  have h35 : ('#' : Char).toNat = 35 := by decide
  simp only [netlocOk, urlByteOk, notNetlocDelim, beq_char_toNat,
    h9, h13, h10, h47, h63, h35, Bool.and_eq_true, Bool.not_eq_true',
    Bool.or_eq_false_iff, decide_eq_false_iff_not]
  omega

theorem netlocOk_asciiLower (c : Char) (h : netlocOk c = true) :
    netlocOk (asciiLower c) = true := by
  rw [netlocOk_toNat] at h ⊢
  have ht := asciiLower_toNat c
  by_cases hc : 65 ≤ c.toNat ∧ c.toNat ≤ 90
  · rw [if_pos hc] at ht
    rw [ht]
    omega
  · rw [if_neg hc] at ht
    rw [ht]
    exact h

theorem digitChar_netloc (m : Nat) :
    netlocOk (Nat.digitChar m) = true ∧ ¬ Nat.digitChar m = '@' := by
  rcases m with _|_|_|_|_|_|_|_|_|_|_|_|_|_|_|_|n <;>
    simp [Nat.digitChar] <;> decide

theorem toDigitsCore_netloc (f : Nat) :
    ∀ (n : Nat) (ds : List Char),
      (∀ ch ∈ ds, netlocOk ch = true ∧ ¬ ch = '@') →
      ∀ ch ∈ Nat.toDigitsCore 10 f n ds, netlocOk ch = true ∧ ¬ ch = '@' := by
  induction f with
  | zero =>
      intro n ds hds ch hch
      exact hds ch hch
  | succ f ih =>
      intro n ds hds ch hch
      simp only [Nat.toDigitsCore] at hch
      have hcons : ∀ c ∈ Nat.digitChar (n % 10) :: ds,
          netlocOk c = true ∧ ¬ c = '@' := by
        intro c hc
        rcases List.mem_cons.mp hc with h1 | h1
        · rw [h1]; exact digitChar_netloc _
        · exact hds c h1
      split at hch
      · exact hcons ch hch
      · exact ih (n / 10) (Nat.digitChar (n % 10) :: ds) hcons ch hch

theorem toDigits_netloc (n : Nat) :
    ∀ ch ∈ Nat.toDigits 10 n, netlocOk ch = true ∧ ¬ ch = '@' := by
  intro ch hch
  exact toDigitsCore_netloc (n + 1) n [] (by simp) ch hch

theorem hostnameOf_good (netloc : List Char) (hall : netloc.all netlocOk = true) :
    ∀ hn, hostnameOf netloc = some hn →
      hn.all netlocOk = true ∧ '@' ∉ hn := by
  intro hn h
  have hsub : (hostinfoOf netloc).1 ⊆ netloc :=
    fun x hx => hostinfo_subset netloc (hostinfoOf_fst_subset netloc hx)
  have hhall : (hostinfoOf netloc).1.all netlocOk = true :=
    all_subset netlocOk hsub hall
  have hhat : '@' ∉ (hostinfoOf netloc).1 :=
    fun hm => hostinfo_no_at netloc (hostinfoOf_fst_subset netloc hm)
  simp only [hostnameOf] at h
  by_cases hemp : (hostinfoOf netloc).1.isEmpty = true
  · rw [if_pos hemp] at h
    cases h
  · rw [if_neg hemp] at h
    by_cases hz : (partitionChar '%' (hostinfoOf netloc).1).2.1 = true
    · rw [if_pos hz] at h
      injection h with h2
      rw [← h2]
      constructor
      · rw [List.all_eq_true]
        intro x hx
        rcases List.mem_append.mp hx with h1 | h1
        · obtain ⟨y, hy, hxy⟩ := List.mem_map.mp h1
          rw [← hxy]
          exact netlocOk_asciiLower y
            (List.all_eq_true.mp hhall y (partitionChar_fst_subset '%' _ hy))
        · rcases List.mem_cons.mp h1 with h2 | h2
          · rw [h2]; decide
          · exact List.all_eq_true.mp hhall x (partitionChar_snd_subset '%' _ h2)
      · intro hx
        rcases List.mem_append.mp hx with h1 | h1
        · obtain ⟨y, hy, hxy⟩ := List.mem_map.mp h1
          have hyat : y = '@' := eq_of_asciiLower_eq y '@' (by decide) hxy
          exact hhat (partitionChar_fst_subset '%' _ (hyat ▸ hy))
        · rcases List.mem_cons.mp h1 with h2 | h2
          · exact absurd h2 (by decide)
          · exact hhat (partitionChar_snd_subset '%' _ h2)
    · rw [if_neg hz] at h
      injection h with h2
      rw [← h2]
      constructor
      · rw [List.all_eq_true]
        intro x hx
        obtain ⟨y, hy, hxy⟩ := List.mem_map.mp hx
        rw [← hxy]
        exact netlocOk_asciiLower y (List.all_eq_true.mp hhall y hy)
      · intro hx
        obtain ⟨y, hy, hxy⟩ := List.mem_map.mp hx
        have hyat : y = '@' := eq_of_asciiLower_eq y '@' (by decide) hxy
        exact hhat (hyat ▸ hy)

theorem hostOrEmpty_good (netloc : List Char) (hall : netloc.all netlocOk = true) :
    (hostOrEmpty netloc).all netlocOk = true ∧ '@' ∉ hostOrEmpty netloc := by
  unfold hostOrEmpty
  cases hhn : hostnameOf netloc with
  | none => exact ⟨rfl, by simp⟩
  | some hn => exact hostnameOf_good netloc hall hn hhn

theorem portSuffix_good (host : List Char) (portv : Option Nat)
    (hh : host.all netlocOk = true ∧ '@' ∉ host) :
    (portSuffix host portv).all netlocOk = true ∧ '@' ∉ portSuffix host portv := by
  cases portv with
  | none => exact hh
  | some pv =>
      simp only [portSuffix]
      by_cases hpv : pv ≠ 0
      · rw [if_pos hpv]
        constructor
        · rw [List.all_eq_true]
          intro x hx
          rcases List.mem_append.mp hx with h1 | h1
          · exact List.all_eq_true.mp hh.1 x h1
          · rcases List.mem_cons.mp h1 with h2 | h2
            · rw [h2]; decide
            · exact (toDigits_netloc pv x h2).1
        · intro hx
          rcases List.mem_append.mp hx with h1 | h1
          · exact hh.2 h1
          · rcases List.mem_cons.mp h1 with h2 | h2
            · exact absurd h2 (by decide)
            · exact (toDigits_netloc pv '@' h2).2 rfl
      · rw [if_neg hpv]
        exact hh

theorem safeNetloc_ok_good (netloc netloc2 : List Char)
    (hall : netloc.all netlocOk = true)
    (h : safeNetloc netloc = Except.ok netloc2) :
    netloc2.all netlocOk = true
    ∧ truthyOpt (userinfoOf netloc2).1 = false
    ∧ truthyOpt (userinfoOf netloc2).2 = false := by
  unfold safeNetloc at h
  by_cases hui : (truthyOpt (userinfoOf netloc).1
      || truthyOpt (userinfoOf netloc).2) = true
  · rw [if_pos hui] at h
    cases hport : portOf netloc with
    | error e =>
        simp only [hport] at h
        cases h
    | ok portv =>
        simp only [hport] at h
        injection h with h2
        have hgood := portSuffix_good (hostOrEmpty netloc) portv
          (hostOrEmpty_good netloc hall)
        rw [h2] at hgood
        have huno : userinfoOf netloc2 = (none, none) :=
          userinfoOf_no_at netloc2 hgood.2
        rw [huno]
        exact ⟨hgood.1, rfl, rfl⟩
  · rw [if_neg hui] at h
    injection h with h2
    rw [← h2]
    have hb : (truthyOpt (userinfoOf netloc).1
        || truthyOpt (userinfoOf netloc).2) = false := by
      cases hx : (truthyOpt (userinfoOf netloc).1
          || truthyOpt (userinfoOf netloc).2) with
      | true => exact absurd hx hui
      | false => rfl
    obtain ⟨ha, hbb⟩ := Bool.or_eq_false_iff.mp hb
    exact ⟨hall, ha, hbb⟩

theorem char_valid_ranges (c : Char) :
    c.toNat < 0xD800 ∨ (0xE000 ≤ c.toNat ∧ c.toNat < 0x110000) := by
  rcases c.valid with h | h
  · exact Or.inl h
  · exact Or.inr h

theorem utf8_char_roundtrip (c : Char) (rest : List Nat) :
    utf8Decode (utf8EncodeChar c ++ rest) = c :: utf8Decode rest := by
  have hv := char_valid_ranges c
  have hofn : Char.ofNat c.toNat = c := Char.ofNat_toNat c
  by_cases h1 : c.toNat < 0x80
  · have he : utf8EncodeChar c = [c.toNat] := by
      simp [utf8EncodeChar, h1]
    rw [he]
    simp only [List.cons_append, List.nil_append]
    rw [utf8Decode.eq_2]
    have hl : utf8Look c.toNat rest = (c, 0) := by
      simp [utf8Look, h1, hofn]
    rw [hl]
    simp
  · by_cases h2 : c.toNat < 0x800
    · have he : utf8EncodeChar c = [0xC0 + c.toNat / 64, 0x80 + c.toNat % 64] := by
        simp [utf8EncodeChar, h1, h2]
      rw [he]
      simp only [List.cons_append, List.nil_append]
      rw [utf8Decode.eq_2]
      have hl : utf8Look (0xC0 + c.toNat / 64) ((0x80 + c.toNat % 64) :: rest)
          = (c, 1) := by
        have hc1 : ¬ (0xC0 + c.toNat / 64 < 0x80) := by omega
        have hc2 : (decide (0xC2 ≤ 0xC0 + c.toNat / 64)
            && decide (0xC0 + c.toNat / 64 ≤ 0xDF)) = true := by
          simp only [Bool.and_eq_true, decide_eq_true_eq]
          omega
        have hc3 : isContByte (0x80 + c.toNat % 64) = true := by
          simp only [isContByte, Bool.and_eq_true, decide_eq_true_eq]
          omega
        simp only [utf8Look, hc1, if_neg, if_false, hc2, if_true, hc3]
        have harith : (0xC0 + c.toNat / 64 - 0xC0) * 64
            + (0x80 + c.toNat % 64 - 0x80) = c.toNat := by omega
        rw [harith, hofn]
      rw [hl]
      simp
    · by_cases h3 : c.toNat < 0x10000
      · have he : utf8EncodeChar c = [0xE0 + c.toNat / 4096,
            0x80 + (c.toNat / 64) % 64, 0x80 + c.toNat % 64] := by
          simp [utf8EncodeChar, h1, h2, h3]
        rw [he]
        simp only [List.cons_append, List.nil_append]
        rw [utf8Decode.eq_2]
        have hfc : firstContOk (0xE0 + c.toNat / 4096)
            (0x80 + (c.toNat / 64) % 64) = true := by
          unfold firstContOk
          by_cases hE0 : 0xE0 + c.toNat / 4096 = 0xE0
          · rw [if_pos hE0]
            simp only [Bool.and_eq_true, decide_eq_true_eq]
            omega
          · rw [if_neg hE0]
            by_cases hED : 0xE0 + c.toNat / 4096 = 0xED
            · rw [if_pos hED]
              simp only [Bool.and_eq_true, decide_eq_true_eq]
              omega
            · rw [if_neg hED]
              have hne1 : ¬ (0xE0 + c.toNat / 4096 = 0xF0) := by omega
              have hne2 : ¬ (0xE0 + c.toNat / 4096 = 0xF4) := by omega
              rw [if_neg hne1, if_neg hne2]
              simp only [isContByte, Bool.and_eq_true, decide_eq_true_eq]
              omega
        have hl : utf8Look (0xE0 + c.toNat / 4096)
            ((0x80 + (c.toNat / 64) % 64) :: (0x80 + c.toNat % 64) :: rest)
            = (c, 2) := by
          have hc1 : ¬ (0xE0 + c.toNat / 4096 < 0x80) := by omega
          have hc2 : (decide (0xC2 ≤ 0xE0 + c.toNat / 4096)
              && decide (0xE0 + c.toNat / 4096 ≤ 0xDF)) = false := by
            have hno : ¬ (0xE0 + c.toNat / 4096 ≤ 0xDF) := by omega
            simp [hno]
          have hc3 : (decide (0xE0 ≤ 0xE0 + c.toNat / 4096)
              && decide (0xE0 + c.toNat / 4096 ≤ 0xEF)) = true := by
            simp only [Bool.and_eq_true, decide_eq_true_eq]
            omega
          have hc4 : isContByte (0x80 + c.toNat % 64) = true := by
            simp only [isContByte, Bool.and_eq_true, decide_eq_true_eq]
            omega
          simp only [utf8Look, hc1, if_neg, if_false, hc2, hc3, if_true, hfc, hc4]
          have harith : (0xE0 + c.toNat / 4096 - 0xE0) * 4096
              + (0x80 + (c.toNat / 64) % 64 - 0x80) * 64
              + (0x80 + c.toNat % 64 - 0x80) = c.toNat := by omega
          rw [harith, hofn]
          simp
        rw [hl]
        simp
      · have he : utf8EncodeChar c = [0xF0 + c.toNat / 262144,
            0x80 + (c.toNat / 4096) % 64, 0x80 + (c.toNat / 64) % 64,
            0x80 + c.toNat % 64] := by
          simp [utf8EncodeChar, h1, h2, h3]
        rw [he]
        simp only [List.cons_append, List.nil_append]
        rw [utf8Decode.eq_2]
        have hfc : firstContOk (0xF0 + c.toNat / 262144)
            (0x80 + (c.toNat / 4096) % 64) = true := by
          unfold firstContOk
          have hne1 : ¬ (0xF0 + c.toNat / 262144 = 0xE0) := by omega
          have hne2 : ¬ (0xF0 + c.toNat / 262144 = 0xED) := by omega
          rw [if_neg hne1, if_neg hne2]
          by_cases hF0 : 0xF0 + c.toNat / 262144 = 0xF0
          · rw [if_pos hF0]
            simp only [Bool.and_eq_true, decide_eq_true_eq]
            omega
          · rw [if_neg hF0]
            by_cases hF4 : 0xF0 + c.toNat / 262144 = 0xF4
            · rw [if_pos hF4]
              simp only [Bool.and_eq_true, decide_eq_true_eq]
              omega
            · rw [if_neg hF4]
              simp only [isContByte, Bool.and_eq_true, decide_eq_true_eq]
              omega
        have hl : utf8Look (0xF0 + c.toNat / 262144)
            ((0x80 + (c.toNat / 4096) % 64) :: (0x80 + (c.toNat / 64) % 64)
              :: (0x80 + c.toNat % 64) :: rest)
            = (c, 3) := by
          have hc1 : ¬ (0xF0 + c.toNat / 262144 < 0x80) := by omega
          have hc2 : (decide (0xC2 ≤ 0xF0 + c.toNat / 262144)
              && decide (0xF0 + c.toNat / 262144 ≤ 0xDF)) = false := by
            have hno : ¬ (0xF0 + c.toNat / 262144 ≤ 0xDF) := by omega
            simp [hno]
          have hc3 : (decide (0xE0 ≤ 0xF0 + c.toNat / 262144)
              && decide (0xF0 + c.toNat / 262144 ≤ 0xEF)) = false := by
            have hno : ¬ (0xF0 + c.toNat / 262144 ≤ 0xEF) := by omega
            simp [hno]
          have hc4 : (decide (0xF0 ≤ 0xF0 + c.toNat / 262144)
              && decide (0xF0 + c.toNat / 262144 ≤ 0xF4)) = true := by
            simp only [Bool.and_eq_true, decide_eq_true_eq]
            omega
          have hc5 : isContByte (0x80 + (c.toNat / 64) % 64) = true := by
            simp only [isContByte, Bool.and_eq_true, decide_eq_true_eq]
            omega
          have hc6 : isContByte (0x80 + c.toNat % 64) = true := by
            simp only [isContByte, Bool.and_eq_true, decide_eq_true_eq]
            omega
          simp only [utf8Look, hc1, if_neg, if_false, hc2, hc3, hc4, if_true,
            hfc, hc5, hc6]
          have harith : (0xF0 + c.toNat / 262144 - 0xF0) * 262144
              + (0x80 + (c.toNat / 4096) % 64 - 0x80) * 4096
              + (0x80 + (c.toNat / 64) % 64 - 0x80) * 64
              + (0x80 + c.toNat % 64 - 0x80) = c.toNat := by omega
          rw [harith, hofn]
          simp
        rw [hl]
        simp

theorem utf8_roundtrip (s : List Char) : utf8Decode (utf8Encode s) = s := by
  induction s with
  | nil => rw [show utf8Encode [] = [] from rfl, utf8Decode.eq_1]
  | cons c t ih =>
      have he : utf8Encode (c :: t) = utf8EncodeChar c ++ utf8Encode t := by
        simp [utf8Encode]
      rw [he, utf8_char_roundtrip c (utf8Encode t), ih]

theorem utf8Encode_lt (s : List Char) : ∀ b ∈ utf8Encode s, b < 256 := by
  intro b hb
  obtain ⟨bs, hbs, hmem⟩ := List.mem_flatten.mp hb
  obtain ⟨c, _, hc⟩ := List.mem_map.mp hbs
  have hv := char_valid_ranges c
  rw [← hc] at hmem
  unfold utf8EncodeChar at hmem
  by_cases h1 : c.toNat < 0x80
  · rw [if_pos h1] at hmem
    rcases List.mem_singleton.mp (by simpa [h1] using hmem) with h
    omega
  · by_cases h2 : c.toNat < 0x800
    · simp only [h1, if_false, h2, if_true, List.mem_cons,
        List.mem_singleton] at hmem
      rcases hmem with h | h | h
      · omega
      · omega
      · cases h
    · by_cases h3 : c.toNat < 0x10000
      · simp only [h1, if_false, h2, h3, if_true, List.mem_cons,
          List.mem_singleton] at hmem
        rcases hmem with h | h | h | h
        · omega
        · omega
        · omega
        · cases h
      · simp only [h1, if_false, h2, h3, List.mem_cons,
          List.mem_singleton] at hmem
        rcases hmem with h | h | h | h | h
        · omega
        · omega
        · omega
        · omega
        · cases h

theorem isSafeByte_iff (b : Nat) :
    isSafeByte b = true
      ↔ ((97 ≤ b ∧ b ≤ 122) ∨ (65 ≤ b ∧ b ≤ 90) ∨ (48 ≤ b ∧ b ≤ 57)
          ∨ b = 95 ∨ b = 46 ∨ b = 45 ∨ b = 126) := by
  simp only [isSafeByte, Bool.or_eq_true, Bool.and_eq_true, decide_eq_true_eq,
    beq_iff_eq]
  tauto

theorem hexUpper_toNat (n : Nat) (h : n < 16) :
    (hexUpper n).toNat = if n < 10 then 48 + n else 55 + n := by
  unfold hexUpper
  by_cases h10 : n < 10
  · rw [if_pos h10, if_pos h10]
    exact toNat_ofNat_valid _ (Or.inl (by omega))
  · rw [if_neg h10, if_neg h10]
    exact toNat_ofNat_valid _ (Or.inl (by omega))

theorem hexVal_hexUpper (n : Nat) (h : n < 16) : hexVal (hexUpper n) = some n := by
  have ht := hexUpper_toNat n h
  unfold hexVal
  by_cases h10 : n < 10
  · rw [if_pos h10] at ht
    rw [ht]
    rw [if_pos (by simp only [Bool.and_eq_true, decide_eq_true_eq]; omega)]
    congr 1
    omega
  · rw [if_neg h10] at ht
    rw [ht]
    rw [if_neg (by simp only [Bool.and_eq_true, decide_eq_true_eq]; omega)]
    rw [if_neg (by simp only [Bool.and_eq_true, decide_eq_true_eq]; omega)]
    rw [if_pos (by simp only [Bool.and_eq_true, decide_eq_true_eq]; omega)]
    congr 1
    omega

theorem unquoteBytes_cons_ne (c : Char) (rest : List Char) (h : ¬ c = '%') :
    unquoteBytes (c :: rest) = c.toNat :: unquoteBytes rest := by
  match rest with
  | [] => simp [unquoteBytes, h]
  | [a] => simp [unquoteBytes, h]
  | a :: b :: t => simp [unquoteBytes, h]

theorem unquoteBytes_pct (a b : Char) (rest : List Char) (x y : Nat)
    (ha : hexVal a = some x) (hb : hexVal b = some y) :
    unquoteBytes ('%' :: a :: b :: rest) = (16 * x + y) :: unquoteBytes rest := by
  simp [unquoteBytes, ha, hb]

theorem char_ne_of_toNat_ne (c d : Char) (h : c.toNat ≠ d.toNat) : ¬ c = d :=
  fun he => h ((char_eq_iff_toNat c d).mp he)

theorem replacePlus_cons (c : Char) (l : List Char) :
    replacePlus (c :: l) = (if c == '+' then ' ' else c) :: replacePlus l := rfl

theorem unquoteBytes_chunk (b : Nat) (hb : b < 256) (rest : List Char) :
    unquoteBytes (replacePlus (quotePlusByte b) ++ rest)
      = b :: unquoteBytes rest := by
  unfold quotePlusByte
  by_cases hs : isSafeByte b = true
  · rw [if_pos hs]
    have hsr := (isSafeByte_iff b).mp hs
    have ht : (Char.ofNat b).toNat = b := toNat_ofNat_valid _ (Or.inl (by omega))
    have hne43 : (Char.ofNat b == '+') = false := by
      rw [beq_char_toNat, ht, show ('+' : Char).toNat = 43 from by decide]
      simp only [decide_eq_false_iff_not]
      omega
    rw [replacePlus_cons, hne43]
    simp only [if_false, Bool.false_eq_true]
    show unquoteBytes (Char.ofNat b :: ([] ++ rest)) = b :: unquoteBytes rest
    rw [List.nil_append]
    rw [unquoteBytes_cons_ne _ _ (char_ne_of_toNat_ne _ _
      (by rw [ht, show ('%' : Char).toNat = 37 from by decide]; omega))]
    rw [ht]
  · rw [if_neg hs]
    by_cases h32 : (b == 32) = true
    · rw [if_pos h32]
      have hb32 : b = 32 := beq_iff_eq.mp h32
      rw [show replacePlus ['+'] = [' '] from by decide]
      simp only [List.cons_append, List.nil_append]
      rw [unquoteBytes_cons_ne ' ' _ (by decide), hb32]
      rfl
    · rw [if_neg h32]
      have hrp : replacePlus ['%', hexUpper (b / 16), hexUpper (b % 16)]
          = ['%', hexUpper (b / 16), hexUpper (b % 16)] := by
        have hd16 : b / 16 < 16 := by omega
        have hm16 : b % 16 < 16 := by omega
        have e1 : (('%' : Char) == '+') = false := by decide
        have e2 : (hexUpper (b / 16) == '+') = false := by
          rw [beq_char_toNat, hexUpper_toNat _ hd16,
            show ('+' : Char).toNat = 43 from by decide]
          simp only [decide_eq_false_iff_not]
          split <;> omega
        have e3 : (hexUpper (b % 16) == '+') = false := by
          rw [beq_char_toNat, hexUpper_toNat _ hm16,
            show ('+' : Char).toNat = 43 from by decide]
          simp only [decide_eq_false_iff_not]
          split <;> omega
        rw [replacePlus_cons, replacePlus_cons, replacePlus_cons, e1, e2, e3]
        rfl
      rw [hrp]
      simp only [List.cons_append, List.nil_append]
      rw [unquoteBytes_pct _ _ _ (b / 16) (b % 16)
        (hexVal_hexUpper _ (by omega)) (hexVal_hexUpper _ (by omega))]
      congr 1
      omega

theorem unquoteBytes_enc : ∀ (bs : List Nat), (∀ b ∈ bs, b < 256) →
    unquoteBytes ((bs.map (fun b => replacePlus (quotePlusByte b))).flatten)
      = bs := by
  intro bs
  induction bs with
  | nil => intro _; rfl
  | cons b t ih =>
      intro h
      simp only [List.map_cons, List.flatten_cons]
      rw [unquoteBytes_chunk b (h b (List.mem_cons_self b t)) _]
      rw [ih (fun x hx => h x (List.mem_cons_of_mem _ hx))]

theorem qpOk_toNat (c : Char) :
    qpOk c = true
      ↔ (c.toNat ≠ 9 ∧ c.toNat ≠ 13 ∧ c.toNat ≠ 10 ∧ c.toNat ≠ 35
          ∧ c.toNat ≠ 63 ∧ c.toNat ≠ 58 ∧ c.toNat ≠ 38 ∧ c.toNat ≠ 61) := by
  have h9 : ('\t' : Char).toNat = 9 := by decide
  have h13 : ('\r' : Char).toNat = 13 := by decide
  have h10 : ('\n' : Char).toNat = 10 := by decide
  have h35 : ('#' : Char).toNat = 35 := by decide
  have h63 : ('?' : Char).toNat = 63 := by decide
  have h58 : (':' : Char).toNat = 58 := by decide
  have h38 : ('&' : Char).toNat = 38 := by decide
  have h61 : ('=' : Char).toNat = 61 := by decide
  simp only [qpOk, urlByteOk, beq_char_toNat, h9, h13, h10, h35, h63, h58,
    h38, h61, Bool.and_eq_true, Bool.not_eq_true', Bool.or_eq_false_iff,
    decide_eq_false_iff_not]
  omega

theorem queryOk_toNat (c : Char) :
    queryOk c = true
      ↔ (c.toNat ≠ 9 ∧ c.toNat ≠ 13 ∧ c.toNat ≠ 10 ∧ c.toNat ≠ 35
          ∧ c.toNat ≠ 63 ∧ c.toNat ≠ 58) := by
  have h9 : ('\t' : Char).toNat = 9 := by decide
  have h13 : ('\r' : Char).toNat = 13 := by decide
  have h10 : ('\n' : Char).toNat = 10 := by decide
  have h35 : ('#' : Char).toNat = 35 := by decide
  have h63 : ('?' : Char).toNat = 63 := by decide
  have h58 : (':' : Char).toNat = 58 := by decide
  simp only [queryOk, urlByteOk, beq_char_toNat, h9, h13, h10, h35, h63, h58,
    Bool.and_eq_true, Bool.not_eq_true', Bool.or_eq_false_iff,
    decide_eq_false_iff_not]
  omega

theorem quotePlusByte_chars (b : Nat) (hb : b < 256) :
    ∀ ch ∈ quotePlusByte b, isAsciiChar ch = true ∧ qpOk ch = true := by
  intro ch hch
  unfold quotePlusByte at hch
  by_cases hs : isSafeByte b = true
  · rw [if_pos hs] at hch
    have hsr := (isSafeByte_iff b).mp hs
    have ht : (Char.ofNat b).toNat = b := toNat_ofNat_valid _ (Or.inl (by omega))
    rcases List.mem_singleton.mp hch with h
    rw [h]
    constructor
    · unfold isAsciiChar
      rw [ht]
      simp only [decide_eq_true_eq]
      omega
    · rw [qpOk_toNat, ht]
      omega
  · rw [if_neg hs] at hch
    by_cases h32 : (b == 32) = true
    · rw [if_pos h32] at hch
      rcases List.mem_singleton.mp hch with h
      rw [h]
      exact ⟨by decide, by decide⟩
    · rw [if_neg h32] at hch
      have hd16 : b / 16 < 16 := by omega
      have hm16 : b % 16 < 16 := by omega
      rcases List.mem_cons.mp hch with h | h
      · rw [h]
        exact ⟨by decide, by decide⟩
      · rcases List.mem_cons.mp h with h2 | h2
        · rw [h2]
          constructor
          · unfold isAsciiChar
            rw [hexUpper_toNat _ hd16]
            simp only [decide_eq_true_eq]
            split <;> omega
          · rw [qpOk_toNat, hexUpper_toNat _ hd16]
            split <;> omega
        · rcases List.mem_singleton.mp (by simpa using h2) with h3
          rw [h3]
          constructor
          · unfold isAsciiChar
            rw [hexUpper_toNat _ hm16]
            simp only [decide_eq_true_eq]
            split <;> omega
          · rw [qpOk_toNat, hexUpper_toNat _ hm16]
            split <;> omega

theorem quote_plus_chars (s : List Char) :
    ∀ ch ∈ quote_plus s, isAsciiChar ch = true ∧ qpOk ch = true := by
  intro ch hch
  unfold quote_plus at hch
  obtain ⟨bs, hbs, hmem⟩ := List.mem_flatten.mp hch
  obtain ⟨b, hbmem, hbeq⟩ := List.mem_map.mp hbs
  rw [← hbeq] at hmem
  exact quotePlusByte_chars b (utf8Encode_lt s b hbmem) ch hmem

theorem replacePlus_chars (P : Char → Prop) (l : List Char) (hsp : P ' ')
    (hl : ∀ c ∈ l, P c) : ∀ c ∈ replacePlus l, P c := by
  intro c hc
  unfold replacePlus at hc
  obtain ⟨y, hy, hyc⟩ := List.mem_map.mp hc
  by_cases hp : (y == '+') = true
  · rw [hp] at hyc
    simp only [if_true] at hyc
    rw [← hyc]
    exact hsp
  · rw [Bool.not_eq_true] at hp
    rw [hp] at hyc
    simp only [Bool.false_eq_true, if_false] at hyc
    rw [← hyc]
    exact hl y hy

theorem rp_quote_plus_chars (s : List Char) :
    ∀ ch ∈ replacePlus (quote_plus s), isAsciiChar ch = true ∧ qpOk ch = true :=
  replacePlus_chars _ (quote_plus s) ⟨by decide, by decide⟩ (quote_plus_chars s)

theorem quote_plus_eq_chunks (s : List Char) :
    replacePlus (quote_plus s)
      = ((utf8Encode s).map (fun b => replacePlus (quotePlusByte b))).flatten := by
  unfold quote_plus replacePlus
  rw [List.map_flatten, List.map_map]
  rfl

theorem utf8Decode_unquoteBytes_id :
    ∀ (e : List Char), e.all isAsciiChar = true →
      e.all (fun c => !(c == '%')) = true →
      utf8Decode (unquoteBytes e) = e := by
  intro e
  induction e with
  | nil =>
      intro _ _
      rw [show unquoteBytes [] = [] from rfl, utf8Decode.eq_1]
  | cons c t ih =>
      intro ha hp
      simp only [List.all_cons, Bool.and_eq_true] at ha hp
      have hcp : ¬ c = '%' := by
        intro he
        have h1 := hp.1
        rw [he] at h1
        simp at h1
      rw [unquoteBytes_cons_ne c t hcp, utf8Decode.eq_2]
      have hl : utf8Look c.toNat (unquoteBytes t) = (c, 0) := by
        have hlt : c.toNat < 0x80 := by
          have h2 := ha.1
          unfold isAsciiChar at h2
          simpa using h2
        simp [utf8Look, hlt, Char.ofNat_toNat]
      rw [hl]
      simp only [List.drop_zero]
      rw [ih ha.2 hp.2]

theorem unquoteRuns_ascii (e : List Char) (h : e.all isAsciiChar = true) :
    unquoteRuns e = utf8Decode (unquoteBytes e) := by
  cases e with
  | nil =>
      rw [unquoteRuns.eq_1, show unquoteBytes [] = [] from rfl, utf8Decode.eq_1]
  | cons c t =>
      simp only [List.all_cons, Bool.and_eq_true] at h
      rw [unquoteRuns.eq_2, if_pos h.1]
      have htw : t.takeWhile isAsciiChar = t :=
        List.takeWhile_eq_self_iff.mpr (fun a ha => List.all_eq_true.mp h.2 a ha)
      have hdw : t.dropWhile isAsciiChar = [] :=
        List.dropWhile_eq_nil_iff.mpr (fun a ha => List.all_eq_true.mp h.2 a ha)
      rw [htw, hdw, unquoteRuns.eq_1, List.append_nil]

theorem pyUnquote_ascii (e : List Char) (h : e.all isAsciiChar = true) :
    pyUnquote e = utf8Decode (unquoteBytes e) := by
  unfold pyUnquote
  by_cases hp : e.all (fun c => !(c == '%')) = true
  · rw [if_pos hp, utf8Decode_unquoteBytes_id e h hp]
  · rw [if_neg hp, unquoteRuns_ascii e h]

theorem pyUnquote_quote_plus (k : List Char) :
    pyUnquote (replacePlus (quote_plus k)) = k := by
  have hascii : (replacePlus (quote_plus k)).all isAsciiChar = true := by
    rw [List.all_eq_true]
    intro x hx
    exact (rp_quote_plus_chars k x hx).1
  have hb : unquoteBytes (replacePlus (quote_plus k)) = utf8Encode k := by
    rw [quote_plus_eq_chunks]
    exact unquoteBytes_enc (utf8Encode k) (utf8Encode_lt k)
  rw [pyUnquote_ascii _ hascii, hb, utf8_roundtrip]

theorem splitAllAux_chunk (c : Char) :
    ∀ (chunk rest acc : List Char), c ∉ chunk →
      splitAllAux c (chunk ++ rest) acc
        = splitAllAux c rest (chunk.reverse ++ acc) := by
  intro chunk
  induction chunk with
  | nil =>
      intro rest acc _
      simp
  | cons x t ih =>
      intro rest acc h
      have hxne : ¬ (x == c) = true := by
        intro hb
        exact h (by simp [beq_iff_eq.mp hb])
      rw [List.cons_append]
      simp only [splitAllAux]
      rw [if_neg hxne, ih rest (x :: acc) (fun hm => h (List.mem_cons_of_mem _ hm))]
      congr 1
      simp

theorem splitAllAux_hit (c : Char) (rest acc : List Char) :
    splitAllAux c (c :: rest) acc = acc.reverse :: splitAllAux c rest [] := by
  simp [splitAllAux]

theorem intercalate_cons2 (s a b : List Char) (t : List (List Char)) :
    List.intercalate s (a :: b :: t) = a ++ s ++ List.intercalate s (b :: t) := by
  simp [List.intercalate, List.intersperse]

theorem intercalate_single (s a : List Char) : List.intercalate s [a] = a := by
  simp [List.intercalate, List.intersperse]

theorem splitAllChar_intercalate (c : Char) :
    ∀ (chs : List (List Char)) (ch : List Char), c ∉ ch → (∀ x ∈ chs, c ∉ x) →
      splitAllChar c (List.intercalate [c] (ch :: chs)) = ch :: chs := by
  intro chs
  induction chs with
  | nil =>
      intro ch hch _
      rw [intercalate_single]
      unfold splitAllChar
      have h1 := splitAllAux_chunk c ch [] [] hch
      rw [List.append_nil] at h1
      rw [h1]
      simp [splitAllAux]
  | cons ch2 t ih =>
      intro ch hch hall
      rw [intercalate_cons2]
      unfold splitAllChar
      rw [List.append_assoc, splitAllAux_chunk c ch _ [] hch]
      rw [show ([c] ++ List.intercalate [c] (ch2 :: t))
          = c :: List.intercalate [c] (ch2 :: t) from rfl]
      rw [splitAllAux_hit]
      rw [List.append_nil, List.reverse_reverse]
      have ih2 := ih ch2 (hall ch2 (List.mem_cons_self ch2 t))
        (fun x hx => hall x (List.mem_cons_of_mem _ hx))
      unfold splitAllChar at ih2
      rw [ih2]

theorem qpOk_queryOk (c : Char) (h : qpOk c = true) : queryOk c = true := by
  rw [qpOk_toNat] at h
  rw [queryOk_toNat]
  omega

theorem encPair_chars (kv : List Char × List Char) :
    ∀ ch ∈ encPair kv, queryOk ch = true ∧ ¬ ch = '&' ∧ isAsciiChar ch = true := by
  intro ch hch
  unfold encPair at hch
  have hqp : ∀ x ∈ quote_plus kv.1 ++ quote_plus kv.2,
      queryOk x = true ∧ ¬ x = '&' ∧ isAsciiChar x = true := by
    intro x hx
    have hq : isAsciiChar x = true ∧ qpOk x = true := by
      rcases List.mem_append.mp hx with h1 | h1
      · exact quote_plus_chars kv.1 x h1
      · exact quote_plus_chars kv.2 x h1
    refine ⟨qpOk_queryOk x hq.2, ?_, hq.1⟩
    intro he
    have h38 := (qpOk_toNat x).mp hq.2
    rw [he] at h38
    exact h38.2.2.2.2.2.2.1 (by decide)
  rcases List.mem_append.mp hch with h1 | h1
  · exact hqp ch (List.mem_append_left _ h1)
  · rcases List.mem_cons.mp h1 with h2 | h2
    · rw [h2]
      exact ⟨by decide, by decide, by decide⟩
    · exact hqp ch (List.mem_append_right _ h2)

theorem encPair_ne_nil (kv : List Char × List Char) : ¬ encPair kv = [] := by
  unfold encPair
  intro h
  rcases List.append_eq_nil.mp h with ⟨_, h2⟩
  cases h2

theorem qslPair_encPair (kv : List Char × List Char) :
    qslPair (encPair kv) = some kv := by
  unfold qslPair
  have hne : ¬ (encPair kv).isEmpty = true := by
    rw [List.isEmpty_iff]
    exact encPair_ne_nil kv
  rw [if_neg hne]
  have heq : ∀ hm : '=' ∈ quote_plus kv.1, False := by
    intro hm
    have h61 := (qpOk_toNat '=').mp (quote_plus_chars kv.1 '=' hm).2
    exact h61.2.2.2.2.2.2.2 (by decide)
  have hbr : breakAtChar '=' (encPair kv)
      = some (quote_plus kv.1, quote_plus kv.2) :=
    breakAtChar_append '=' _ _ (fun hm => heq hm)
  unfold encPair at hbr ⊢
  rw [hbr]
  show some (pyUnquote (replacePlus (quote_plus kv.1)),
      pyUnquote (replacePlus (quote_plus kv.2))) = some kv
  rw [pyUnquote_quote_plus, pyUnquote_quote_plus]

theorem filterMap_enc : ∀ (L : List (List Char × List Char)),
    ((L.map encPair).filterMap qslPair) = L := by
  intro L
  induction L with
  | nil => rfl
  | cons kv t ih =>
      simp only [List.map_cons, List.filterMap_cons, qslPair_encPair]
      rw [ih]

theorem intercalate_ne_nil (s : List Char) (ch : List Char)
    (chs : List (List Char)) (h : ¬ ch = []) :
    ¬ List.intercalate s (ch :: chs) = [] := by
  cases chs with
  | nil =>
      rw [intercalate_single]
      exact h
  | cons b t =>
      rw [intercalate_cons2]
      intro habs
      rw [List.append_assoc] at habs
      rcases List.append_eq_nil.mp habs with ⟨h1, _⟩
      exact h h1

theorem parse_qsl_urlencode (R : List (List Char × List Char)) :
    parse_qsl (urlencode R) = R := by
  cases R with
  | nil => rfl
  | cons kv t =>
      unfold urlencode parse_qsl
      simp only [List.map_cons]
      have hne : ¬ (List.intercalate ['&'] (encPair kv :: t.map encPair)).isEmpty
          = true := by
        rw [List.isEmpty_iff]
        exact intercalate_ne_nil ['&'] _ _ (encPair_ne_nil kv)
      rw [if_neg hne]
      have hsp := splitAllChar_intercalate '&' (t.map encPair) (encPair kv)
        (fun hm => (encPair_chars kv '&' hm).2.1 rfl)
        (by
          intro x hx hm
          obtain ⟨kv2, _, hkv2⟩ := List.mem_map.mp hx
          rw [← hkv2] at hm
          exact (encPair_chars kv2 '&' hm).2.1 rfl)
      rw [hsp]
      rw [show encPair kv :: t.map encPair = ((kv :: t).map encPair) from rfl]
      exact filterMap_enc (kv :: t)

theorem redactPairs_idem (L : List (List Char × List Char)) :
    redactPairs (redactPairs L) = redactPairs L := by
  unfold redactPairs
  rw [List.map_map]
  apply List.map_congr_left
  intro kv _
  simp only [Function.comp_apply]
  by_cases hs : isSensitiveKey kv.1 = true
  · simp [hs]
  · simp [hs]

theorem redactPairs_sensitive (L : List (List Char × List Char)) :
    ∀ kv ∈ redactPairs L, isSensitiveKey kv.1 = true
      → kv.2 = "REDACTED".data := by
  intro kv hkv hs
  unfold redactPairs at hkv
  obtain ⟨kv0, _, heq⟩ := List.mem_map.mp hkv
  by_cases hs0 : isSensitiveKey kv0.1 = true
  · rw [if_pos hs0] at heq
    rw [← heq]
  · rw [if_neg hs0] at heq
    rw [← heq] at hs
    exact absurd hs hs0

theorem mem_intercalate (s : List Char) :
    ∀ (chs : List (List Char)) (x : Char), x ∈ List.intercalate s chs →
      x ∈ s ∨ ∃ ch ∈ chs, x ∈ ch := by
  intro chs
  induction chs with
  | nil =>
      intro x hx
      simp [List.intercalate, List.intersperse] at hx
  | cons ch t ih =>
      intro x hx
      cases t with
      | nil =>
          rw [intercalate_single] at hx
          exact Or.inr ⟨ch, List.mem_cons_self ch [], hx⟩
      | cons b t2 =>
          rw [intercalate_cons2] at hx
          rcases List.mem_append.mp hx with h1 | h1
          · rcases List.mem_append.mp h1 with h2 | h2
            · exact Or.inr ⟨ch, List.mem_cons_self ch _, h2⟩
            · exact Or.inl h2
          · rcases ih x h1 with h2 | ⟨ch2, hch2, hm⟩
            · exact Or.inl h2
            · exact Or.inr ⟨ch2, List.mem_cons_of_mem _ hch2, hm⟩

theorem urlencode_chars (R : List (List Char × List Char)) :
    ∀ ch ∈ urlencode R, queryOk ch = true := by
  intro ch hch
  unfold urlencode at hch
  rcases mem_intercalate ['&'] _ ch hch with h1 | ⟨ch2, hch2, hm⟩
  · rcases List.mem_singleton.mp h1 with h
    rw [h]
    decide
  · obtain ⟨kv, _, hkv⟩ := List.mem_map.mp hch2
    rw [← hkv] at hm
    exact (encPair_chars kv ch hm).1

theorem urlsplit_build (nfkc : List Char → Bool) (v s2 n2 rest m : List Char)
    (hrm : removeUnsafe v = v)
    (hss : schemeSplit v = (s2, rest))
    (hsp : splitPoint rest = (n2, m))
    (hbm : bracketMismatch n2 = false)
    (hcn : checknetloc nfkc n2 = true) :
    urlsplit nfkc v = Except.ok ⟨s2, n2, (querySplit (fragSplit m).1).1,
      (querySplit (fragSplit m).1).2, (fragSplit m).2⟩ := by
  simp only [urlsplit, hrm, hss, hsp, hbm, hcn]
  simp

theorem urlsplit_build_err (nfkc : List Char → Bool) (v s2 n2 rest m : List Char)
    (hrm : removeUnsafe v = v)
    (hss : schemeSplit v = (s2, rest))
    (hsp : splitPoint rest = (n2, m))
    (herr : bracketMismatch n2 = true ∨ checknetloc nfkc n2 = false) :
    urlsplit nfkc v = Except.error () := by
  rcases herr with hbm | hcn
  · simp only [urlsplit, hrm, hss, hsp, hbm]
    simp
  · by_cases hbm : bracketMismatch n2 = true
    · simp only [urlsplit, hrm, hss, hsp, hbm]
      simp
    · rw [Bool.not_eq_true] at hbm
      simp only [urlsplit, hrm, hss, hsp, hbm, hcn]
      simp

theorem safeTransform_ok_elim (parts parts2 : SplitResult)
    (h : safeTransform parts = Except.ok parts2) :
    ∃ netloc2, safeNetloc parts.netloc = Except.ok netloc2
      ∧ parts2 = ⟨parts.scheme, netloc2, parts.path,
          urlencode (redactPairs (parse_qsl parts.query)), parts.fragment⟩ := by
  unfold safeTransform at h
  cases hn : safeNetloc parts.netloc with
  | error e =>
      simp only [hn] at h
      cases h
  | ok netloc2 =>
      simp only [hn] at h
      injection h with h2
      exact ⟨netloc2, rfl, h2.symm⟩

theorem safeTransform_stable (parts2 : SplitResult)
    (hui1 : truthyOpt (userinfoOf parts2.netloc).1 = false)
    (hui2 : truthyOpt (userinfoOf parts2.netloc).2 = false)
    (hq : urlencode (redactPairs (parse_qsl parts2.query)) = parts2.query) :
    safeTransform parts2 = Except.ok parts2 := by
  unfold safeTransform safeNetloc
  rw [hui1, hui2]
  simp only [Bool.or_self, Bool.false_eq_true, if_false, hq]

theorem urlunsplit_decompose (r : SplitResult) :
    urlunsplit r
      = if !r.scheme.isEmpty then
          r.scheme ++ ':' :: (urlBase r ++ qfSuffix r.query r.fragment)
        else urlBase r ++ qfSuffix r.query r.fragment := by
  unfold urlunsplit qfSuffix
  by_cases hs : (!r.scheme.isEmpty) = true
  · rw [hs]
    simp only [if_true]
    by_cases hq : (!r.query.isEmpty) = true
    · rw [hq]
      simp only [if_true]
      by_cases hf : (!r.fragment.isEmpty) = true
      · rw [hf]
        simp
      · rw [Bool.not_eq_true] at hf
        rw [hf]
        simp
    · rw [Bool.not_eq_true] at hq
      rw [hq]
      simp only [Bool.false_eq_true, if_false]
      by_cases hf : (!r.fragment.isEmpty) = true
      · rw [hf]
        simp
      · rw [Bool.not_eq_true] at hf
        rw [hf]
        simp
  · rw [Bool.not_eq_true] at hs
    rw [hs]
    simp only [Bool.false_eq_true, if_false]
    by_cases hq : (!r.query.isEmpty) = true
    · rw [hq]
      simp only [if_true]
      by_cases hf : (!r.fragment.isEmpty) = true
      · rw [hf]
        simp
      · rw [Bool.not_eq_true] at hf
        rw [hf]
        simp
    · rw [Bool.not_eq_true] at hq
      rw [hq]
      simp only [Bool.false_eq_true, if_false]
      by_cases hf : (!r.fragment.isEmpty) = true
      · rw [hf]
        simp
      · rw [Bool.not_eq_true] at hf
        rw [hf]
        simp

theorem slashAdjust_shape (p : List Char) :
    (slashAdjust p = p ∧ (p = [] ∨ ∃ t, p = '/' :: t))
    ∨ (slashAdjust p = '/' :: p ∧ ¬ p.take 1 = ['/']) := by
  unfold slashAdjust
  by_cases he : (!p.isEmpty && decide (p.take 1 ≠ ['/'])) = true
  · rw [if_pos he]
    right
    refine ⟨rfl, ?_⟩
    rw [Bool.and_eq_true] at he
    exact of_decide_eq_true he.2
  · rw [if_neg he]
    left
    refine ⟨rfl, ?_⟩
    by_cases hemp : p.isEmpty = true
    · exact Or.inl (List.isEmpty_iff.mp hemp)
    · right
      have hne : (!p.isEmpty) = true := by
        cases hb : p.isEmpty with
        | false => rfl
        | true => exact absurd hb hemp
      have hd : decide (p.take 1 ≠ ['/']) = false := by
        cases hdd : decide (p.take 1 ≠ ['/']) with
        | false => rfl
        | true => exact absurd (by rw [hne, hdd]; rfl) he
      have ht : p.take 1 = ['/'] := not_not.mp (of_decide_eq_false hd)
      cases hc : p with
      | nil => rw [hc] at ht; cases ht
      | cons x t =>
          rw [hc] at ht
          simp only [List.take, List.cons.injEq] at ht
          exact ⟨t, by rw [ht.1]⟩

theorem slashAdjust_slash (w : List Char) (h : w = [] ∨ ∃ t, w = '/' :: t) :
    slashAdjust w = w := by
  unfold slashAdjust
  rcases h with h | ⟨t, h⟩
  · rw [h]
    rfl
  · rw [h]
    have : (decide (('/' :: t).take 1 ≠ ['/'])) = false := by
      simp [List.take]
    rw [this, Bool.and_false]
    rfl

theorem slashAdjust_if_shape (p : List Char) :
    slashAdjust p = [] ∨ ∃ t, slashAdjust p = '/' :: t := by
  rcases slashAdjust_shape p with ⟨heq, hsh⟩ | ⟨heq, _⟩
  · rcases hsh with h | ⟨t, h⟩
    · rw [heq, h]
      exact Or.inl rfl
    · rw [heq, h]
      exact Or.inr ⟨t, rfl⟩
  · rw [heq]
    exact Or.inr ⟨p, rfl⟩

theorem slashAdjust_mem (p : List Char) :
    ∀ x ∈ slashAdjust p, x = '/' ∨ x ∈ p := by
  intro x hx
  rcases slashAdjust_shape p with ⟨heq, _⟩ | ⟨heq, _⟩
  · rw [heq] at hx
    exact Or.inr hx
  · rw [heq] at hx
    rcases List.mem_cons.mp hx with h | h
    · exact Or.inl h
    · exact Or.inr h

theorem slashAdjust_all_pathOk (p : List Char) (h : p.all pathOk = true) :
    (slashAdjust p).all pathOk = true := by
  rw [List.all_eq_true]
  intro x hx
  rcases slashAdjust_mem p x hx with h1 | h1
  · rw [h1]
    decide
  · exact List.all_eq_true.mp h x h1

theorem slashAdjust_take2 (p : List Char) (hp : ¬ p.take 2 = ['/', '/']) :
    ¬ (slashAdjust p).take 2 = ['/', '/'] := by
  rcases slashAdjust_shape p with ⟨heq, _⟩ | ⟨heq, hone⟩
  · rw [heq]
    exact hp
  · rw [heq]
    intro habs
    cases hc : p with
    | nil => rw [hc] at habs; simp at habs
    | cons x t =>
        rw [hc] at habs
        simp only [List.take, List.cons.injEq] at habs
        apply hone
        rw [hc, habs.2.1]
        rfl

theorem pathOk_elim (c : Char) (h : pathOk c = true) :
    urlByteOk c = true ∧ ¬ c = '#' ∧ ¬ c = '?' := by
  unfold pathOk at h
  rw [Bool.and_eq_true] at h
  obtain ⟨h1, h2⟩ := h
  rw [Bool.not_eq_true'] at h2
  rcases Bool.or_eq_false_iff.mp h2 with ⟨h3, h4⟩
  exact ⟨h1, by simpa using h3, by simpa using h4⟩

theorem queryOk_elim (c : Char) (h : queryOk c = true) :
    urlByteOk c = true ∧ ¬ c = '#' ∧ ¬ c = '?' ∧ ¬ c = ':' := by
  rw [queryOk_toNat] at h
  refine ⟨?_, ?_, ?_, ?_⟩
  · unfold urlByteOk
    rw [Bool.not_eq_true', Bool.or_eq_false_iff, Bool.or_eq_false_iff]
    refine ⟨⟨?_, ?_⟩, ?_⟩ <;>
      (rw [beq_char_toNat]
       simp only [decide_eq_false_iff_not]
       intro habs
       revert habs)
    · rw [show ('\t' : Char).toNat = 9 from by decide]; omega
    · rw [show ('\r' : Char).toNat = 13 from by decide]; omega
    · rw [show ('\n' : Char).toNat = 10 from by decide]; omega
  · intro habs; rw [habs] at h; revert h; decide
  · intro habs; rw [habs] at h; revert h; decide
  · intro habs; rw [habs] at h; revert h; decide

theorem netlocOk_elim (c : Char) (h : netlocOk c = true) :
    urlByteOk c = true ∧ notNetlocDelim c = true := by
  unfold netlocOk at h
  rw [Bool.and_eq_true] at h
  exact h

theorem schemeChar_urlByteOk (c : Char) (h : isSchemeChar c = true) :
    urlByteOk c = true := by
  have h43 : ('+' : Char).toNat = 43 := by decide
  have h45 : ('-' : Char).toNat = 45 := by decide
  have h46 : ('.' : Char).toNat = 46 := by decide
  have hr : (97 ≤ c.toNat ∧ c.toNat ≤ 122) ∨ (65 ≤ c.toNat ∧ c.toNat ≤ 90)
      ∨ (48 ≤ c.toNat ∧ c.toNat ≤ 57) ∨ c.toNat = 43 ∨ c.toNat = 45
      ∨ c.toNat = 46 := by
    unfold isSchemeChar isAlnumAscii at h
    simp only [Bool.or_eq_true, Bool.and_eq_true, decide_eq_true_eq,
      beq_char_toNat, h43, h45, h46] at h
    tauto
  unfold urlByteOk
  rw [Bool.not_eq_true', Bool.or_eq_false_iff, Bool.or_eq_false_iff]
  refine ⟨⟨?_, ?_⟩, ?_⟩ <;>
    (rw [beq_char_toNat]
     simp only [decide_eq_false_iff_not])
  · rw [show ('\t' : Char).toNat = 9 from by decide]; omega
  · rw [show ('\r' : Char).toNat = 13 from by decide]; omega
  · rw [show ('\n' : Char).toNat = 10 from by decide]; omega

theorem take2_append_ne (p X : List Char) (hp : ¬ p.take 2 = ['/', '/'])
    (hX : X = [] ∨ ∃ d t, X = d :: t ∧ ¬ d = '/') :
    ¬ (p ++ X).take 2 = ['/', '/'] := by
  cases p with
  | nil =>
      simp only [List.nil_append]
      rcases hX with h | ⟨d, t, hdt, hd⟩
      · rw [h]
        intro habs
        cases habs
      · rw [hdt]
        intro habs
        cases t with
        | nil => cases habs
        | cons y t2 =>
            simp only [List.take, List.cons.injEq] at habs
            exact hd habs.1
  | cons x p2 =>
      cases p2 with
      | nil =>
          simp only [List.cons_append, List.nil_append]
          rcases hX with h | ⟨d, t, hdt, hd⟩
          · rw [h]
            intro habs
            cases habs
          · rw [hdt]
            intro habs
            simp only [List.take, List.cons.injEq] at habs
            exact hd habs.2.1
      | cons y p3 =>
          simp only [List.cons_append]
          intro habs
          simp only [List.take, List.cons.injEq] at habs
          apply hp
          rw [habs.1, habs.2.1]
          rfl

theorem qfSuffix_shape (q f : List Char) :
    qfSuffix q f = [] ∨ ∃ d t, qfSuffix q f = d :: t ∧ (d = '?' ∨ d = '#') := by
  unfold qfSuffix
  by_cases hq : (!q.isEmpty) = true
  · rw [if_pos hq]
    right
    exact ⟨'?', q ++ (if !f.isEmpty then '#' :: f else []),
      List.cons_append '?' q _, Or.inl rfl⟩
  · rw [if_neg hq]
    rw [List.nil_append]
    by_cases hf : (!f.isEmpty) = true
    · rw [if_pos hf]
      exact Or.inr ⟨'#', f, rfl, Or.inr rfl⟩
    · rw [if_neg hf]
      exact Or.inl rfl

theorem fragSplit_tail (w q f : List Char) (hw : '#' ∉ w) (hq : '#' ∉ q) :
    fragSplit (w ++ qfSuffix q f)
      = (w ++ (if !q.isEmpty then '?' :: q else []), f) := by
  have hwq : '#' ∉ w ++ (if !q.isEmpty then '?' :: q else []) := by
    intro hm
    rcases List.mem_append.mp hm with h1 | h1
    · exact hw h1
    · by_cases hqe : (!q.isEmpty) = true
      · rw [hqe] at h1
        simp only [if_true] at h1
        rcases List.mem_cons.mp h1 with h2 | h2
        · cases h2
        · exact hq h2
      · rw [Bool.not_eq_true] at hqe
        rw [hqe] at h1
        simp at h1
  unfold qfSuffix
  by_cases hf : (!f.isEmpty) = true
  · rw [hf]
    simp only [if_true]
    rw [← List.append_assoc]
    show splitOnce '#' ((w ++ (if !q.isEmpty then '?' :: q else [])) ++ '#' :: f)
      = _
    rw [splitOnce_append '#' _ f hwq]
  · rw [Bool.not_eq_true] at hf
    rw [hf]
    simp only [Bool.false_eq_true, if_false, List.append_nil]
    show splitOnce '#' (w ++ (if !q.isEmpty then '?' :: q else []))
      = (w ++ (if !q.isEmpty then '?' :: q else []), f)
    rw [splitOnce_no_mem '#' _ hwq]
    have hf2 : f = [] := by
      cases hb : f.isEmpty with
      | true => exact List.isEmpty_iff.mp hb
      | false => rw [hb] at hf; cases hf
    rw [hf2]

theorem querySplit_tail (w q : List Char) (hw : '?' ∉ w) :
    querySplit (w ++ (if !q.isEmpty then '?' :: q else [])) = (w, q) := by
  by_cases hqe : (!q.isEmpty) = true
  · rw [hqe]
    simp only [if_true]
    exact splitOnce_append '?' w q hw
  · rw [Bool.not_eq_true] at hqe
    rw [hqe]
    simp only [Bool.false_eq_true, if_false, List.append_nil]
    show splitOnce '?' w = (w, q)
    rw [splitOnce_no_mem '?' w hw]
    have hq2 : q = [] := by
      cases hb : q.isEmpty with
      | true => exact List.isEmpty_iff.mp hb
      | false => rw [hb] at hqe; cases hqe
    rw [hq2]

theorem safeCore_err (nfkc : List Char → Bool) (v : List Char)
    (h : urlsplit nfkc v = Except.error ()) :
    safeCore nfkc v = Except.error () := by
  unfold safeCore
  simp only [h]

theorem safeCore_ok_stable (nfkc : List Char → Bool) (v : List Char)
    (parts3 : SplitResult) (h1 : urlsplit nfkc v = Except.ok parts3)
    (h2 : safeTransform parts3 = Except.ok parts3) :
    safeCore nfkc v = Except.ok (urlunsplit parts3) := by
  unfold safeCore
  simp only [h1, h2]

theorem validBefore_all (s : List Char) (h : validBefore s = true) :
    s.all isSchemeChar = true := by
  cases s with
  | nil => cases h
  | cons c t =>
      simp only [validBefore, Bool.and_eq_true] at h
      exact h.2

theorem ne_nil_not_isEmpty (l : List Char) (h : ¬ l = []) :
    (!l.isEmpty) = true := by
  cases hc : l with
  | nil => exact absurd hc h
  | cons x t => rfl

theorem isEmpty_false_of_ne_nil (l : List Char) (h : ¬ l = []) :
    l.isEmpty = false := by
  cases hc : l with
  | nil => exact absurd hc h
  | cons x t => rfl

theorem all_urlByteOk_qfSuffix (q f : List Char)
    (hq : ∀ ch ∈ q, queryOk ch = true) (hf : f.all urlByteOk = true) :
    (qfSuffix q f).all urlByteOk = true := by
  rw [List.all_eq_true]
  intro x hx
  unfold qfSuffix at hx
  rcases List.mem_append.mp hx with h1 | h1
  · by_cases hqe : (!q.isEmpty) = true
    · rw [if_pos hqe] at h1
      rcases List.mem_cons.mp h1 with h2 | h2
      · rw [h2]; decide
      · exact (queryOk_elim x (hq x h2)).1
    · rw [if_neg hqe] at h1
      cases h1
  · by_cases hfe : (!f.isEmpty) = true
    · rw [if_pos hfe] at h1
      rcases List.mem_cons.mp h1 with h2 | h2
      · rw [h2]; decide
      · exact List.all_eq_true.mp hf x h2
    · rw [if_neg hfe] at h1
      cases h1

theorem wqf_split (w QFl : List Char) (hw : w = [] ∨ ∃ t, w = '/' :: t)
    (hQF : QFl = [] ∨ ∃ d t, QFl = d :: t ∧ notNetlocDelim d = false) :
    (w ++ QFl).takeWhile notNetlocDelim = []
    ∧ (w ++ QFl).dropWhile notNetlocDelim = w ++ QFl := by
  rcases hw with hw | ⟨t, hw⟩
  · rw [hw, List.nil_append]
    rcases hQF with hQ | ⟨d, t2, hQ, hd⟩
    · rw [hQ]
      exact ⟨rfl, rfl⟩
    · rw [hQ, List.takeWhile_cons, List.dropWhile_cons, hd]
      exact ⟨rfl, rfl⟩
  · rw [hw, List.cons_append, List.takeWhile_cons, List.dropWhile_cons]
    rw [show notNetlocDelim '/' = false from by decide]
    exact ⟨rfl, rfl⟩

theorem qfSuffix_delim (q f : List Char) :
    qfSuffix q f = []
    ∨ ∃ d t, qfSuffix q f = d :: t ∧ notNetlocDelim d = false := by
  rcases qfSuffix_shape q f with h | ⟨d, t, hdt, hd⟩
  · exact Or.inl h
  · right
    refine ⟨d, t, hdt, ?_⟩
    rcases hd with h | h <;> (rw [h]; decide)

theorem qfSuffix_scheme_delim (q f : List Char) :
    qfSuffix q f = []
    ∨ ∃ d t, qfSuffix q f = d :: t ∧ isSchemeChar d = false ∧ ¬ d = ':' := by
  rcases qfSuffix_shape q f with h | ⟨d, t, hdt, hd⟩
  · exact Or.inl h
  · right
    refine ⟨d, t, hdt, ?_, ?_⟩ <;> rcases hd with h | h <;> (rw [h]; decide)

theorem no_hash_quest_of_pathOk (w : List Char) (h : w.all pathOk = true) :
    '#' ∉ w ∧ '?' ∉ w := by
  constructor <;> intro hm
  · exact (pathOk_elim '#' (List.all_eq_true.mp h '#' hm)).2.1 rfl
  · exact (pathOk_elim '?' (List.all_eq_true.mp h '?' hm)).2.2 rfl

theorem no_hash_of_queryOk (q : List Char) (hq : ∀ ch ∈ q, queryOk ch = true) :
    '#' ∉ q := by
  intro hm
  exact (queryOk_elim '#' (hq '#' hm)).2.1 rfl

theorem netloc_all_delim (n : List Char) (h : n.all netlocOk = true) :
    n.all notNetlocDelim = true := by
  rw [List.all_eq_true] at h ⊢
  exact fun x hx => (netlocOk_elim x (h x hx)).2

theorem netloc_all_byte (n : List Char) (h : n.all netlocOk = true) :
    n.all urlByteOk = true := by
  rw [List.all_eq_true] at h ⊢
  exact fun x hx => (netlocOk_elim x (h x hx)).1

theorem path_all_byte (p : List Char) (h : p.all pathOk = true) :
    p.all urlByteOk = true := by
  rw [List.all_eq_true] at h ⊢
  exact fun x hx => (pathOk_elim x (h x hx)).1

theorem scheme_all_byte (s : List Char) (h : validBefore s = true) :
    s.all urlByteOk = true := by
  have h2 := validBefore_all s h
  rw [List.all_eq_true] at h2 ⊢
  exact fun x hx => schemeChar_urlByteOk x (h2 x hx)

theorem slashAdjust_all_byte (p : List Char) (h : p.all pathOk = true) :
    (slashAdjust p).all urlByteOk = true :=
  path_all_byte _ (slashAdjust_all_pathOk p h)

theorem checknetloc_nil (nfkc : List Char → Bool) :
    checknetloc nfkc [] = true := rfl

theorem userinfoOf_nil_1 : truthyOpt (userinfoOf []).1 = false := rfl

theorem userinfoOf_nil_2 : truthyOpt (userinfoOf []).2 = false := rfl

theorem reparse_cond_true (nfkc : List Char → Bool) (s n p q f : List Char)
    (hs : s = [] ∨ (validBefore s = true ∧ s.map asciiLower = s))
    (hnall : n.all netlocOk = true)
    (hu1 : truthyOpt (userinfoOf n).1 = false)
    (hu2 : truthyOpt (userinfoOf n).2 = false)
    (hpall : p.all pathOk = true)
    (hq : ∀ ch ∈ q, queryOk ch = true)
    (hqstable : urlencode (redactPairs (parse_qsl q)) = q)
    (hfall : f.all urlByteOk = true)
    (hcond : netlocCond ⟨s, n, p, q, f⟩ = true) :
    safeCore nfkc (urlunsplit ⟨s, n, p, q, f⟩) = Except.error ()
    ∨ safeCore nfkc (urlunsplit ⟨s, n, p, q, f⟩)
        = Except.ok (urlunsplit ⟨s, n, p, q, f⟩) := by
  have hub : urlBase ⟨s, n, p, q, f⟩ = '/' :: '/' :: (n ++ slashAdjust p) := by
    unfold urlBase
    rw [if_pos hcond]
  have hdec := urlunsplit_decompose ⟨s, n, p, q, f⟩
  rw [hub] at hdec
  have hwsh := slashAdjust_if_shape p
  have hwall : (slashAdjust p).all pathOk = true := slashAdjust_all_pathOk p hpall
  obtain ⟨hwh, hwq⟩ := no_hash_quest_of_pathOk (slashAdjust p) hwall
  have hqh : '#' ∉ q := no_hash_of_queryOk q hq
  have hsplitp : splitPoint (('/' :: '/' :: (n ++ slashAdjust p)) ++ qfSuffix q f)
      = (n, slashAdjust p ++ qfSuffix q f) := by
    have h1 : ('/' :: '/' :: (n ++ slashAdjust p)) ++ qfSuffix q f
        = '/' :: '/' :: (n ++ (slashAdjust p ++ qfSuffix q f)) := by
      simp [List.append_assoc]
    rw [h1, splitPoint_slash]
    obtain ⟨ht, hd⟩ := wqf_split (slashAdjust p) (qfSuffix q f) hwsh
      (qfSuffix_delim q f)
    rw [takeWhile_append_all _ n _ (netloc_all_delim n hnall), ht,
      List.append_nil, dropWhile_append_all _ n _ (netloc_all_delim n hnall), hd]
  have hbase : ∀ x ∈ ('/' :: '/' :: (n ++ slashAdjust p)) ++ qfSuffix q f,
      urlByteOk x = true := by
    intro x hx
    rcases List.mem_append.mp hx with h1 | h1
    · rcases List.mem_cons.mp h1 with h2 | h2
      · rw [h2]; decide
      · rcases List.mem_cons.mp h2 with h3 | h3
        · rw [h3]; decide
        · rcases List.mem_append.mp h3 with h4 | h4
          · exact List.all_eq_true.mp (netloc_all_byte n hnall) x h4
          · exact List.all_eq_true.mp (slashAdjust_all_byte p hpall) x h4
    · exact List.all_eq_true.mp (all_urlByteOk_qfSuffix q f hq hfall) x h1
  have hfs : fragSplit (slashAdjust p ++ qfSuffix q f)
      = (slashAdjust p ++ (if !q.isEmpty then '?' :: q else []), f) :=
    fragSplit_tail (slashAdjust p) q f hwh hqh
  have hqs : querySplit (slashAdjust p ++ (if !q.isEmpty then '?' :: q else []))
      = (slashAdjust p, q) := querySplit_tail (slashAdjust p) q hwq
  by_cases hs0 : s = []
  · -- no scheme: the whole URL is the authority form
    have hse : (!s.isEmpty) = false := by rw [hs0]; rfl
    rw [hse] at hdec
    simp only [Bool.false_eq_true, if_false] at hdec
    have hrm : removeUnsafe (urlunsplit ⟨s, n, p, q, f⟩)
        = urlunsplit ⟨s, n, p, q, f⟩ := by
      apply removeUnsafe_of_all
      rw [hdec, List.all_eq_true]
      exact hbase
    have hss : schemeSplit (urlunsplit ⟨s, n, p, q, f⟩)
        = ([], ('/' :: '/' :: (n ++ slashAdjust p)) ++ qfSuffix q f) := by
      rw [hdec]
      have h2 : ('/' :: '/' :: (n ++ slashAdjust p)) ++ qfSuffix q f
          = '/' :: ('/' :: (n ++ slashAdjust p) ++ qfSuffix q f) := by
        simp
      rw [h2]
      rw [schemeSplit_of_noValidColon _ (noValidColon_cons_notalpha '/' _ (by decide))]
    by_cases hbm : bracketMismatch n = true
    · exact Or.inl (safeCore_err nfkc _
        (urlsplit_build_err nfkc _ [] n _ _ hrm hss hsplitp (Or.inl hbm)))
    · rw [Bool.not_eq_true] at hbm
      by_cases hcn : checknetloc nfkc n = true
      · right
        have hb2 := urlsplit_build nfkc _ [] n _ _ hrm hss hsplitp hbm hcn
        simp only [hfs, hqs] at hb2
        -- the netloc condition holds again on reparse
        have hcond2 : netlocCond ⟨[], n, slashAdjust p, q, f⟩ = true := by
          unfold netlocCond at hcond ⊢
          dsimp only at hcond ⊢
          rw [hs0] at hcond
          simp only [List.isEmpty_nil, Bool.not_true, Bool.false_and,
            Bool.or_false, Bool.false_or] at hcond ⊢
          exact hcond
        have hub2 : urlBase ⟨[], n, slashAdjust p, q, f⟩
            = '/' :: '/' :: (n ++ slashAdjust p) := by
          unfold urlBase
          rw [if_pos hcond2]
          dsimp only
          rw [slashAdjust_slash (slashAdjust p) hwsh]
        have hst : safeTransform ⟨[], n, slashAdjust p, q, f⟩
            = Except.ok ⟨[], n, slashAdjust p, q, f⟩ :=
          safeTransform_stable _ hu1 hu2 hqstable
        have hsc := safeCore_ok_stable nfkc _ _ hb2 hst
        rw [hsc]
        have hdec2 := urlunsplit_decompose ⟨[], n, slashAdjust p, q, f⟩
        rw [hub2] at hdec2
        simp only [List.isEmpty_nil, Bool.not_true, Bool.false_eq_true,
          if_false] at hdec2
        rw [hdec2, hdec]
      · rw [Bool.not_eq_true] at hcn
        exact Or.inl (safeCore_err nfkc _
          (urlsplit_build_err nfkc _ [] n _ _ hrm hss hsplitp (Or.inr hcn)))
  · -- scheme present
    obtain ⟨hvb, hlow⟩ := hs.resolve_left hs0
    have hse : (!s.isEmpty) = true := ne_nil_not_isEmpty s hs0
    rw [hse] at hdec
    simp only [if_true] at hdec
    have hrm : removeUnsafe (urlunsplit ⟨s, n, p, q, f⟩)
        = urlunsplit ⟨s, n, p, q, f⟩ := by
      apply removeUnsafe_of_all
      rw [hdec, List.all_eq_true]
      intro x hx
      rcases List.mem_append.mp hx with h1 | h1
      · exact List.all_eq_true.mp (scheme_all_byte s hvb) x h1
      · rcases List.mem_cons.mp h1 with h2 | h2
        · rw [h2]; decide
        · exact hbase x h2
    have hss : schemeSplit (urlunsplit ⟨s, n, p, q, f⟩)
        = (s, ('/' :: '/' :: (n ++ slashAdjust p)) ++ qfSuffix q f) := by
      rw [hdec]
      exact schemeSplit_prefix s _ hvb hlow
    by_cases hbm : bracketMismatch n = true
    · exact Or.inl (safeCore_err nfkc _
        (urlsplit_build_err nfkc _ s n _ _ hrm hss hsplitp (Or.inl hbm)))
    · rw [Bool.not_eq_true] at hbm
      by_cases hcn : checknetloc nfkc n = true
      · right
        have hb2 := urlsplit_build nfkc _ s n _ _ hrm hss hsplitp hbm hcn
        simp only [hfs, hqs] at hb2
        have hcond2 : netlocCond ⟨s, n, slashAdjust p, q, f⟩ = true := by
          unfold netlocCond at hcond ⊢
          dsimp only at hcond ⊢
          rcases Bool.or_eq_true _ _ |>.mp hcond with h1 | h1
          · rw [h1]
            rfl
          · rw [Bool.and_eq_true, Bool.and_eq_true] at h1
            obtain ⟨⟨hsne, hcont⟩, hdec2⟩ := h1
            have htake := slashAdjust_take2 p (of_decide_eq_true hdec2)
            rw [hsne, hcont, decide_eq_true htake]
            simp
        have hub2 : urlBase ⟨s, n, slashAdjust p, q, f⟩
            = '/' :: '/' :: (n ++ slashAdjust p) := by
          unfold urlBase
          rw [if_pos hcond2]
          dsimp only
          rw [slashAdjust_slash (slashAdjust p) hwsh]
        have hst : safeTransform ⟨s, n, slashAdjust p, q, f⟩
            = Except.ok ⟨s, n, slashAdjust p, q, f⟩ :=
          safeTransform_stable _ hu1 hu2 hqstable
        have hsc := safeCore_ok_stable nfkc _ _ hb2 hst
        rw [hsc]
        have hdec2 := urlunsplit_decompose ⟨s, n, slashAdjust p, q, f⟩
        rw [hub2] at hdec2
        dsimp only at hdec2
        rw [hse] at hdec2
        simp only [if_true] at hdec2
        rw [hdec2, hdec]
      · rw [Bool.not_eq_true] at hcn
        exact Or.inl (safeCore_err nfkc _
          (urlsplit_build_err nfkc _ s n _ _ hrm hss hsplitp (Or.inr hcn)))

theorem reparse_cond_false (nfkc : List Char → Bool) (s n p q f : List Char)
    (hs : s = [] ∨ (validBefore s = true ∧ s.map asciiLower = s))
    (hq : ∀ ch ∈ q, queryOk ch = true)
    (hqstable : urlencode (redactPairs (parse_qsl q)) = q)
    (hpall : p.all pathOk = true)
    (hfall : f.all urlByteOk = true)
    (hnvp : s = [] → noValidColon p)
    (hp2 : ¬ p.take 2 = ['/', '/'])
    (hcond : netlocCond ⟨s, n, p, q, f⟩ = false) :
    safeCore nfkc (urlunsplit ⟨s, n, p, q, f⟩) = Except.error ()
    ∨ safeCore nfkc (urlunsplit ⟨s, n, p, q, f⟩)
        = Except.ok (urlunsplit ⟨s, n, p, q, f⟩) := by
  have hn : n = [] := by
    have h1 : (!n.isEmpty) = false := by
      cases hx : (!n.isEmpty) with
      | false => rfl
      | true =>
          unfold netlocCond at hcond
          dsimp only at hcond
          rw [hx] at hcond
          simp at hcond
    cases hc : n with
    | nil => rfl
    | cons x t => rw [hc] at h1; simp at h1
  subst hn
  have hub : urlBase ⟨s, [], p, q, f⟩ = p := by
    unfold urlBase
    rw [if_neg (by rw [hcond]; simp)]
  have hdec := urlunsplit_decompose ⟨s, [], p, q, f⟩
  rw [hub] at hdec
  have hqh : '#' ∉ q := no_hash_of_queryOk q hq
  obtain ⟨hph, hpq⟩ := no_hash_quest_of_pathOk p hpall
  have hqfne : qfSuffix q f = [] ∨ ∃ d t, qfSuffix q f = d :: t ∧ ¬ d = '/' := by
    rcases qfSuffix_shape q f with h | ⟨d, t, hdt, hd⟩
    · exact Or.inl h
    · exact Or.inr ⟨d, t, hdt, by rcases hd with h | h <;> (rw [h]; decide)⟩
  have hsplitp : splitPoint (p ++ qfSuffix q f) = ([], p ++ qfSuffix q f) :=
    splitPoint_no_slash _ (take2_append_ne p _ hp2 hqfne)
  have hfs : fragSplit (p ++ qfSuffix q f)
      = (p ++ (if !q.isEmpty then '?' :: q else []), f) :=
    fragSplit_tail p q f hph hqh
  have hqs : querySplit (p ++ (if !q.isEmpty then '?' :: q else [])) = (p, q) :=
    querySplit_tail p q hpq
  have hbase : ∀ x ∈ p ++ qfSuffix q f, urlByteOk x = true := by
    intro x hx
    rcases List.mem_append.mp hx with h1 | h1
    · exact List.all_eq_true.mp (path_all_byte p hpall) x h1
    · exact List.all_eq_true.mp (all_urlByteOk_qfSuffix q f hq hfall) x h1
  have hbm : bracketMismatch ([] : List Char) = false := by decide
  by_cases hs0 : s = []
  · subst hs0
    have hse : (!([] : List Char).isEmpty) = false := rfl
    rw [hse] at hdec
    simp only [Bool.false_eq_true, if_false] at hdec
    have hrm : removeUnsafe (urlunsplit ⟨[], [], p, q, f⟩)
        = urlunsplit ⟨[], [], p, q, f⟩ := by
      apply removeUnsafe_of_all
      rw [hdec, List.all_eq_true]
      exact hbase
    have hss : schemeSplit (urlunsplit ⟨[], [], p, q, f⟩)
        = ([], p ++ qfSuffix q f) := by
      rw [hdec]
      exact schemeSplit_of_noValidColon _
        (noValidColon_append_delim p _ (hnvp rfl) (qfSuffix_scheme_delim q f))
    have hb2 := urlsplit_build nfkc _ [] [] _ _ hrm hss hsplitp hbm
      (checknetloc_nil nfkc)
    simp only [hfs, hqs] at hb2
    have hst : safeTransform ⟨[], [], p, q, f⟩ = Except.ok ⟨[], [], p, q, f⟩ :=
      safeTransform_stable _ userinfoOf_nil_1 userinfoOf_nil_2 hqstable
    exact Or.inr (safeCore_ok_stable nfkc _ _ hb2 hst)
  · obtain ⟨hvb, hlow⟩ := hs.resolve_left hs0
    have hse : (!s.isEmpty) = true := ne_nil_not_isEmpty s hs0
    rw [hse] at hdec
    simp only [if_true] at hdec
    have hrm : removeUnsafe (urlunsplit ⟨s, [], p, q, f⟩)
        = urlunsplit ⟨s, [], p, q, f⟩ := by
      apply removeUnsafe_of_all
      rw [hdec, List.all_eq_true]
      intro x hx
      rcases List.mem_append.mp hx with h1 | h1
      · exact List.all_eq_true.mp (scheme_all_byte s hvb) x h1
      · rcases List.mem_cons.mp h1 with h2 | h2
        · rw [h2]; decide
        · exact hbase x h2
    have hss : schemeSplit (urlunsplit ⟨s, [], p, q, f⟩)
        = (s, p ++ qfSuffix q f) := by
      rw [hdec]
      exact schemeSplit_prefix s _ hvb hlow
    have hb2 := urlsplit_build nfkc _ s [] _ _ hrm hss hsplitp hbm
      (checknetloc_nil nfkc)
    simp only [hfs, hqs] at hb2
    have hst : safeTransform ⟨s, [], p, q, f⟩ = Except.ok ⟨s, [], p, q, f⟩ :=
      safeTransform_stable _ userinfoOf_nil_1 userinfoOf_nil_2 hqstable
    exact Or.inr (safeCore_ok_stable nfkc _ _ hb2 hst)

theorem safeCore_reparse (nfkc : List Char → Bool) (url : List Char)
    (parts parts2 : SplitResult)
    (hsp : urlsplit nfkc url = Except.ok parts)
    (htr : safeTransform parts = Except.ok parts2)
    (hben : ¬ (parts2.netloc = [] ∧ parts2.path.take 2 = ['/', '/'])) :
    safeCore nfkc (urlunsplit parts2) = Except.error ()
    ∨ safeCore nfkc (urlunsplit parts2) = Except.ok (urlunsplit parts2) := by
  obtain ⟨netloc2, hsn, hp2⟩ := safeTransform_ok_elim parts parts2 htr
  obtain ⟨hsch, hnall, _, _, hpall, hfall, hnvp⟩ := urlsplit_inv nfkc url parts hsp
  obtain ⟨hn2all, hu1, hu2⟩ := safeNetloc_ok_good parts.netloc netloc2 hnall hsn
  subst hp2
  have hqch : ∀ ch ∈ urlencode (redactPairs (parse_qsl parts.query)),
      queryOk ch = true := urlencode_chars _
  have hqstable : urlencode (redactPairs (parse_qsl
        (urlencode (redactPairs (parse_qsl parts.query)))))
      = urlencode (redactPairs (parse_qsl parts.query)) := by
    rw [parse_qsl_urlencode, redactPairs_idem]
  by_cases hcond : netlocCond ⟨parts.scheme, netloc2, parts.path,
      urlencode (redactPairs (parse_qsl parts.query)), parts.fragment⟩ = true
  · exact reparse_cond_true nfkc _ _ _ _ _ hsch hn2all hu1 hu2 hpall hqch
      hqstable hfall hcond
  · rw [Bool.not_eq_true] at hcond
    have hnil : netloc2 = [] := by
      have h1 : (!netloc2.isEmpty) = false := by
        cases hx : (!netloc2.isEmpty) with
        | false => rfl
        | true =>
            unfold netlocCond at hcond
            dsimp only at hcond
            rw [hx] at hcond
            simp at hcond
      cases hc : netloc2 with
      | nil => rfl
      | cons x t => rw [hc] at h1; simp at h1
    have hp2 : ¬ parts.path.take 2 = ['/', '/'] := fun h => hben ⟨hnil, h⟩
    exact reparse_cond_false nfkc _ _ _ _ _ hsch hqch hqstable hpall hfall
      hnvp hp2 hcond

theorem safe_stream_url_err_fix (nfkc : List Char → Bool) (url : List Char)
    (h : safeCore nfkc url = Except.error ()) :
    safe_stream_url nfkc url = url := by
  unfold safe_stream_url
  by_cases hue : url.isEmpty = true
  · rw [if_pos hue]
    exact (List.isEmpty_iff.mp hue).symm
  · rw [if_neg hue]
    simp only [h]

theorem safe_stream_url_idem_err (nfkc : List Char → Bool) (url : List Char)
    (h : safeCore nfkc url = Except.error ()) :
    safe_stream_url nfkc (safe_stream_url nfkc url)
      = safe_stream_url nfkc url := by
  have hinner := safe_stream_url_err_fix nfkc url h
  rw [hinner]
  exact hinner

theorem safe_stream_url_idem_ok (nfkc : List Char → Bool) (url : List Char)
    (parts parts2 : SplitResult)
    (hsp : urlsplit nfkc url = Except.ok parts)
    (htr : safeTransform parts = Except.ok parts2)
    (hben : ¬ (parts2.netloc = [] ∧ parts2.path.take 2 = ['/', '/'])) :
    safe_stream_url nfkc (safe_stream_url nfkc url)
      = safe_stream_url nfkc url := by
  by_cases hue : url.isEmpty = true
  · have h0 : safe_stream_url nfkc url = [] := by
      unfold safe_stream_url
      rw [if_pos hue]
    rw [h0]
    unfold safe_stream_url
    rfl
  · have hcore : safeCore nfkc url = Except.ok (urlunsplit parts2) := by
      unfold safeCore
      simp only [hsp, htr]
    have hv : safe_stream_url nfkc url = urlunsplit parts2 := by
      unfold safe_stream_url
      rw [if_neg hue]
      simp only [hcore]
    rw [hv]
    rcases safeCore_reparse nfkc url parts parts2 hsp htr hben with herr | hok
    · unfold safe_stream_url
      by_cases hve : (urlunsplit parts2).isEmpty = true
      · rw [if_pos hve]
        exact (List.isEmpty_iff.mp hve).symm
      · rw [if_neg hve]
        simp only [herr]
    · unfold safe_stream_url
      by_cases hve : (urlunsplit parts2).isEmpty = true
      · rw [if_pos hve]
        exact (List.isEmpty_iff.mp hve).symm
      · rw [if_neg hve]
        simp only [hok]

/-- C7 counterexample: safe_stream_url is not idempotent, and its output can
retain userinfo. The URL "http:////user:pw@host/x" parses with an empty
authority and path "//user:pw@host/x"; urlunsplit then emits
"http://user:pw@host/x", whose re-parse treats "user:pw@host" as the
authority, so a second application strips the smuggled credentials and
yields "http://host/x" ≠ "http://user:pw@host/x". -/
theorem C7_claim_counterexample :
    safe_stream_url (fun _ => true) "http:////user:pw@host/x".data
      = "http://user:pw@host/x".data
    ∧ safe_stream_url (fun _ => true)
        (safe_stream_url (fun _ => true) "http:////user:pw@host/x".data)
      ≠ safe_stream_url (fun _ => true) "http:////user:pw@host/x".data := by
  constructor
  · decide
  · decide

/-- C7 amended: (1) whenever safe_stream_url's try-block completes its
transformation, the components it reassembles have no truthy username or
password, and every sensitive key of the rewritten query maps to REDACTED;
(2) when the try-block raises, the input is returned unchanged, so a second
application is a fixed point; (3) applying safe_stream_url twice equals
applying it once whenever the sanitized components do not have an empty
authority together with a path starting in "//" (in that excluded case the
reassembled URL re-parses path text as the authority, as the counterexample
shows, and idempotence can fail). -/
theorem C7_amended_safe_stream_url :
    (∀ (nfkc : List Char → Bool) (url : List Char) (parts parts2 : SplitResult),
        urlsplit nfkc url = Except.ok parts →
        safeTransform parts = Except.ok parts2 →
        truthyOpt (userinfoOf parts2.netloc).1 = false
        ∧ truthyOpt (userinfoOf parts2.netloc).2 = false
        ∧ ∀ kv ∈ parse_qsl parts2.query, isSensitiveKey kv.1 = true
            → kv.2 = "REDACTED".data)
    ∧ (∀ (nfkc : List Char → Bool) (url : List Char),
        safeCore nfkc url = Except.error () →
        safe_stream_url nfkc (safe_stream_url nfkc url)
          = safe_stream_url nfkc url)
    ∧ (∀ (nfkc : List Char → Bool) (url : List Char)
          (parts parts2 : SplitResult),
        urlsplit nfkc url = Except.ok parts →
        safeTransform parts = Except.ok parts2 →
        ¬ (parts2.netloc = [] ∧ parts2.path.take 2 = ['/', '/']) →
        safe_stream_url nfkc (safe_stream_url nfkc url)
          = safe_stream_url nfkc url) := by
  refine ⟨?_, ?_, ?_⟩
  · intro nfkc url parts parts2 hsp htr
    obtain ⟨netloc2, hsn, hp2⟩ := safeTransform_ok_elim parts parts2 htr
    obtain ⟨_, hnall, _, _, _, _, _⟩ := urlsplit_inv nfkc url parts hsp
    obtain ⟨_, hu1, hu2⟩ := safeNetloc_ok_good parts.netloc netloc2 hnall hsn
    subst hp2
    refine ⟨hu1, hu2, ?_⟩
    intro kv hkv hs
    dsimp only at hkv
    rw [parse_qsl_urlencode] at hkv
    exact redactPairs_sensitive _ kv hkv hs
  · exact fun nfkc url h => safe_stream_url_idem_err nfkc url h
  · exact fun nfkc url parts parts2 hsp htr hben =>
      safe_stream_url_idem_ok nfkc url parts parts2 hsp htr hben

/-- C7 witness: on "http://user:pw@host/x?token=abc" the parse and the
transformation succeed concretely; the rebuilt authority "host" carries no
userinfo, the token value is REDACTED, and the sanitized URL
"http://host/x?token=REDACTED" is a fixed point of safe_stream_url. -/
theorem C7_amended_safe_stream_url_witness :
    (urlsplit (fun _ => true) "http://user:pw@host/x?token=abc".data
        = Except.ok ⟨"http".data, "user:pw@host".data, "/x".data,
            "token=abc".data, []⟩)
    ∧ (safeTransform ⟨"http".data, "user:pw@host".data, "/x".data,
            "token=abc".data, []⟩
        = Except.ok ⟨"http".data, "host".data, "/x".data,
            "token=REDACTED".data, []⟩)
    ∧ (truthyOpt (userinfoOf ((⟨"http".data, "host".data, "/x".data,
            "token=REDACTED".data, []⟩ : SplitResult)).netloc).1 = false
        ∧ truthyOpt (userinfoOf ((⟨"http".data, "host".data, "/x".data,
            "token=REDACTED".data, []⟩ : SplitResult)).netloc).2 = false
        ∧ ∀ kv ∈ parse_qsl ((⟨"http".data, "host".data, "/x".data,
            "token=REDACTED".data, []⟩ : SplitResult)).query,
            isSensitiveKey kv.1 = true → kv.2 = "REDACTED".data)
    ∧ safe_stream_url (fun _ => true)
        (safe_stream_url (fun _ => true)
          "http://user:pw@host/x?token=abc".data)
      = safe_stream_url (fun _ => true) "http://user:pw@host/x?token=abc".data :=
  ⟨rfl, rfl,
   C7_amended_safe_stream_url.1 (fun _ => true)
     "http://user:pw@host/x?token=abc".data
     ⟨"http".data, "user:pw@host".data, "/x".data, "token=abc".data, []⟩
     ⟨"http".data, "host".data, "/x".data, "token=REDACTED".data, []⟩
     rfl rfl,
   C7_amended_safe_stream_url.2.2 (fun _ => true)
     "http://user:pw@host/x?token=abc".data
     ⟨"http".data, "user:pw@host".data, "/x".data, "token=abc".data, []⟩
     ⟨"http".data, "host".data, "/x".data, "token=REDACTED".data, []⟩
     rfl rfl (by decide)⟩

end Birdnet
